import Mathlib

/-! # LLZ4 block codec: a shallow embedding of `src/LLZ4.c`

Bytes are natural numbers below 256.  The input block is an immutable list of
bytes; a cursor into it is its index.  The output buffer is a capacity together
with a content function on indices, and every memory access of the C code is
recorded in an access log, so that both the produced bytes and the touched
index ranges can be stated.  A read outside the input yields 0, a read of the
output before its start yields 0, a read of the output at or after the capacity
yields what the content function holds there, and a write at or after the
capacity is dropped; all of them stay visible in the log.

`memcpy` is modelled as "load every source byte, then store", the behaviour of
the fixed-size 8-byte copies used by the wild copies.  32-bit loads are
little-endian, the byte order the source assumes for its bit scan.  Pointers
are indices and sizes are natural numbers; the one narrowing conversion that
matters, `(int)(outPtr - outBegin)`, is `toInt32`.

The hash table is a function from slot indices to entries.  It covers the
16384 slots of `data` and the memory behind them, because the index that
`updateHash` computes is not confined to the table (`hashIndexWide`): a slot
behind the table holds what was stored there last, `memset` clears the slots of
the table only (`clearTable`), and what a call stored behind the table is there
at the next call with the same context.  An entry is a position of the current
input; a pointer into another buffer has no counterpart here.  The offset of a
match is the difference of two positions as `size_t` (`offsetOf`).

The two outer loops (`compressBlock`, `decompressBlock`) and the re-index loop
take a fuel argument and yield `none` when it runs out; the theorems show that
they yield `some`.  The other loops recurse on a count computed from their loop
bound, and the `_fuel` lemmas show that the count is never what ends them.

The context and buffer pointers of the public functions are taken to be
non-null, so that of the parameter checks only the size check remains.
-/

set_option autoImplicit false

namespace LLZ4

/-! ## Constants (`LLZ4.h`, `LLZ4.c`) -/

def LLZ4_MAX_BLOCK_SIZE : Nat := 0x7E000000

def LLZ4_MAX_OFFSET : Nat := 65535

def LLZ4_ACCELERATION_TRIGGER : Nat := 6

def LLZ4_HASH_SIZE : Nat := 14

def LLZ4_ERROR_OK : Int := 0

def LLZ4_ERROR_NOT_ENOUGH_OF_SPACE : Int := -2

def LLZ4_ERROR_INVALID_PARAMS : Int := -3

def LLZ4_ERROR_INVALID_DATA : Int := -4

/-! ## Memory model -/

/-- The buffer an access touches. -/
inductive Region where
  | input
  | output
deriving DecidableEq

/-- One contiguous access: `len` bytes starting at index `start` of `region`. -/
structure Access where
  region : Region
  write : Bool
  start : Int
  len : Nat
deriving DecidableEq

/-- The access touches only indices of its buffer (`inSize` input bytes,
`cap` output bytes).  An access of length 0 touches nothing. -/
def Access.inBounds (inSize cap : Nat) (a : Access) : Prop :=
  a.len = 0 ∨ (0 ≤ a.start ∧
    a.start + (a.len : Int) ≤ ((match a.region with
      | Region.input => inSize
      | Region.output => cap : Nat) : Int))

instance (inSize cap : Nat) (a : Access) : Decidable (a.inBounds inSize cap) := by
  unfold Access.inBounds
  exact inferInstance

/-- The output buffer (`cap` bytes, contents `data`) and the log of all
accesses made so far, most recent first. -/
structure Mem where
  cap : Nat
  data : Nat → Nat
  log : List Access

/-- The first `n` bytes of the output buffer. -/
def Mem.bytes (m : Mem) (n : Nat) : List Nat :=
  (List.range n).map m.data

/-- A list holds bytes. -/
def IsBytes (l : List Nat) : Prop :=
  ∀ x ∈ l, x < 256

instance (l : List Nat) : Decidable (IsBytes l) := by
  unfold IsBytes
  exact inferInstance

/-- Value of the byte at index `p` of the chosen buffer. -/
def loadByte (inp : List Nat) (m : Mem) : Region → Int → Nat
  | Region.input, p => if p < 0 then 0 else inp.getD p.toNat 0
  | Region.output, p => if p < 0 then 0 else m.data p.toNat

/-- Record a read of `len` bytes at `start`, leaving the contents alone. -/
def logRead (m : Mem) (r : Region) (start : Int) (len : Nat) : Mem :=
  { m with log := ⟨r, false, start, len⟩ :: m.log }

/-- Store one byte: `out[p] = v`. -/
def storeByte (m : Mem) (p : Nat) (v : Nat) : Mem :=
  { cap := m.cap
    data := fun i => if i = p ∧ i < m.cap then v else m.data i
    log := ⟨Region.output, true, p, 1⟩ :: m.log }

/-- Copy `n` bytes `memcpy(out + dst, src, n)`, the source being index `src` of
buffer `r`. -/
def memcpy (inp : List Nat) (m : Mem) (dst : Nat) (r : Region) (src : Int) (n : Nat) : Mem :=
  { cap := m.cap
    data := fun i =>
      if dst ≤ i ∧ i < dst + n ∧ i < m.cap then
        loadByte inp m r (src + ((i - dst : Nat) : Int))
      else m.data i
    log := ⟨Region.output, true, dst, n⟩ :: ⟨r, false, src, n⟩ :: m.log }

/-! ## Internal routines -/

/-- Conversion `(int)(outPtr - outBegin)` of a byte count to a 32-bit `int`. -/
def toInt32 (n : Nat) : Int :=
  if n % 4294967296 < 2147483648 then ((n % 4294967296 : Nat) : Int)
  else ((n % 4294967296 : Nat) : Int) - 4294967296

/-- `wildCopy`: a plain `memcpy` of exactly `length` bytes. -/
def wildCopy (inp : List Nat) (m : Mem) (dst : Nat) (r : Region) (src : Int) (length : Nat) : Mem :=
  memcpy inp m dst r src length

/-- The `do … while (_src < end)` loop of `wildCopy8`. -/
def wildCopy8Loop (inp : List Nat) (r : Region) (e : Int) : Nat → Mem → Nat → Int → Mem
  | 0, m, _, _ => m
  | fuel + 1, m, dst, src =>
    let m1 := memcpy inp m dst r src 8
    if src + 8 < e then wildCopy8Loop inp r e fuel m1 (dst + 8) (src + 8) else m1

/-- `wildCopy8`: 8-byte chunks, at least one, until `length` bytes are covered. -/
def wildCopy8 (inp : List Nat) (m : Mem) (dst : Nat) (r : Region) (src : Int) (length : Nat) : Mem :=
  wildCopy8Loop inp r (src + (length : Int)) (length / 8 + 1) m dst src

/-- The `do … while (_src < end)` loop of `wildCopy16`. -/
def wildCopy16Loop (inp : List Nat) (r : Region) (e : Int) : Nat → Mem → Nat → Int → Mem
  | 0, m, _, _ => m
  | fuel + 1, m, dst, src =>
    let m1 := memcpy inp m dst r src 8
    let m2 := memcpy inp m1 (dst + 8) r (src + 8) 8
    if src + 16 < e then wildCopy16Loop inp r e fuel m2 (dst + 16) (src + 16) else m2

/-- `wildCopy16`: 16-byte chunks (two 8-byte copies), at least one. -/
def wildCopy16 (inp : List Nat) (m : Mem) (dst : Nat) (r : Region) (src : Int) (length : Nat) : Mem :=
  wildCopy16Loop inp r (src + (length : Int)) (length / 16 + 1) m dst src

/-- `blockReadOffset`: the little-endian 16-bit value at `ptr` and the cursor
behind it. -/
def blockReadOffset (inp : List Nat) (m : Mem) (ptr : Nat) : Nat × Nat × Mem :=
  (inp.getD ptr 0 ||| (inp.getD (ptr + 1) 0 <<< 8), ptr + 2,
    logRead m Region.input ptr 2)

/-- `blockWriteOffset`: store the two low bytes of `offset`. -/
def blockWriteOffset (m : Mem) (ptr : Nat) (offset : Nat) : Mem × Nat :=
  (storeByte (storeByte m ptr (offset % 256)) (ptr + 1) ((offset >>> 8) % 256), ptr + 2)

/-- The `while (_ptr < _end)` loop of `blockReadLength`; yields the length and
the cursor. -/
def blockReadLengthLoop (inp : List Nat) (e : Int) : Nat → Nat → Nat → Nat × Nat
  | 0, ptr, length => (length, ptr)
  | fuel + 1, ptr, length =>
    if (ptr : Int) < e then
      let value := inp.getD ptr 0
      if value < 255 then (length + value, ptr + 1)
      else blockReadLengthLoop inp e fuel (ptr + 1) (length + value)
    else (length, ptr)

/-- `blockReadLength(_ptr, _end, &out)`: sum bytes until one is below 255 or
`_end` is reached. -/
def blockReadLength (inp : List Nat) (m : Mem) (ptr : Nat) (e : Int) : Nat × Nat × Mem :=
  let r := blockReadLengthLoop inp e (e - (ptr : Int)).toNat ptr 0
  (r.1, r.2, logRead m Region.input ptr (r.2 - ptr))

/-- The `while (_length >= 255)` loop of `blockWriteLength` with its final
store. -/
def blockWriteLengthLoop : Nat → Mem → Nat → Nat → Mem × Nat
  | 0, m, ptr, _ => (m, ptr)
  | fuel + 1, m, ptr, length =>
    if length ≥ 255 then blockWriteLengthLoop fuel (storeByte m ptr 255) (ptr + 1) (length - 255)
    else (storeByte m ptr (length % 256), ptr + 1)

/-- `blockWriteLength(_ptr, _length)`. -/
def blockWriteLength (m : Mem) (ptr : Nat) (length : Nat) : Mem × Nat :=
  blockWriteLengthLoop (length / 255 + 1) m ptr length

/-! ## Compress routines -/

/-- The hash table of the compress context, `data[1 << LLZ4_HASH_SIZE]`, with
the memory behind it: the slots below `1 << LLZ4_HASH_SIZE` are the table, a
slot at or behind that index is what `_buffer->data[hash]` addresses behind the
table.  An entry is a position of the input (an index from `_inBegin`), or
`none` for a null pointer.  The C standard gives an access behind the table no
meaning; here such a slot is memory like the table itself, which holds what was
stored there last, also across calls. -/
abbrev HashBuffer := Nat → Option Nat

/-- The unaligned 32-bit load `memcpy(&value, _ptr, 4)`, little-endian. -/
def load32 (inp : List Nat) (p : Nat) : Nat :=
  (inp.getD p 0 + inp.getD (p + 1) 0 * 256 + inp.getD (p + 2) 0 * 65536
    + inp.getD (p + 3) 0 * 16777216) % 4294967296

/-- The table index as the specification states it: the product
`value * 2654435761` reduced modulo 2^32, then shifted right by
`32 - LLZ4_HASH_SIZE`.  The C expression has this value only where the
unsuffixed constant is given a 32-bit unsigned type; `updateHash` below uses
`hashIndexWide`. -/
def hashIndex (value : Nat) : Nat :=
  ((value * 2654435761) % 4294967296) >>> (32 - LLZ4_HASH_SIZE)

/-- The table index of `updateHash`, the expression
`(value * 2654435761) >> (32 - LLZ4_HASH_SIZE)` stored into
`const uint32_t hash`.  The constant has no suffix and does not fit `int`, so
by the C99 rules it has a signed 64-bit type (`long` where that has 64 bits,
`long long` where it has 32): `value` is converted to that type, the product is
not reduced modulo 2^32 before the shift, and the conversion to `uint32_t`
keeps the low 32 bits of the shifted product, the bits 18 to 49 of the product.
For a product below 2^63 this is the value of the C expression; a larger
product overflows the signed type, and the two's-complement result has the same
bits. -/
def hashIndexWide (value : Nat) : Nat :=
  ((value * 2654435761) >>> (32 - LLZ4_HASH_SIZE)) % 4294967296

/-- `updateHash(_ptr, _buffer)`: the previous entry of the slot `hash` selected
by the four bytes at `_ptr`, and the table with `_ptr` stored there.  The slot
can lie behind the table. -/
def updateHash (inp : List Nat) (ptr : Nat) (buffer : HashBuffer) (m : Mem) :
    Option Nat × HashBuffer × Mem :=
  let hash := hashIndexWide (load32 inp ptr)
  (buffer hash, (fun h => if h = hash then some ptr else buffer h),
    logRead m Region.input ptr 4)

/-- Count of trailing zero bits, by inspecting up to `fuel` low bits. -/
def ctzLoop : Nat → Nat → Nat
  | 0, _ => 0
  | fuel + 1, d => if d % 2 = 1 then 0 else 1 + ctzLoop fuel (d / 2)

/-- The bit scan `__builtin_ctz` on a 32-bit value. -/
def ctz32 (d : Nat) : Nat :=
  ctzLoop 32 d

/-- The `while (ptr < _matchEnd)` loop of `matchCount`; yields `count` as set
inside the loop, the final `ptr`, and the log. -/
def matchCountLoop (inp : List Nat) (matchEnd : Nat) : Nat → Mem → Nat → Nat → Nat × Nat × Mem
  | 0, m, ptr, _ => (0, ptr, m)
  | fuel + 1, m, ptr, offsetPtr =>
    if ptr < matchEnd then
      let a := load32 inp ptr
      let b := load32 inp offsetPtr
      let m1 := logRead (logRead m Region.input ptr 4) Region.input offsetPtr 4
      let diff := a ^^^ b
      if diff ≠ 0 then (ctz32 diff >>> 3, ptr, m1)
      else matchCountLoop inp matchEnd fuel m1 (ptr + 4) (offsetPtr + 4)
    else (0, ptr, m)

/-- `matchCount(_matchPtr, _matchEnd, _offsetPtr)`. -/
def matchCount (inp : List Nat) (m : Mem) (matchPtr matchEnd offsetPtr : Nat) : Nat × Mem :=
  let r := matchCountLoop inp matchEnd ((matchEnd - matchPtr) / 4 + 1) m matchPtr offsetPtr
  (r.1 + (r.2.1 - matchPtr), r.2.2)

/-- Local variables of the main loop of `compressBlock`, the hash table and
the output buffer. -/
structure CState where
  inPtr : Nat
  inLast : Nat
  outPtr : Nat
  stepSize : Nat
  step : Nat
  buffer : HashBuffer
  mem : Mem

/-- Outcome of one pass through the body of the encoder loop: go on, or
`break` with `LLZ4_ERROR_NOT_ENOUGH_OF_SPACE`. -/
inductive CStep where
  | next (st : CState)
  | stop (st : CState)

/-- The token and the literals of a sequence (`LLZ4.c` lines 223-243).  Yields
the buffer and the new `outPtr`. -/
def emitLiterals (inp : List Nat) (m : Mem) (outPtr inLast literalsLength matchLength : Nat) :
    Mem × Nat :=
  let token := if matchLength < 15 then matchLength % 256 else 15
  if literalsLength = 0 then
    (storeByte m outPtr token, outPtr + 1)
  else if literalsLength < 15 then
    let token := (token ||| ((literalsLength % 256) <<< 4)) % 256
    let m1 := storeByte m outPtr token
    (wildCopy8 inp m1 (outPtr + 1) Region.input inLast literalsLength,
      outPtr + 1 + literalsLength)
  else
    let token := (token ||| (15 <<< 4)) % 256
    let m1 := storeByte m outPtr token
    let w := blockWriteLength m1 (outPtr + 1) (literalsLength - 15)
    (wildCopy8 inp w.1 w.2 Region.input inLast literalsLength, w.2 + literalsLength)

/-- The offset and the match length of a sequence (`LLZ4.c` lines 245-248). -/
def emitMatch (m : Mem) (outPtr offset matchLength : Nat) : Mem × Nat :=
  let r := blockWriteOffset m outPtr offset
  if matchLength ≥ 15 then blockWriteLength r.1 r.2 (matchLength - 15) else r

/-- The argument `inPtr - matchPtr` of `blockWriteOffset`, a pointer difference
converted to a 64-bit `size_t`: the distance when `matchPtr` is not behind
`inPtr`, and 2^64 minus the distance when it is. -/
def offsetOf (inPtr matchPtr : Nat) : Nat :=
  if matchPtr ≤ inPtr then inPtr - matchPtr
  else 18446744073709551616 - (matchPtr - inPtr)

/-- Emission of one sequence (`LLZ4.c` lines 223-248): token, literal length,
literals, offset, match length.  Yields the buffer and the new `outPtr`. -/
def emitSequence (inp : List Nat) (m : Mem) (outPtr inLast inPtr matchPtr matchLength : Nat) :
    Mem × Nat :=
  let r := emitLiterals inp m outPtr inLast (inPtr - inLast) matchLength
  emitMatch r.1 r.2 (offsetOf inPtr matchPtr) matchLength

/-- The re-index loop `while (inPtr < nextPtr)` of thorough mode; `none` when
the fuel is used up before the loop ends. -/
def reindexLoop (inp : List Nat) (nextPtr : Nat) :
    Nat → Nat → Nat → Nat → HashBuffer → Mem → Option (HashBuffer × Mem)
  | 0, _, _, _, _, _ => none
  | fuel + 1, inPtr, stepSize, step, buffer, m =>
    if inPtr < nextPtr then
      let r := updateHash inp inPtr buffer m
      reindexLoop inp nextPtr fuel (inPtr + step) (stepSize + 1)
        (stepSize >>> LLZ4_ACCELERATION_TRIGGER) r.2.1 r.2.2
    else some (buffer, m)

/-- The `else` branch of the loop body: no match at `inPtr`, skip ahead. -/
def missStep (st : CState) (buffer : HashBuffer) (m : Mem) : CState :=
  { st with inPtr := st.inPtr + st.step, stepSize := st.stepSize + 1,
            step := st.stepSize >>> LLZ4_ACCELERATION_TRIGGER,
            buffer := buffer, mem := m }

/-- The re-index pass of thorough mode (`LLZ4.c` lines 252-269) behind a match
found at `inPtr` that ends at `nextPtr`. -/
def reindex (inp : List Nat) (initialStepSize : Nat) (thorough : Bool) (inPtr nextPtr : Nat)
    (buffer : HashBuffer) (m : Mem) : Option (HashBuffer × Mem) :=
  if thorough then
    reindexLoop inp nextPtr (nextPtr + 1)
      (if inPtr + LLZ4_MAX_OFFSET + 1 > nextPtr then inPtr + 1 else nextPtr - LLZ4_MAX_OFFSET)
      initialStepSize 1 buffer m
  else some (buffer, m)

/-- The `if` branch of the loop body (`LLZ4.c` lines 213-275): a match for the
four bytes at `inPtr` was found at `matchPtr`. -/
def matchStep (inp : List Nat) (initialStepSize : Nat) (thorough : Bool) (endMatch : Nat)
    (st : CState) (buffer : HashBuffer) (m : Mem) (matchPtr : Nat) : Option CStep :=
  let inPtr := st.inPtr
  let mc := matchCount inp m (inPtr + 4) endMatch (matchPtr + 4)
  let matchLength := mc.1
  let m := mc.2
  let literalsLength := inPtr - st.inLast
  let fullLength := 1 + (literalsLength + 240) / 255 + literalsLength + 2
    + (matchLength + 240) / 255 + 5
  if st.outPtr + fullLength > m.cap then
    some (CStep.stop { st with buffer := buffer, mem := m })
  else
    let e := emitSequence inp m st.outPtr st.inLast inPtr matchPtr matchLength
    let nextPtr := inPtr + matchLength + 4
    match reindex inp initialStepSize thorough inPtr nextPtr buffer e.1 with
    | none => none
    | some t =>
      some (CStep.next { inPtr := nextPtr, inLast := nextPtr, outPtr := e.2,
                         stepSize := initialStepSize, step := 1,
                         buffer := t.1, mem := t.2 })

/-- The test `memcmp(matchPtr, inPtr, 4) == 0`. -/
def memcmp4 (inp : List Nat) (matchPtr inPtr : Nat) : Bool :=
  (List.range 4).all (fun j => inp.getD (matchPtr + j) 0 == inp.getD (inPtr + j) 0)

/-- One pass through the body of `while (inPtr < endLimit)` in `compressBlock`. -/
def compressStep (inp : List Nat) (initialStepSize : Nat) (thorough : Bool) (endMatch : Nat)
    (st : CState) : Option CStep :=
  let inPtr := st.inPtr
  let h := updateHash inp inPtr st.buffer st.mem
  let buffer := h.2.1
  let m := h.2.2
  match h.1 with
  | none => some (CStep.next (missStep st buffer m))
  | some matchPtr =>
    if matchPtr + LLZ4_MAX_OFFSET + 1 > inPtr then
      let m := logRead (logRead m Region.input matchPtr 4) Region.input inPtr 4
      if memcmp4 inp matchPtr inPtr then
        matchStep inp initialStepSize thorough endMatch st buffer m matchPtr
      else some (CStep.next (missStep st buffer m))
    else some (CStep.next (missStep st buffer m))

/-- The loop `while (inPtr < endLimit)` of `compressBlock`; yields the error
code and the state at loop exit, `none` when the fuel is used up first. -/
def compressLoop (inp : List Nat) (initialStepSize : Nat) (thorough : Bool)
    (endLimit endMatch : Nat) : Nat → CState → Option (Int × CState)
  | 0, _ => none
  | fuel + 1, st =>
    if st.inPtr < endLimit then
      match compressStep inp initialStepSize thorough endMatch st with
      | none => none
      | some (CStep.stop st1) => some (LLZ4_ERROR_NOT_ENOUGH_OF_SPACE, st1)
      | some (CStep.next st1) =>
        compressLoop inp initialStepSize thorough endLimit endMatch fuel st1
    else some (LLZ4_ERROR_OK, st)

/-- What `compressBlock` hands back: the error code, `*_inNext`, `*_outNext`,
the hash table and the output buffer. -/
structure CResult where
  errorCode : Int
  inNext : Nat
  outNext : Nat
  buffer : HashBuffer
  mem : Mem

/-- The final literals (`LLZ4.c` lines 287-311), entered with
`errorCode == LLZ4_ERROR_OK`. -/
def compressTail (inp : List Nat) (inPtr outPtr : Nat) (buffer : HashBuffer) (m : Mem) : CResult :=
  let literalsLength := inp.length - inPtr
  let fullLength := 1 + (literalsLength + 240) / 255 + literalsLength
  if outPtr + fullLength ≤ m.cap then
    let w : Mem × Nat :=
      if literalsLength < 15 then (storeByte m outPtr ((literalsLength <<< 4) % 256), outPtr + 1)
      else blockWriteLength (storeByte m outPtr (15 <<< 4)) (outPtr + 1) (literalsLength - 15)
    ⟨LLZ4_ERROR_OK, inPtr, w.2 + literalsLength,
      buffer, wildCopy inp w.1 w.2 Region.input inPtr literalsLength⟩
  else ⟨LLZ4_ERROR_NOT_ENOUGH_OF_SPACE, inPtr, outPtr, buffer, m⟩

/-- `memset(_buffer, 0, sizeof(struct HashBuffer))`: the slots of the table
become null, the slots behind the table keep what they hold. -/
def clearTable (buffer : HashBuffer) : HashBuffer :=
  fun h => if h < 2 ^ LLZ4_HASH_SIZE then none else buffer h

/-- `compressBlock` on the input `inp`, the output buffer `out`, the hash
table `buffer`, `_acceleration` and `_thorough`. -/
def compressBlock (inp : List Nat) (out : Mem) (buffer : HashBuffer) (acceleration : Nat)
    (thorough : Bool) : Option CResult :=
  if acceleration > 0 ∧ 0 + 13 < inp.length then
    let endLimit := inp.length - 13
    let endMatch := inp.length - 5
    let initialStepSize := acceleration <<< LLZ4_ACCELERATION_TRIGGER
    let h := updateHash inp 0 (clearTable buffer) out
    match compressLoop inp initialStepSize thorough endLimit endMatch (inp.length + 1)
        ⟨1, 0, 0, initialStepSize, 1, h.2.1, h.2.2⟩ with
    | none => none
    | some (errorCode, st) =>
      if errorCode = LLZ4_ERROR_OK then some (compressTail inp st.inLast st.outPtr st.buffer st.mem)
      else some ⟨errorCode, st.inLast, st.outPtr, st.buffer, st.mem⟩
  else some (compressTail inp 0 0 buffer out)

/-- The `switch (_compressionLevel)` of `LLZ4_compressBlock`, after a negative
level was replaced by 1: `(accelerationLevel, through)`. -/
def levelParams (compressionLevel : Int) : Nat × Bool :=
  let level := if compressionLevel < 0 then 1 else compressionLevel
  if level = 0 then (0, false)
  else if level = 1 then (8, false)
  else if level = 2 then (7, false)
  else if level = 3 then (6, false)
  else if level = 4 then (5, false)
  else if level = 5 then (4, false)
  else if level = 6 then (3, false)
  else if level = 7 then (2, false)
  else if level = 8 then (1, false)
  else (1, true)

/-- `LLZ4_compressBlockBound`. -/
def LLZ4_compressBlockBound (inputSize : Nat) : Nat :=
  if inputSize > LLZ4_MAX_BLOCK_SIZE then 0
  else 1 + inputSize + (inputSize + 240) / 255

/-- `LLZ4_compressBlock` for a non-null context and non-null buffers: the
returned `int`, the hash table of the context and the output buffer. -/
def LLZ4_compressBlock (buffer : HashBuffer) (inp : List Nat) (out : Mem)
    (compressionLevel : Int) : Option (Int × HashBuffer × Mem) :=
  if inp.length > LLZ4_MAX_BLOCK_SIZE then some (LLZ4_ERROR_INVALID_PARAMS, buffer, out)
  else
    let p := levelParams compressionLevel
    match compressBlock inp out buffer p.1 p.2 with
    | none => none
    | some r =>
      if r.errorCode ≠ LLZ4_ERROR_OK then some (r.errorCode, r.buffer, r.mem)
      else some (toInt32 r.outNext, r.buffer, r.mem)

/-! ## Decompress routines -/

/-- Cursors of `decompressBlock` and the output buffer. -/
structure DState where
  inPtr : Nat
  outPtr : Nat
  mem : Mem

/-- Outcome of one pass through the body of the decoder loop. -/
inductive DStep where
  | next (st : DState)
  | done (errorCode : Int) (st : DState)

/-- The `do { *outPtr++ = *from++; } while (outPtr < end)` loop of the
overlapping match copy. -/
def overlapLoop (inp : List Nat) (e : Nat) : Nat → Mem → Nat → Nat → Mem × Nat
  | 0, m, outPtr, _ => (m, outPtr)
  | fuel + 1, m, outPtr, src =>
    let v := loadByte inp m Region.output src
    let m1 := storeByte (logRead m Region.output src 1) outPtr v
    if outPtr + 1 < e then overlapLoop inp e fuel m1 (outPtr + 1) (src + 1)
    else (m1, outPtr + 1)

/-- The literal length of a sequence (`LLZ4.c` lines 331-334): the high nibble
of the token, extended by `blockReadLength(inPtr, _inEnd - 15, &inPtr) + 15`
when it is 15.  Yields the length, the cursor and the log. -/
def readLiteralLength (inp : List Nat) (m : Mem) (token inPtr : Nat) : Nat × Nat × Mem :=
  let length := token >>> 4
  if length = 15 then
    let r := blockReadLength inp m inPtr ((inp.length : Int) - 15)
    (r.1 + 15, r.2.1, r.2.2)
  else (length, inPtr, m)

/-- The match length of a sequence (`LLZ4.c` lines 370-373): the low nibble of
the token plus 4, extended by `blockReadLength(inPtr, _inEnd, &inPtr) + 19`
when it is 19. -/
def readMatchLength (inp : List Nat) (m : Mem) (token inPtr : Nat) : Nat × Nat × Mem :=
  let length := (token &&& 15) + 4
  if length = 19 then
    let r := blockReadLength inp m inPtr inp.length
    (r.1 + 19, r.2.1, r.2.2)
  else (length, inPtr, m)

/-- The match part of a sequence: offset, match length and match copy
(`LLZ4.c` lines 366-402), entered after the literals were copied. -/
def decompressMatch (inp : List Nat) (token : Nat) (inPtr outPtr : Nat) (m : Mem) : DStep :=
  let ro := blockReadOffset inp m inPtr
  let offset := ro.1
  let inPtr := ro.2.1
  let m := ro.2.2
  -- `(outPtr + offset) < _outBegin`, with `_outBegin` at index 0
  if offset = 0 ∨ ((outPtr : Int) + (offset : Int) < 0) then
    DStep.done LLZ4_ERROR_INVALID_DATA ⟨inPtr, outPtr, m⟩
  else
    let rl := readMatchLength inp m token inPtr
    let length := rl.1
    let inPtr := rl.2.1
    let m := rl.2.2
    if length ≤ offset ∧ outPtr + length + 15 ≤ m.cap then
      DStep.next ⟨inPtr, outPtr + length,
        wildCopy16 inp m outPtr Region.output ((outPtr : Int) - (offset : Int)) length⟩
    else if length ≤ offset ∧ outPtr + length ≤ m.cap then
      DStep.next ⟨inPtr, outPtr + length,
        wildCopy inp m outPtr Region.output ((outPtr : Int) - (offset : Int)) length⟩
    else if outPtr + length > m.cap then
      DStep.done LLZ4_ERROR_NOT_ENOUGH_OF_SPACE ⟨inPtr, outPtr, m⟩
    else
      let m1 := wildCopy inp m outPtr Region.output ((outPtr : Int) - (offset : Int)) offset
      let r := overlapLoop inp (outPtr + length) length m1 (outPtr + offset) outPtr
      DStep.next ⟨inPtr, r.2, r.1⟩

/-- Outcome of the literal part of a sequence: literals copied and the match
part is next (with the cursors behind the literals), or the loop is left. -/
inductive LStep where
  | copied (inPtr outPtr : Nat) (m : Mem)
  | done (errorCode : Int) (st : DState)

/-- The literal part of a sequence: token, literal length and literal copy
(`LLZ4.c` lines 330-364). -/
def decompressLiterals (inp : List Nat) (st : DState) : LStep :=
  let inEnd := inp.length
  let token := inp.getD st.inPtr 0
  let m := logRead st.mem Region.input st.inPtr 1
  let inPtr := st.inPtr + 1
  let outPtr := st.outPtr
  let rl := readLiteralLength inp m token inPtr
  let length := rl.1
  let inPtr := rl.2.1
  let m := rl.2.2
  if inPtr + length + 15 ≤ inEnd ∧ outPtr + length + 15 ≤ m.cap then
    LStep.copied (inPtr + length) (outPtr + length)
      (wildCopy16 inp m outPtr Region.input inPtr length)
  else if inPtr + length + 2 < inEnd ∧ outPtr + length ≤ m.cap then
    LStep.copied (inPtr + length) (outPtr + length)
      (wildCopy inp m outPtr Region.input inPtr length)
  else if inPtr + length = inEnd ∧ outPtr + length ≤ m.cap then
    LStep.done LLZ4_ERROR_OK ⟨inEnd, outPtr + length,
      wildCopy inp m outPtr Region.input inPtr length⟩
  else if outPtr + length > m.cap then
    LStep.done LLZ4_ERROR_NOT_ENOUGH_OF_SPACE ⟨inPtr, outPtr, m⟩
  else
    LStep.done LLZ4_ERROR_INVALID_DATA ⟨inPtr, outPtr, m⟩

/-- One pass through the body of `while (inPtr < _inEnd)` in `decompressBlock`. -/
def decompressSeq (inp : List Nat) (st : DState) : DStep :=
  match decompressLiterals inp st with
  | LStep.copied inPtr outPtr m => decompressMatch inp (inp.getD st.inPtr 0) inPtr outPtr m
  | LStep.done errorCode st1 => DStep.done errorCode st1

/-- The loop `while (inPtr < _inEnd)` of `decompressBlock`; `none` when the
fuel is used up before the loop ends. -/
def decompressLoop (inp : List Nat) : Nat → DState → Option (Int × DState)
  | 0, _ => none
  | fuel + 1, st =>
    if st.inPtr < inp.length then
      match decompressSeq inp st with
      | DStep.done errorCode st1 => some (errorCode, st1)
      | DStep.next st1 => decompressLoop inp fuel st1
    else some (LLZ4_ERROR_INVALID_DATA, st)

/-- `decompressBlock`: error code with the final cursors (`*_inNext`,
`*_outNext`) and the output buffer.  `out` holds the initial buffer. -/
def decompressBlock (inp : List Nat) (out : Mem) : Option (Int × DState) :=
  decompressLoop inp (inp.length + 1) ⟨0, 0, out⟩

/-- The loop of `decompressBlock inp out` arrives at its head in state `st`:
the initial state, or the state behind a pass that did not leave the loop. -/
inductive Reaches (inp : List Nat) (out : Mem) : DState → Prop where
  | start : Reaches inp out ⟨0, 0, out⟩
  | step (st st1 : DState) : Reaches inp out st → st.inPtr < inp.length →
      decompressSeq inp st = DStep.next st1 → Reaches inp out st1

/-- `LLZ4_decompressBlock` for a non-null context and non-null buffers: the
returned `int` and the output buffer. -/
def LLZ4_decompressBlock (inp : List Nat) (out : Mem) : Option (Int × Mem) :=
  if inp.length > LLZ4_MAX_BLOCK_SIZE then some (LLZ4_ERROR_INVALID_PARAMS, out)
  else
    match decompressBlock inp out with
    | none => none
    | some (errorCode, st) =>
      if errorCode ≠ LLZ4_ERROR_OK then some (errorCode, st.mem)
      else some (toInt32 st.outPtr, st.mem)

/-! ## The block format, as predicates on buffer contents -/

/-- Number of extension bytes that follow a token for the length `x`: none
below 15, else `(x - 15) / 255 + 1`. -/
def extLen (x : Nat) : Nat :=
  (x + 240) / 255

/-- The bytes at `p` are the base-255 extension of the value `v`: `v / 255`
bytes 255, then the byte `v % 255`. -/
def ExtAt (data : Nat → Nat) (p v : Nat) : Prop :=
  (∀ j, j < v / 255 → data (p + j) = 255) ∧ data (p + v / 255) = v % 255

/-- At index `o` the contents `data` hold one sequence with a match part: the
token, the extension of the literal length `L`, the `L` literals
`inp[inLast ..]`, the offset `off` in two bytes, and the extension of the match
length, `ml + 4` bytes being matched. -/
def SeqAt (data : Nat → Nat) (o : Nat) (inp : List Nat) (inLast L off ml : Nat) : Prop :=
  data o = min ml 15 + 16 * min L 15 ∧
  (15 ≤ L → ExtAt data (o + 1) (L - 15)) ∧
  (∀ j, j < L → data (o + 1 + extLen L + j) = inp.getD (inLast + j) 0) ∧
  data (o + 1 + extLen L + L) = off % 256 ∧
  data (o + 1 + extLen L + L + 1) = off / 256 % 256 ∧
  (15 ≤ ml → ExtAt data (o + 1 + extLen L + L + 2) (ml - 15))

/-- Size in bytes of a sequence with `L` literals and match length `ml + 4`. -/
def seqLen (L ml : Nat) : Nat :=
  1 + extLen L + L + 2 + extLen ml

/-- At index `o` the contents `data` hold the last sequence of a block: the
token, the extension of the literal length `L`, and the literals
`inp[inLast ..]`. -/
def LastAt (data : Nat → Nat) (o : Nat) (inp : List Nat) (inLast L : Nat) : Prop :=
  data o = 16 * min L 15 ∧
  (15 ≤ L → ExtAt data (o + 1) (L - 15)) ∧
  (∀ j, j < L → data (o + 1 + extLen L + j) = inp.getD (inLast + j) 0)

/-- Every entry in a slot that a 4-byte window of `inp` selects is a position
below `k`. -/
def TableBelow (inp : List Nat) (buffer : HashBuffer) (k : Nat) : Prop :=
  ∀ p q, buffer (hashIndexWide (load32 inp p)) = some q → q < k

/-! ## The run of the encoder, as relations between loop states -/

/-- Invariant of the encoder loop, for an input of `n` bytes and an output
buffer of `cap` bytes, whatever the hash table holds. -/
def CBase (n cap initialStepSize : Nat) (st : CState) : Prop :=
  st.inLast ≤ st.inPtr ∧ st.inLast ≤ n ∧
  64 ≤ initialStepSize ∧ initialStepSize ≤ st.stepSize ∧ 1 ≤ st.step ∧
  st.mem.cap = cap ∧ 255 * st.outPtr ≤ 256 * st.inLast

/-- Invariant of the encoder loop for the input `b` and an output buffer of
`cap` bytes, when the slots that the windows of `b` select hold no entry of an
earlier call: every candidate is a position before `inPtr`. -/
def CInv (b : List Nat) (cap initialStepSize : Nat) (st : CState) : Prop :=
  st.inLast ≤ st.inPtr ∧ st.inLast ≤ b.length ∧ TableBelow b st.buffer st.inPtr ∧
  64 ≤ initialStepSize ∧ initialStepSize ≤ st.stepSize ∧ 1 ≤ st.step ∧
  st.mem.cap = cap ∧ 255 * st.outPtr ≤ 256 * st.inLast

/-- A pass of the encoder loop that found no match: nothing was written. -/
def Skipped (st st1 : CState) : Prop :=
  st1.inLast = st.inLast ∧ st1.outPtr = st.outPtr ∧ st1.mem.data = st.mem.data

/-- A pass of the encoder loop that emitted a sequence: the pending literals
`b[inLast .. inPtr)` and a match of `ml + 4` bytes at distance `off`, written
at `outPtr`. -/
def Emitted (b : List Nat) (st st1 : CState) : Prop :=
  ∃ off ml, SeqAt st1.mem.data st.outPtr b st.inLast (st.inPtr - st.inLast) off ml ∧
    (∀ i, i < st.outPtr → st1.mem.data i = st.mem.data i) ∧
    st.inLast ≤ st.inPtr ∧
    st1.inLast = st.inPtr + ml + 4 ∧
    st1.outPtr = st.outPtr + seqLen (st.inPtr - st.inLast) ml ∧
    1 ≤ off ∧ off < 65536 ∧ off ≤ st.inPtr ∧
    st1.inLast + 2 ≤ b.length ∧
    (IsBytes b → ∀ j, j < ml + 4 → b.getD (st.inPtr + j) 0 = b.getD (st.inPtr + j - off) 0)

/-- A run of passes of the encoder loop from one state to another. -/
inductive Steps (b : List Nat) : CState → CState → Prop where
  | refl (st : CState) : Steps b st st
  | skip (st st1 stF : CState) : Skipped st st1 → Steps b st1 stF → Steps b st stF
  | emit (st st1 stF : CState) : Emitted b st st1 → Steps b st1 stF → Steps b st stF

/-- The accesses logged between the buffer states `m` and `m1`, and all writes
among them stay inside a buffer of `cap` bytes (`n` being the size of the
input). -/
def WritesFrom (n cap : Nat) (m m1 : Mem) : Prop :=
  ∃ added : List Access, m1.log = added ++ m.log ∧
    ∀ a ∈ added, a.write = true → a.inBounds n cap

/-- What a successful run of `compressBlock` leaves: passes of the loop from
the start of the input to a state `stF`, and then the final literals, for which
the buffer of `cap` bytes has room. -/
def Encoded (b : List Nat) (cap : Nat) (r : CResult) : Prop :=
  ∃ st0 stF, st0.inLast = 0 ∧ st0.outPtr = 0 ∧ Steps b st0 stF ∧ stF.inLast ≤ b.length ∧
    255 * stF.outPtr ≤ 256 * stF.inLast ∧ stF.mem.cap = cap ∧
    r = compressTail b stF.inLast stF.outPtr stF.buffer stF.mem ∧
    stF.outPtr + (1 + (b.length - stF.inLast + 240) / 255 + (b.length - stF.inLast)) ≤ cap

end LLZ4

namespace LLZ4

/-! ## Memory lemmas -/

@[simp] theorem logRead_cap (m : Mem) (r : Region) (s : Int) (l : Nat) :
    (logRead m r s l).cap = m.cap := rfl

@[simp] theorem logRead_data (m : Mem) (r : Region) (s : Int) (l : Nat) :
    (logRead m r s l).data = m.data := rfl

@[simp] theorem storeByte_cap (m : Mem) (p v : Nat) : (storeByte m p v).cap = m.cap := rfl

theorem storeByte_data (m : Mem) (p v i : Nat) :
    (storeByte m p v).data i = if i = p ∧ i < m.cap then v else m.data i := rfl

@[simp] theorem memcpy_cap (inp : List Nat) (m : Mem) (dst : Nat) (r : Region) (src : Int)
    (n : Nat) : (memcpy inp m dst r src n).cap = m.cap := rfl

theorem memcpy_data (inp : List Nat) (m : Mem) (dst : Nat) (r : Region) (src : Int)
    (n i : Nat) : (memcpy inp m dst r src n).data i =
      if dst ≤ i ∧ i < dst + n ∧ i < m.cap then loadByte inp m r (src + ((i - dst : Nat) : Int))
      else m.data i := rfl

theorem loadByte_input (inp : List Nat) (m : Mem) (s k : Nat) :
    loadByte inp m Region.input ((s : Int) + (k : Int)) = inp.getD (s + k) 0 := by
  have h : ¬ ((s : Int) + (k : Int) < 0) := by omega
  have h2 : ((s : Int) + (k : Int)).toNat = s + k := by omega
  simp [loadByte, h, h2]

theorem loadByte_output (inp : List Nat) (m : Mem) (p : Int) (hp : 0 ≤ p) :
    loadByte inp m Region.output p = m.data p.toNat := by
  have h : ¬ (p < 0) := by omega
  simp [loadByte, h]

theorem bytes_length (m : Mem) (n : Nat) : (m.bytes n).length = n := by
  simp [Mem.bytes]

theorem bytes_getD (m : Mem) (n i : Nat) (h : i < n) : (m.bytes n).getD i 0 = m.data i := by
  simp [Mem.bytes, List.getD_eq_getElem?_getD, List.getElem?_map, List.getElem?_range h]

theorem list_eq_of_getD (l1 l2 : List Nat) (hl : l1.length = l2.length)
    (h : ∀ i, i < l1.length → l1.getD i 0 = l2.getD i 0) : l1 = l2 := by
  apply List.ext_getElem hl
  intro i h1 h2
  have := h i h1
  simpa [List.getD_eq_getElem?_getD, List.getElem?_eq_getElem h1, List.getElem?_eq_getElem h2]
    using this

theorem bytes_eq_of_forall (m : Mem) (l : List Nat)
    (h : ∀ i, i < l.length → m.data i = l.getD i 0) : m.bytes l.length = l := by
  apply list_eq_of_getD
  · exact bytes_length m l.length
  · intro i hi
    rw [bytes_length] at hi
    rw [bytes_getD m _ i hi, h i hi]

/-! ## `blockWriteLength` -/

theorem blockWriteLengthLoop_cap (fuel : Nat) (m : Mem) (ptr len : Nat) :
    (blockWriteLengthLoop fuel m ptr len).1.cap = m.cap := by
  induction fuel generalizing m ptr len with
  | zero => rfl
  | succ f ih =>
    unfold blockWriteLengthLoop
    split
    · rw [ih]; rfl
    · rfl

theorem blockWriteLengthLoop_ptr (fuel : Nat) (m : Mem) (ptr len : Nat) (hf : len / 255 < fuel) :
    (blockWriteLengthLoop fuel m ptr len).2 = ptr + len / 255 + 1 := by
  induction fuel generalizing m ptr len with
  | zero => omega
  | succ f ih =>
    unfold blockWriteLengthLoop
    split
    · rename_i h
      rw [ih _ _ _ (by omega)]
      omega
    · rename_i h
      have : len / 255 = 0 := by omega
      simp [this]

theorem blockWriteLengthLoop_data (fuel : Nat) (m : Mem) (ptr len : Nat) (hf : len / 255 < fuel)
    (i : Nat) :
    (blockWriteLengthLoop fuel m ptr len).1.data i =
      if ptr ≤ i ∧ i < ptr + len / 255 + 1 ∧ i < m.cap then
        (if i < ptr + len / 255 then 255 else len % 255)
      else m.data i := by
  induction fuel generalizing m ptr len with
  | zero => omega
  | succ f ih =>
    unfold blockWriteLengthLoop
    split
    · rename_i h
      rw [ih _ _ _ (by omega)]
      simp only [storeByte_cap, storeByte_data]
      have h1 : (len - 255) / 255 = len / 255 - 1 := by omega
      have h2 : (len - 255) % 255 = len % 255 := by omega
      have h3 : 1 ≤ len / 255 := by omega
      rw [h1, h2]
      split_ifs <;> first | rfl | omega
    · rename_i h
      have h0 : len / 255 = 0 := by omega
      have h1 : len % 256 = len % 255 := by omega
      simp only [storeByte_data, h0, h1]
      split_ifs <;> first | rfl | omega

theorem blockWriteLength_cap (m : Mem) (ptr len : Nat) :
    (blockWriteLength m ptr len).1.cap = m.cap :=
  blockWriteLengthLoop_cap _ _ _ _

theorem blockWriteLength_ptr (m : Mem) (ptr len : Nat) :
    (blockWriteLength m ptr len).2 = ptr + len / 255 + 1 :=
  blockWriteLengthLoop_ptr _ _ _ _ (by omega)

theorem blockWriteLength_data (m : Mem) (ptr len i : Nat) :
    (blockWriteLength m ptr len).1.data i =
      if ptr ≤ i ∧ i < ptr + len / 255 + 1 ∧ i < m.cap then
        (if i < ptr + len / 255 then 255 else len % 255)
      else m.data i :=
  blockWriteLengthLoop_data _ _ _ _ (by omega) i

/-! ## Wild copies -/

theorem wildCopy8Loop_cap (inp : List Nat) (r : Region) (e : Int) (fuel : Nat) (m : Mem)
    (dst : Nat) (src : Int) : (wildCopy8Loop inp r e fuel m dst src).cap = m.cap := by
  induction fuel generalizing m dst src with
  | zero => rfl
  | succ f ih =>
    unfold wildCopy8Loop
    simp only
    split
    · rw [ih]; rfl
    · rfl

theorem wildCopy8Loop_frame (inp : List Nat) (r : Region) (e : Int) (fuel : Nat) (m : Mem)
    (dst : Nat) (src : Int) (i : Nat) (hi : i < dst) :
    (wildCopy8Loop inp r e fuel m dst src).data i = m.data i := by
  induction fuel generalizing m dst src with
  | zero => rfl
  | succ f ih =>
    unfold wildCopy8Loop
    simp only
    split
    · rw [ih _ _ _ (by omega), memcpy_data, if_neg (by omega)]
    · rw [memcpy_data, if_neg (by omega)]

theorem wildCopy8Loop_input (inp : List Nat) (e : Int) (fuel : Nat) (m : Mem)
    (dst s : Nat) (hf : e - (s : Int) ≤ 8 * (fuel : Int)) (i : Nat) (h1 : dst ≤ i)
    (h2 : (s : Int) + ((i - dst : Nat) : Int) < e) (h3 : i < m.cap) :
    (wildCopy8Loop inp Region.input e fuel m dst (s : Int)).data i
      = inp.getD (s + (i - dst)) 0 := by
  induction fuel generalizing m dst s with
  | zero => omega
  | succ f ih =>
    unfold wildCopy8Loop
    simp only
    split
    · rename_i hlt
      by_cases hi : i < dst + 8
      · rw [wildCopy8Loop_frame _ _ _ _ _ _ _ _ hi, memcpy_data, if_pos ⟨h1, by omega, h3⟩,
          loadByte_input]
      · have := ih (memcpy inp m dst Region.input (s : Int) 8) (dst + 8) (s + 8)
          (by push_cast; omega) (by omega) (by push_cast; omega) (by simpa using h3)
        have e1 : ((s + 8 : Nat) : Int) = (s : Int) + 8 := by push_cast; rfl
        rw [e1] at this
        rw [this]
        congr 1
        omega
    · rename_i hge
      rw [memcpy_data, if_pos ⟨h1, by omega, h3⟩, loadByte_input]

theorem wildCopy8_cap (inp : List Nat) (m : Mem) (dst : Nat) (r : Region) (src : Int)
    (len : Nat) : (wildCopy8 inp m dst r src len).cap = m.cap :=
  wildCopy8Loop_cap _ _ _ _ _ _ _

theorem wildCopy8_frame (inp : List Nat) (m : Mem) (dst : Nat) (r : Region) (src : Int)
    (len i : Nat) (hi : i < dst) : (wildCopy8 inp m dst r src len).data i = m.data i :=
  wildCopy8Loop_frame _ _ _ _ _ _ _ _ hi

theorem wildCopy8_input (inp : List Nat) (m : Mem) (dst s len i : Nat) (h1 : dst ≤ i)
    (h2 : i < dst + len) (h3 : i < m.cap) :
    (wildCopy8 inp m dst Region.input (s : Int) len).data i = inp.getD (s + (i - dst)) 0 :=
  wildCopy8Loop_input _ _ _ _ _ _ (by push_cast; omega) i h1 (by omega) h3

theorem wildCopy_cap (inp : List Nat) (m : Mem) (dst : Nat) (r : Region) (src : Int)
    (len : Nat) : (wildCopy inp m dst r src len).cap = m.cap := rfl

theorem wildCopy_frame (inp : List Nat) (m : Mem) (dst : Nat) (r : Region) (src : Int)
    (len i : Nat) (hi : i < dst) : (wildCopy inp m dst r src len).data i = m.data i := by
  simp only [wildCopy, memcpy_data]
  rw [if_neg (by omega)]

theorem wildCopy_input (inp : List Nat) (m : Mem) (dst s len i : Nat) (h1 : dst ≤ i)
    (h2 : i < dst + len) (h3 : i < m.cap) :
    (wildCopy inp m dst Region.input (s : Int) len).data i = inp.getD (s + (i - dst)) 0 := by
  simp only [wildCopy, memcpy_data]
  rw [if_pos ⟨h1, h2, h3⟩, loadByte_input]

end LLZ4

namespace LLZ4

theorem wildCopy16Loop_cap (inp : List Nat) (r : Region) (e : Int) (fuel : Nat) (m : Mem)
    (dst : Nat) (src : Int) : (wildCopy16Loop inp r e fuel m dst src).cap = m.cap := by
  induction fuel generalizing m dst src with
  | zero => rfl
  | succ f ih =>
    unfold wildCopy16Loop
    simp only
    split
    · rw [ih]; rfl
    · rfl

theorem wildCopy16Loop_frame (inp : List Nat) (r : Region) (e : Int) (fuel : Nat) (m : Mem)
    (dst : Nat) (src : Int) (i : Nat) (hi : i < dst) :
    (wildCopy16Loop inp r e fuel m dst src).data i = m.data i := by
  induction fuel generalizing m dst src with
  | zero => rfl
  | succ f ih =>
    unfold wildCopy16Loop
    simp only
    split
    · rw [ih _ _ _ (by omega), memcpy_data, if_neg (by omega), memcpy_data, if_neg (by omega)]
    · rw [memcpy_data, if_neg (by omega), memcpy_data, if_neg (by omega)]

/-- Contents of the two 8-byte copies of one 16-byte chunk taken from the input. -/
theorem chunk16_input (inp : List Nat) (m : Mem) (dst s i : Nat) (h1 : dst ≤ i)
    (h2 : i < dst + 16) (h3 : i < m.cap) :
    (memcpy inp (memcpy inp m dst Region.input (s : Int) 8) (dst + 8) Region.input
      ((s : Int) + 8) 8).data i = inp.getD (s + (i - dst)) 0 := by
  by_cases hi : i < dst + 8
  · rw [memcpy_data, if_neg (by omega), memcpy_data, if_pos ⟨h1, by omega, h3⟩, loadByte_input]
  · rw [memcpy_data, if_pos ⟨by omega, by omega, by simpa using h3⟩]
    have e1 : (s : Int) + 8 + ((i - (dst + 8) : Nat) : Int) = ((s + 8 : Nat) : Int)
        + ((i - (dst + 8) : Nat) : Int) := by push_cast; ring
    rw [e1, loadByte_input]
    congr 1
    omega

theorem wildCopy16Loop_input (inp : List Nat) (e : Int) (fuel : Nat) (m : Mem)
    (dst s : Nat) (hf : e - (s : Int) ≤ 16 * (fuel : Int)) (i : Nat) (h1 : dst ≤ i)
    (h2 : (s : Int) + ((i - dst : Nat) : Int) < e) (h3 : i < m.cap) :
    (wildCopy16Loop inp Region.input e fuel m dst (s : Int)).data i
      = inp.getD (s + (i - dst)) 0 := by
  induction fuel generalizing m dst s with
  | zero => omega
  | succ f ih =>
    unfold wildCopy16Loop
    simp only
    split
    · rename_i hlt
      by_cases hi : i < dst + 16
      · rw [wildCopy16Loop_frame _ _ _ _ _ _ _ _ hi, chunk16_input _ _ _ _ _ h1 hi h3]
      · have := ih (memcpy inp (memcpy inp m dst Region.input (s : Int) 8) (dst + 8)
          Region.input ((s : Int) + 8) 8) (dst + 16) (s + 16)
          (by push_cast; omega) (by omega) (by push_cast; omega) (by simpa using h3)
        have e1 : ((s + 16 : Nat) : Int) = (s : Int) + 16 := by push_cast; rfl
        rw [e1] at this
        rw [this]
        congr 1
        omega
    · rename_i hge
      exact chunk16_input _ _ _ _ _ h1 (by omega) h3

/-- Contents of one 16-byte chunk copied inside the output buffer from `off`
bytes back, for the indices whose source lies below `q`. -/
theorem chunk16_output (inp : List Nat) (m : Mem) (dst off q i : Nat) (hq : q ≤ dst)
    (hoff : off ≤ dst) (h1 : dst ≤ i) (h2 : i < dst + 16) (h3 : i < m.cap)
    (h4 : i < q + off) :
    (memcpy inp (memcpy inp m dst Region.output ((dst : Int) - (off : Int)) 8) (dst + 8)
      Region.output ((dst : Int) - (off : Int) + 8) 8).data i = m.data (i - off) := by
  by_cases hi : i < dst + 8
  · rw [memcpy_data, if_neg (by omega), memcpy_data, if_pos ⟨h1, by omega, h3⟩,
      loadByte_output _ _ _ (by omega)]
    congr 1
    omega
  · rw [memcpy_data, if_pos ⟨by omega, by omega, by simpa using h3⟩,
      loadByte_output _ _ _ (by omega), memcpy_data, if_neg (by omega)]
    congr 1
    omega

theorem wildCopy16Loop_output (inp : List Nat) (e : Int) (fuel : Nat) (m : Mem)
    (dst off q : Nat) (hq : q ≤ dst) (hoff : off ≤ dst)
    (hf : e - ((dst : Int) - (off : Int)) ≤ 16 * (fuel : Int)) (i : Nat) (h1 : dst ≤ i)
    (h2 : (dst : Int) - (off : Int) + ((i - dst : Nat) : Int) < e) (h3 : i < m.cap)
    (h4 : i < q + off) :
    (wildCopy16Loop inp Region.output e fuel m dst ((dst : Int) - (off : Int))).data i
      = m.data (i - off) := by
  induction fuel generalizing m dst with
  | zero => omega
  | succ f ih =>
    unfold wildCopy16Loop
    simp only
    split
    · rename_i hlt
      by_cases hi : i < dst + 16
      · rw [wildCopy16Loop_frame _ _ _ _ _ _ _ _ hi,
          chunk16_output _ _ _ _ _ _ hq hoff h1 hi h3 h4]
      · have := ih (memcpy inp (memcpy inp m dst Region.output ((dst : Int) - (off : Int)) 8)
          (dst + 8) Region.output ((dst : Int) - (off : Int) + 8) 8) (dst + 16)
          (by omega) (by omega) (by push_cast; omega) (by omega) (by push_cast; omega)
          (by simpa using h3)
        have e1 : ((dst + 16 : Nat) : Int) - (off : Int) = (dst : Int) - (off : Int) + 16 := by
          push_cast; ring
        rw [e1] at this
        rw [this, memcpy_data, if_neg (by omega), memcpy_data, if_neg (by omega)]
    · rename_i hge
      exact chunk16_output _ _ _ _ _ _ hq hoff h1 (by omega) h3 h4

theorem wildCopy16_cap (inp : List Nat) (m : Mem) (dst : Nat) (r : Region) (src : Int)
    (len : Nat) : (wildCopy16 inp m dst r src len).cap = m.cap :=
  wildCopy16Loop_cap _ _ _ _ _ _ _

theorem wildCopy16_frame (inp : List Nat) (m : Mem) (dst : Nat) (r : Region) (src : Int)
    (len i : Nat) (hi : i < dst) : (wildCopy16 inp m dst r src len).data i = m.data i :=
  wildCopy16Loop_frame _ _ _ _ _ _ _ _ hi

theorem wildCopy16_input (inp : List Nat) (m : Mem) (dst s len i : Nat) (h1 : dst ≤ i)
    (h2 : i < dst + len) (h3 : i < m.cap) :
    (wildCopy16 inp m dst Region.input (s : Int) len).data i = inp.getD (s + (i - dst)) 0 :=
  wildCopy16Loop_input _ _ _ _ _ _ (by push_cast; omega) i h1 (by omega) h3

theorem wildCopy16_output (inp : List Nat) (m : Mem) (dst off len i : Nat) (hoff : off ≤ dst)
    (hlen : len ≤ off) (h1 : dst ≤ i) (h2 : i < dst + len) (h3 : i < m.cap) :
    (wildCopy16 inp m dst Region.output ((dst : Int) - (off : Int)) len).data i
      = m.data (i - off) :=
  wildCopy16Loop_output _ _ _ _ _ _ dst (le_refl _) hoff (by push_cast; omega) i h1
    (by omega) h3 (by omega)

theorem wildCopy_output (inp : List Nat) (m : Mem) (dst off len i : Nat) (hoff : off ≤ dst)
    (h1 : dst ≤ i) (h2 : i < dst + len) (h3 : i < m.cap) :
    (wildCopy inp m dst Region.output ((dst : Int) - (off : Int)) len).data i
      = m.data (i - off) := by
  simp only [wildCopy, memcpy_data]
  rw [if_pos ⟨h1, h2, h3⟩, loadByte_output _ _ _ (by omega)]
  congr 1
  omega

/-! ## The byte loop of the overlapping match copy -/

theorem overlapLoop_cap (inp : List Nat) (e fuel : Nat) (m : Mem) (outPtr src : Nat) :
    (overlapLoop inp e fuel m outPtr src).1.cap = m.cap := by
  induction fuel generalizing m outPtr src with
  | zero => rfl
  | succ f ih =>
    unfold overlapLoop
    simp only
    split
    · rw [ih]; rfl
    · rfl

theorem overlapLoop_ptr (inp : List Nat) (e fuel : Nat) (m : Mem) (outPtr src : Nat)
    (h : outPtr < e) (hf : e ≤ outPtr + fuel) :
    (overlapLoop inp e fuel m outPtr src).2 = e := by
  induction fuel generalizing m outPtr src with
  | zero => omega
  | succ f ih =>
    unfold overlapLoop
    simp only
    split
    · rename_i hlt
      exact ih _ _ _ hlt (by omega)
    · simp only
      omega

theorem overlapLoop_frame (inp : List Nat) (e fuel : Nat) (m : Mem) (outPtr src i : Nat)
    (hi : i < outPtr) : (overlapLoop inp e fuel m outPtr src).1.data i = m.data i := by
  induction fuel generalizing m outPtr src with
  | zero => rfl
  | succ f ih =>
    unfold overlapLoop
    simp only
    split
    · rw [ih _ _ _ (by omega), storeByte_data, if_neg (by omega)]
      rfl
    · simp only [storeByte_data]
      rw [if_neg (by omega)]
      rfl

theorem overlapLoop_data (inp : List Nat) (e fuel : Nat) (m : Mem) (outPtr src i : Nat)
    (hsrc : src < outPtr) (hf : e ≤ outPtr + fuel) (h1 : outPtr ≤ i) (h2 : i < e)
    (h3 : i < m.cap) :
    (overlapLoop inp e fuel m outPtr src).1.data i
      = (overlapLoop inp e fuel m outPtr src).1.data (i - (outPtr - src)) := by
  induction fuel generalizing m outPtr src with
  | zero => omega
  | succ f ih =>
    unfold overlapLoop
    simp only
    have hload : loadByte inp m Region.output (src : Int) = m.data src := by
      rw [loadByte_output _ _ _ (by omega)]
      simp
    split
    · rename_i hlt
      by_cases hi : i = outPtr
      · subst hi
        rw [overlapLoop_frame _ _ _ _ _ _ _ (by omega), overlapLoop_frame _ _ _ _ _ _ _ (by omega),
          storeByte_data, if_pos ⟨rfl, by simpa using h3⟩, storeByte_data, if_neg (by omega),
          hload]
        simp only [logRead_data]
        congr 1
        omega
      · have := ih (storeByte (logRead m Region.output (src : Int) 1) outPtr
            (loadByte inp m Region.output (src : Int))) (outPtr + 1) (src + 1)
            (by omega) (by omega) (by omega) (by simpa using h3)
        have e1 : outPtr + 1 - (src + 1) = outPtr - src := by omega
        rw [e1] at this
        exact this
    · rename_i hge
      have hi : i = outPtr := by omega
      subst hi
      rw [storeByte_data, if_pos ⟨rfl, by simpa using h3⟩, storeByte_data, if_neg (by omega),
        hload]
      simp only [logRead_data]
      congr 1
      omega

end LLZ4

namespace LLZ4

/-! ## `blockReadLength` -/

theorem blockReadLengthLoop_bounds (inp : List Nat) (e : Int) (fuel ptr len : Nat) :
    ptr ≤ (blockReadLengthLoop inp e fuel ptr len).2 ∧
      (((blockReadLengthLoop inp e fuel ptr len).2 : Int) ≤ e ∨
        (blockReadLengthLoop inp e fuel ptr len).2 = ptr) := by
  induction fuel generalizing ptr len with
  | zero => simp [blockReadLengthLoop]
  | succ f ih =>
    unfold blockReadLengthLoop
    split
    · rename_i hlt
      simp only
      split
      · constructor
        · simp
        · left; push_cast; omega
      · have := ih (ptr + 1) (len + inp.getD ptr 0)
        constructor
        · omega
        · rcases this.2 with h | h
          · left; exact h
          · left; rw [h]; push_cast; omega
    · simp

/-- Reading back `q` bytes 255 followed by a byte `r < 255`. -/
theorem blockReadLengthLoop_run (inp : List Nat) (e : Int) (q : Nat) (fuel ptr len r : Nat)
    (hf : q < fuel) (he : ((ptr + q : Nat) : Int) < e)
    (h255 : ∀ j, j < q → inp.getD (ptr + j) 0 = 255) (hr : inp.getD (ptr + q) 0 = r)
    (hr2 : r < 255) :
    blockReadLengthLoop inp e fuel ptr len = (len + 255 * q + r, ptr + q + 1) := by
  induction q generalizing fuel ptr len with
  | zero =>
    cases fuel with
    | zero => omega
    | succ f =>
      unfold blockReadLengthLoop
      simp only [Nat.add_zero] at hr he
      rw [if_pos he]
      simp only [hr]
      rw [if_pos hr2]
      simp
  | succ q ih =>
    cases fuel with
    | zero => omega
    | succ f =>
      unfold blockReadLengthLoop
      have h0 := h255 0 (by omega)
      simp only [Nat.add_zero] at h0
      rw [if_pos (by push_cast at he ⊢; omega)]
      simp only [h0]
      rw [if_neg (by omega)]
      rw [ih f (ptr + 1) (len + 255) (by omega) (by push_cast at he ⊢; omega)
        (fun j hj => by have := h255 (j + 1) (by omega); rwa [show ptr + 1 + j = ptr + (j + 1) by omega])
        (by rwa [show ptr + 1 + q = ptr + (q + 1) by omega])]
      congr 1 <;> omega

theorem blockReadLength_cap (inp : List Nat) (m : Mem) (ptr : Nat) (e : Int) :
    (blockReadLength inp m ptr e).2.2.cap = m.cap := rfl

theorem blockReadLength_data (inp : List Nat) (m : Mem) (ptr : Nat) (e : Int) :
    (blockReadLength inp m ptr e).2.2.data = m.data := rfl

theorem blockReadLength_bounds (inp : List Nat) (m : Mem) (ptr : Nat) (e : Int) :
    ptr ≤ (blockReadLength inp m ptr e).2.1 ∧
      (((blockReadLength inp m ptr e).2.1 : Int) ≤ e ∨ (blockReadLength inp m ptr e).2.1 = ptr) :=
  blockReadLengthLoop_bounds _ _ _ _ _

theorem blockReadLength_run (inp : List Nat) (m : Mem) (ptr : Nat) (e : Int) (q r : Nat)
    (he : ((ptr + q : Nat) : Int) < e)
    (h255 : ∀ j, j < q → inp.getD (ptr + j) 0 = 255) (hr : inp.getD (ptr + q) 0 = r)
    (hr2 : r < 255) :
    (blockReadLength inp m ptr e).1 = 255 * q + r ∧
      (blockReadLength inp m ptr e).2.1 = ptr + q + 1 := by
  unfold blockReadLength
  simp only
  rw [blockReadLengthLoop_run inp e q _ ptr 0 r (by push_cast at he; omega) he h255 hr hr2]
  simp

/-! ## Shape of the decoder steps -/

theorem readLiteralLength_cap (inp : List Nat) (m : Mem) (token inPtr : Nat) :
    (readLiteralLength inp m token inPtr).2.2.cap = m.cap := by
  unfold readLiteralLength
  simp only
  split <;> rfl

theorem readLiteralLength_data (inp : List Nat) (m : Mem) (token inPtr : Nat) :
    (readLiteralLength inp m token inPtr).2.2.data = m.data := by
  unfold readLiteralLength
  simp only
  split <;> rfl

theorem readLiteralLength_ge (inp : List Nat) (m : Mem) (token inPtr : Nat) :
    inPtr ≤ (readLiteralLength inp m token inPtr).2.1 := by
  unfold readLiteralLength
  simp only
  split
  · exact (blockReadLength_bounds _ _ _ _).1
  · exact le_refl _

theorem readMatchLength_cap (inp : List Nat) (m : Mem) (token inPtr : Nat) :
    (readMatchLength inp m token inPtr).2.2.cap = m.cap := by
  unfold readMatchLength
  simp only
  split <;> rfl

theorem readMatchLength_data (inp : List Nat) (m : Mem) (token inPtr : Nat) :
    (readMatchLength inp m token inPtr).2.2.data = m.data := by
  unfold readMatchLength
  simp only
  split <;> rfl

theorem readMatchLength_bounds (inp : List Nat) (m : Mem) (token inPtr : Nat)
    (h : inPtr ≤ inp.length) :
    inPtr ≤ (readMatchLength inp m token inPtr).2.1 ∧
      (readMatchLength inp m token inPtr).2.1 ≤ inp.length := by
  unfold readMatchLength
  simp only
  split
  · have := blockReadLength_bounds inp m inPtr (inp.length : Int)
    simp only
    omega
  · exact ⟨le_refl _, h⟩

/-- What the literal part of a sequence can yield. -/
theorem decompressLiterals_shape (inp : List Nat) (st : DState) :
    (∃ p q m, decompressLiterals inp st = LStep.copied p q m ∧ st.inPtr < p ∧
        p + 2 < inp.length ∧ q ≤ m.cap ∧ m.cap = st.mem.cap) ∨
    (∃ code st1, decompressLiterals inp st = LStep.done code st1 ∧ st1.mem.cap = st.mem.cap ∧
        ((code = LLZ4_ERROR_OK ∧ st1.outPtr ≤ st.mem.cap) ∨
          code = LLZ4_ERROR_NOT_ENOUGH_OF_SPACE ∨ code = LLZ4_ERROR_INVALID_DATA)) := by
  have hge := readLiteralLength_ge inp (logRead st.mem Region.input st.inPtr 1)
    (inp.getD st.inPtr 0) (st.inPtr + 1)
  have hcap := readLiteralLength_cap inp (logRead st.mem Region.input st.inPtr 1)
    (inp.getD st.inPtr 0) (st.inPtr + 1)
  simp only [logRead_cap] at hcap
  unfold decompressLiterals
  simp only
  split_ifs with h1 h2 h3 h4
  · left
    refine ⟨_, _, _, rfl, by omega, by omega, ?_, ?_⟩
    · rw [wildCopy16_cap]; omega
    · rw [wildCopy16_cap, hcap]
  · left
    refine ⟨_, _, _, rfl, by omega, by omega, ?_, ?_⟩
    · rw [wildCopy_cap]; omega
    · rw [wildCopy_cap, hcap]
  · right
    refine ⟨_, _, rfl, ?_, Or.inl ⟨rfl, ?_⟩⟩
    · simp only [wildCopy_cap, hcap]
    · simp only []
      omega
  · right
    exact ⟨_, _, rfl, hcap, Or.inr (Or.inl rfl)⟩
  · right
    exact ⟨_, _, rfl, hcap, Or.inr (Or.inr rfl)⟩

/-- What the match part of a sequence can yield. -/
theorem decompressMatch_shape (inp : List Nat) (token p q : Nat) (m : Mem)
    (hp : p + 2 < inp.length) :
    (∃ st1, decompressMatch inp token p q m = DStep.next st1 ∧ p + 2 ≤ st1.inPtr ∧
        st1.inPtr ≤ inp.length ∧ st1.outPtr ≤ m.cap ∧ st1.mem.cap = m.cap) ∨
    (∃ code st1, decompressMatch inp token p q m = DStep.done code st1 ∧ st1.mem.cap = m.cap ∧
        (code = LLZ4_ERROR_NOT_ENOUGH_OF_SPACE ∨ code = LLZ4_ERROR_INVALID_DATA)) := by
  have hb := readMatchLength_bounds inp (logRead m Region.input p 2) token (p + 2) (by omega)
  have hcap := readMatchLength_cap inp (logRead m Region.input p 2) token (p + 2)
  simp only [logRead_cap] at hcap
  unfold decompressMatch
  simp only [blockReadOffset]
  split_ifs with h0 h1 h2 h3
  · right
    exact ⟨_, _, rfl, rfl, Or.inr rfl⟩
  · left
    refine ⟨_, rfl, hb.1, hb.2, ?_, ?_⟩
    · simp only []; omega
    · simp only [wildCopy16_cap, hcap]
  · left
    refine ⟨_, rfl, hb.1, hb.2, ?_, ?_⟩
    · simp only []; omega
    · simp only [wildCopy_cap, hcap]
  · right
    exact ⟨_, _, rfl, hcap, Or.inl rfl⟩
  · left
    refine ⟨_, rfl, hb.1, hb.2, ?_, ?_⟩
    · simp only []
      rw [overlapLoop_ptr]
      · omega
      · omega
      · omega
    · simp only [overlapLoop_cap, wildCopy_cap, hcap]

/-- What one pass through the decoder loop can yield. -/
theorem decompressSeq_shape (inp : List Nat) (st : DState) :
    (∃ st1, decompressSeq inp st = DStep.next st1 ∧ st.inPtr < st1.inPtr ∧
        st1.inPtr ≤ inp.length ∧ st1.outPtr ≤ st.mem.cap ∧ st1.mem.cap = st.mem.cap) ∨
    (∃ code st1, decompressSeq inp st = DStep.done code st1 ∧ st1.mem.cap = st.mem.cap ∧
        ((code = LLZ4_ERROR_OK ∧ st1.outPtr ≤ st.mem.cap) ∨
          code = LLZ4_ERROR_NOT_ENOUGH_OF_SPACE ∨ code = LLZ4_ERROR_INVALID_DATA)) := by
  unfold decompressSeq
  rcases decompressLiterals_shape inp st with ⟨p, q, m, h, h1, h2, h3, h4⟩ | ⟨code, st1, h, h1, h2⟩
  · rw [h]
    simp only
    rcases decompressMatch_shape inp (inp.getD st.inPtr 0) p q m h2 with
      ⟨st1, g, g1, g2, g3, g4⟩ | ⟨code, st1, g, g1, g2⟩
    · left
      exact ⟨st1, g, by omega, g2, by omega, by omega⟩
    · right
      refine ⟨code, st1, g, by omega, ?_⟩
      rcases g2 with g2 | g2
      · exact Or.inr (Or.inl g2)
      · exact Or.inr (Or.inr g2)
  · rw [h]
    right
    exact ⟨code, st1, rfl, h1, h2⟩

/-- The decoder loop ends within `inp.length + 1 - inPtr` passes, and with one of
the three results. -/
theorem decompressLoop_total (inp : List Nat) (fuel : Nat) (st : DState)
    (hf : inp.length + 1 ≤ fuel + st.inPtr) (hin : st.inPtr ≤ inp.length) :
    ∃ code st1, decompressLoop inp fuel st = some (code, st1) ∧ st1.mem.cap = st.mem.cap ∧
      ((code = LLZ4_ERROR_OK ∧ st1.outPtr ≤ st.mem.cap) ∨
        code = LLZ4_ERROR_NOT_ENOUGH_OF_SPACE ∨ code = LLZ4_ERROR_INVALID_DATA) := by
  induction fuel generalizing st with
  | zero => omega
  | succ f ih =>
    unfold decompressLoop
    split
    · rename_i hlt
      rcases decompressSeq_shape inp st with ⟨st1, g, g1, g2, g3, g4⟩ | ⟨code, st1, g, g1, g2⟩
      · rw [g]
        simp only
        obtain ⟨code, st2, k, k1, k2⟩ := ih st1 (by omega) g2
        refine ⟨code, st2, k, by omega, ?_⟩
        rw [g4] at k2
        exact k2
      · rw [g]
        exact ⟨code, st1, rfl, g1, g2⟩
    · exact ⟨_, _, rfl, rfl, Or.inr (Or.inr rfl)⟩

end LLZ4

namespace LLZ4

/-- A state at the loop head runs to the result of the whole block. -/
theorem reaches_run (inp : List Nat) (out : Mem) (st : DState) (h : Reaches inp out st) :
    st.inPtr ≤ inp.length ∧ st.mem.cap = out.cap ∧
      ∃ fuel, inp.length + 1 ≤ fuel + st.inPtr ∧
        decompressBlock inp out = decompressLoop inp fuel st := by
  induction h with
  | start => exact ⟨Nat.zero_le _, rfl, inp.length + 1, le_refl _, rfl⟩
  | step st st1 _ hlt hs ih =>
    obtain ⟨_, hc, fuel, hf, hrun⟩ := ih
    rcases decompressSeq_shape inp st with ⟨st2, g, g1, g2, _, g4⟩ | ⟨code, st2, g, _, _⟩
    · rw [hs] at g
      cases g
      refine ⟨g2, by omega, ?_⟩
      cases fuel with
      | zero => omega
      | succ f =>
        refine ⟨f, by omega, ?_⟩
        rw [hrun]
        conv_lhs => unfold decompressLoop
        rw [if_pos hlt, hs]
    · rw [hs] at g
      cases g

end LLZ4

namespace LLZ4

/-! ## The fuel of the inner loops is enough

Each inner loop is a recursion on a count that its caller computes from the
loop bound.  With that count the recursion ends because the loop condition
fails, not because the count is used up: one more unit changes nothing. -/

theorem blockReadLengthLoop_fuel (inp : List Nat) (e : Int) (fuel ptr len : Nat)
    (h : (e - (ptr : Int)).toNat ≤ fuel) :
    blockReadLengthLoop inp e (fuel + 1) ptr len = blockReadLengthLoop inp e fuel ptr len := by
  induction fuel generalizing ptr len with
  | zero =>
    unfold blockReadLengthLoop
    rw [if_neg (by omega)]
  | succ f ih =>
    conv_lhs => unfold blockReadLengthLoop
    conv_rhs => unfold blockReadLengthLoop
    split
    · simp only
      split
      · rfl
      · exact ih (ptr + 1) _ (by push_cast; omega)
    · rfl

theorem blockWriteLengthLoop_fuel (fuel : Nat) (m : Mem) (ptr len : Nat) (h : len / 255 < fuel) :
    blockWriteLengthLoop (fuel + 1) m ptr len = blockWriteLengthLoop fuel m ptr len := by
  induction fuel generalizing m ptr len with
  | zero => omega
  | succ f ih =>
    conv_lhs => unfold blockWriteLengthLoop
    conv_rhs => unfold blockWriteLengthLoop
    split
    · exact ih _ _ _ (by omega)
    · rfl

theorem wildCopy8Loop_fuel (inp : List Nat) (r : Region) (e : Int) (fuel : Nat) (m : Mem)
    (dst : Nat) (src : Int) (h1 : 1 ≤ fuel) (h : e - src ≤ 8 * (fuel : Int)) :
    wildCopy8Loop inp r e (fuel + 1) m dst src = wildCopy8Loop inp r e fuel m dst src := by
  induction fuel generalizing m dst src with
  | zero => omega
  | succ f ih =>
    conv_lhs => unfold wildCopy8Loop
    conv_rhs => unfold wildCopy8Loop
    simp only
    split
    · exact ih _ _ _ (by omega) (by push_cast at h; omega)
    · rfl

theorem wildCopy16Loop_fuel (inp : List Nat) (r : Region) (e : Int) (fuel : Nat) (m : Mem)
    (dst : Nat) (src : Int) (h1 : 1 ≤ fuel) (h : e - src ≤ 16 * (fuel : Int)) :
    wildCopy16Loop inp r e (fuel + 1) m dst src = wildCopy16Loop inp r e fuel m dst src := by
  induction fuel generalizing m dst src with
  | zero => omega
  | succ f ih =>
    conv_lhs => unfold wildCopy16Loop
    conv_rhs => unfold wildCopy16Loop
    simp only
    split
    · exact ih _ _ _ (by omega) (by push_cast at h; omega)
    · rfl

theorem overlapLoop_fuel (inp : List Nat) (e fuel : Nat) (m : Mem) (outPtr src : Nat)
    (h1 : 1 ≤ fuel) (h : e ≤ outPtr + fuel) :
    overlapLoop inp e (fuel + 1) m outPtr src = overlapLoop inp e fuel m outPtr src := by
  induction fuel generalizing m outPtr src with
  | zero => omega
  | succ f ih =>
    conv_lhs => unfold overlapLoop
    conv_rhs => unfold overlapLoop
    simp only
    split
    · exact ih _ _ _ (by omega) (by omega)
    · rfl

theorem matchCountLoop_fuel (inp : List Nat) (matchEnd fuel : Nat) (m : Mem) (ptr optr : Nat)
    (h : (matchEnd - ptr + 3) / 4 ≤ fuel) :
    matchCountLoop inp matchEnd (fuel + 1) m ptr optr
      = matchCountLoop inp matchEnd fuel m ptr optr := by
  induction fuel generalizing m ptr optr with
  | zero =>
    unfold matchCountLoop
    rw [if_neg (by omega)]
  | succ f ih =>
    conv_lhs => unfold matchCountLoop
    conv_rhs => unfold matchCountLoop
    split
    · simp only
      split
      · rfl
      · exact ih _ _ _ (by omega)
    · rfl

end LLZ4

namespace LLZ4

/-! ## Arithmetic of tokens and lengths -/

theorem getD_literal_block (t q r : Nat) (b : List Nat) (i : Nat) :
    (t :: (List.replicate q 255 ++ r :: b)).getD i 0 =
      if i = 0 then t else if i < 1 + q then 255 else if i = 1 + q then r
      else b.getD (i - (2 + q)) 0 := by
  cases i with
  | zero => simp
  | succ j =>
    simp only [List.getD_cons_succ]
    rw [if_neg (by omega)]
    by_cases h1 : j < q
    · rw [List.getD_append _ _ _ _ (by simpa using h1), if_pos (by omega)]
      simp [List.getD_eq_getElem?_getD, h1]
    · rw [List.getD_append_right _ _ _ _ (by simpa using h1), if_neg (by omega)]
      simp only [List.length_replicate]
      by_cases h2 : j = q
      · subst h2
        rw [if_pos (by omega)]
        simp
      · have : j - q = (j - q - 1) + 1 := by omega
        rw [this, List.getD_cons_succ, if_neg (by omega)]
        have e : j + 1 - (2 + q) = j - q - 1 := by omega
        rw [e]

theorem shiftLeft4 (a : Nat) : a <<< 4 = 16 * a := by
  rw [Nat.shiftLeft_eq]
  omega

theorem shiftRight4 (a : Nat) : a >>> 4 = a / 16 := by
  rw [Nat.shiftRight_eq_div_pow]

theorem shiftRight8 (a : Nat) : a >>> 8 = a / 256 := by
  rw [Nat.shiftRight_eq_div_pow]

theorem and15 (a : Nat) : a &&& 15 = a % 16 :=
  Nat.and_pow_two_sub_one_eq_mod a 4

theorem or_shiftLeft4 (a b : Nat) (ha : a < 16) : a ||| (b <<< 4) = a + 16 * b := by
  rw [Nat.or_comm, shiftLeft4]
  have := Nat.mul_add_lt_is_or (show a < 2 ^ 4 by omega) b
  rw [show (2 : Nat) ^ 4 = 16 by norm_num] at this
  rw [← this]
  omega

theorem or_shiftLeft8 (a b : Nat) (ha : a < 256) : a ||| (b <<< 8) = a + 256 * b := by
  rw [Nat.or_comm, Nat.shiftLeft_eq]
  have := Nat.mul_add_lt_is_or (show a < 2 ^ 8 by omega) b
  rw [show (2 : Nat) ^ 8 = 256 by norm_num] at this
  rw [Nat.mul_comm, ← this]
  omega

theorem toInt32_of_lt (n : Nat) (h : n < 2147483648) : toInt32 n = (n : Int) := by
  unfold toInt32
  have : n % 4294967296 = n := by omega
  rw [this, if_pos h]

theorem bound_lt (n : Nat) (h : n ≤ LLZ4_MAX_BLOCK_SIZE) :
    1 + n + (n + 240) / 255 < 2147483648 := by
  unfold LLZ4_MAX_BLOCK_SIZE at h
  omega

/-! ## The final literals -/

/-- The final sequence written by `compressTail` when the buffer has room. -/
theorem compressTail_ok (inp : List Nat) (inPtr outPtr : Nat) (buffer : HashBuffer) (m : Mem)
    (hcap : outPtr + (1 + (inp.length - inPtr + 240) / 255 + (inp.length - inPtr)) ≤ m.cap) :
    (compressTail inp inPtr outPtr buffer m).errorCode = LLZ4_ERROR_OK ∧
    (compressTail inp inPtr outPtr buffer m).inNext = inPtr ∧
    (compressTail inp inPtr outPtr buffer m).outNext
      = outPtr + 1 + (inp.length - inPtr + 240) / 255 + (inp.length - inPtr) ∧
    (compressTail inp inPtr outPtr buffer m).mem.cap = m.cap ∧
    (∀ i, i < outPtr → (compressTail inp inPtr outPtr buffer m).mem.data i = m.data i) ∧
    (compressTail inp inPtr outPtr buffer m).mem.data outPtr
      = (if inp.length - inPtr < 15 then 16 * (inp.length - inPtr) else 240) ∧
    (15 ≤ inp.length - inPtr →
      (∀ j, j < (inp.length - inPtr - 15) / 255 →
        (compressTail inp inPtr outPtr buffer m).mem.data (outPtr + 1 + j) = 255) ∧
      (compressTail inp inPtr outPtr buffer m).mem.data
        (outPtr + 1 + (inp.length - inPtr - 15) / 255) = (inp.length - inPtr - 15) % 255) ∧
    (∀ j, j < inp.length - inPtr →
      (compressTail inp inPtr outPtr buffer m).mem.data
        (outPtr + 1 + (inp.length - inPtr + 240) / 255 + j) = inp.getD (inPtr + j) 0) := by
  unfold compressTail
  simp only
  rw [if_pos hcap]
  generalize hL : inp.length - inPtr = L at hcap ⊢
  by_cases h15 : L < 15
  · have hz : (L + 240) / 255 = 0 := by omega
    simp only [if_pos h15, hz, Nat.add_zero]
    refine ⟨trivial, trivial, trivial, rfl, ?_, ?_, ?_, ?_⟩
    · intro i hi
      rw [wildCopy_frame _ _ _ _ _ _ _ (by omega), storeByte_data, if_neg (by omega)]
    · rw [wildCopy_frame _ _ _ _ _ _ _ (by omega), storeByte_data,
        if_pos ⟨rfl, by omega⟩, shiftLeft4]
      omega
    · intro h; omega
    · intro j hj
      rw [wildCopy_input _ _ _ _ _ _ (by omega) (by omega) (by simp only [storeByte_cap]; omega)]
      congr 1
      omega
  · have hz : (L + 240) / 255 = (L - 15) / 255 + 1 := by omega
    simp only [if_neg h15, blockWriteLength_ptr, blockWriteLength_cap, storeByte_cap]
    refine ⟨trivial, trivial, by omega, ?_, ?_, ?_, ?_, ?_⟩
    · simp only [wildCopy_cap, blockWriteLength_cap, storeByte_cap]
    · intro i hi
      rw [wildCopy_frame _ _ _ _ _ _ _ (by omega), blockWriteLength_data, if_neg (by omega),
        storeByte_data, if_neg (by omega)]
    · rw [wildCopy_frame _ _ _ _ _ _ _ (by omega), blockWriteLength_data, if_neg (by omega),
        storeByte_data, if_pos ⟨rfl, by omega⟩]
      rfl
    · intro _
      constructor
      · intro j hj
        rw [wildCopy_frame _ _ _ _ _ _ _ (by omega), blockWriteLength_data,
          if_pos ⟨by omega, by omega, by simp only [storeByte_cap]; omega⟩, if_pos (by omega)]
      · rw [wildCopy_frame _ _ _ _ _ _ _ (by omega), blockWriteLength_data,
          if_pos ⟨by omega, by omega, by simp only [storeByte_cap]; omega⟩, if_neg (by omega)]
    · intro j hj
      rw [wildCopy_input _ _ _ _ _ _ (by omega) (by omega)
        (by simp only [blockWriteLength_cap, storeByte_cap]; omega)]
      congr 1
      omega

theorem compressTail_full (inp : List Nat) (inPtr outPtr : Nat) (buffer : HashBuffer) (m : Mem)
    (hcap : ¬ outPtr + (1 + (inp.length - inPtr + 240) / 255 + (inp.length - inPtr)) ≤ m.cap) :
    compressTail inp inPtr outPtr buffer m
      = ⟨LLZ4_ERROR_NOT_ENOUGH_OF_SPACE, inPtr, outPtr, buffer, m⟩ := by
  unfold compressTail
  simp only
  rw [if_neg hcap]

theorem compressBlock_level0 (inp : List Nat) (out : Mem) (buffer : HashBuffer)
    (thorough : Bool) :
    compressBlock inp out buffer 0 thorough = some (compressTail inp 0 0 buffer out) := by
  unfold compressBlock
  rw [if_neg (by omega)]

/-- All of level 0: the block is one sequence of literals. -/
theorem level0_block (b : List Nat) (H : HashBuffer) (out : Mem)
    (hlen : b.length ≤ LLZ4_MAX_BLOCK_SIZE)
    (hcap : 1 + (b.length + 240) / 255 + b.length ≤ out.cap) :
    ∃ m, LLZ4_compressBlock H b out 0
        = some (((1 + (b.length + 240) / 255 + b.length : Nat) : Int), H, m) ∧
      m.bytes (1 + (b.length + 240) / 255 + b.length) =
        (if b.length < 15 then 16 * b.length :: b
         else 240 :: (List.replicate ((b.length - 15) / 255) 255 ++ (b.length - 15) % 255 :: b)) := by
  obtain ⟨h1, h2, h3, h4, h5, h6, h7, h8⟩ :=
    compressTail_ok b 0 0 H out (by simpa using hcap)
  simp only [Nat.sub_zero, Nat.zero_add] at h3 h6 h7 h8
  refine ⟨(compressTail b 0 0 H out).mem, ?_, ?_⟩
  · unfold LLZ4_compressBlock
    rw [if_neg (by omega)]
    have hp : levelParams 0 = (0, false) := by decide
    simp only [hp, compressBlock_level0]
    rw [if_neg (by simp [h1]), h3, toInt32_of_lt _ (bound_lt _ hlen |> fun h => by omega)]
    unfold compressTail
    simp only
    rw [if_pos (by simpa using hcap)]
  · by_cases h15 : b.length < 15
    · have hz : (b.length + 240) / 255 = 0 := by omega
      rw [if_pos h15]
      have hl : (16 * b.length :: b).length = 1 + (b.length + 240) / 255 + b.length := by
        simp only [List.length_cons]; omega
      rw [← hl]
      apply bytes_eq_of_forall
      intro i hi
      rw [hl] at hi
      cases i with
      | zero =>
        rw [h6, if_pos h15]
        simp
      | succ j =>
        have := h8 j (by omega)
        rw [hz] at this
        simp only [List.getD_cons_succ]
        rwa [show 1 + 0 + j = j + 1 by omega] at this
    · have hz : (b.length + 240) / 255 = (b.length - 15) / 255 + 1 := by omega
      rw [if_neg h15]
      have hl : (240 :: (List.replicate ((b.length - 15) / 255) 255
          ++ (b.length - 15) % 255 :: b)).length = 1 + (b.length + 240) / 255 + b.length := by
        simp only [List.length_cons, List.length_append, List.length_replicate]; omega
      rw [← hl]
      apply bytes_eq_of_forall
      intro i hi
      rw [hl] at hi
      rw [getD_literal_block]
      obtain ⟨h7a, h7b⟩ := h7 (by omega)
      split_ifs with c1 c2 c3
      · subst c1
        rw [h6, if_neg h15]
      · have := h7a (i - 1) (by omega)
        rwa [show 1 + (i - 1) = i by omega] at this
      · rw [← h7b]
        congr 1
      · have := h8 (i - (2 + (b.length - 15) / 255)) (by omega)
        rwa [show 1 + (b.length + 240) / 255 + (i - (2 + (b.length - 15) / 255)) = i by omega]
          at this

end LLZ4

namespace LLZ4

/-! ## The decoder on a well-formed sequence -/

theorem extLen_small (x : Nat) (h : x < 15) : extLen x = 0 := by
  unfold extLen
  omega

theorem extLen_large (x : Nat) (h : 15 ≤ x) : extLen x = (x - 15) / 255 + 1 := by
  unfold extLen
  omega

/-- The literal length is read back from a token and its extension. -/
theorem readLiteralLength_seq (c : List Nat) (m : Mem) (token ip L : Nat)
    (htok : token / 16 = min L 15)
    (hext : 15 ≤ L → ExtAt (fun i => c.getD i 0) ip (L - 15))
    (hfit : ip + extLen L + L ≤ c.length) :
    (readLiteralLength c m token ip).1 = L ∧
      (readLiteralLength c m token ip).2.1 = ip + extLen L := by
  unfold readLiteralLength
  simp only [shiftRight4]
  by_cases h15 : 15 ≤ L
  · rw [if_pos (by omega)]
    obtain ⟨e1, e2⟩ := hext h15
    have hz := extLen_large L h15
    obtain ⟨r1, r2⟩ := blockReadLength_run c m ip ((c.length : Int) - 15) ((L - 15) / 255)
      ((L - 15) % 255) (by push_cast; omega) e1 e2 (by omega)
    simp only
    rw [r1, r2]
    omega
  · rw [if_neg (by omega)]
    have hz := extLen_small L (by omega)
    simp only
    omega

/-- The match length is read back from a token and its extension. -/
theorem readMatchLength_seq (c : List Nat) (m : Mem) (token ip ml : Nat)
    (htok : token % 16 = min ml 15)
    (hext : 15 ≤ ml → ExtAt (fun i => c.getD i 0) ip (ml - 15))
    (hfit : ip + extLen ml ≤ c.length) :
    (readMatchLength c m token ip).1 = ml + 4 ∧
      (readMatchLength c m token ip).2.1 = ip + extLen ml := by
  unfold readMatchLength
  simp only [and15]
  by_cases h15 : 15 ≤ ml
  · rw [if_pos (by omega)]
    obtain ⟨e1, e2⟩ := hext h15
    have hz := extLen_large ml h15
    obtain ⟨r1, r2⟩ := blockReadLength_run c m ip (c.length : Int) ((ml - 15) / 255)
      ((ml - 15) % 255) (by push_cast; omega) e1 e2 (by omega)
    simp only
    rw [r1, r2]
    omega
  · rw [if_neg (by omega)]
    have hz := extLen_small ml (by omega)
    simp only
    omega

/-- The literal part of a sequence that is followed by a match part: with room
in the output the literals are copied. -/
theorem decompressLiterals_copied (c : List Nat) (D : DState) (src : List Nat)
    (srcPos L : Nat)
    (htok : c.getD D.inPtr 0 / 16 = min L 15)
    (hext : 15 ≤ L → ExtAt (fun i => c.getD i 0) (D.inPtr + 1) (L - 15))
    (hlit : ∀ j, j < L → c.getD (D.inPtr + 1 + extLen L + j) 0 = src.getD (srcPos + j) 0)
    (hmore : D.inPtr + 1 + extLen L + L + 2 < c.length)
    (hroom : D.outPtr + L ≤ D.mem.cap) :
    ∃ m, decompressLiterals c D
        = LStep.copied (D.inPtr + 1 + extLen L + L) (D.outPtr + L) m ∧
      m.cap = D.mem.cap ∧ (∀ i, i < D.outPtr → m.data i = D.mem.data i) ∧
      (∀ j, j < L → m.data (D.outPtr + j) = src.getD (srcPos + j) 0) := by
  obtain ⟨r1, r2⟩ := readLiteralLength_seq c (logRead D.mem Region.input D.inPtr 1)
    (c.getD D.inPtr 0) (D.inPtr + 1) L htok hext (by omega)
  have hcap := readLiteralLength_cap c (logRead D.mem Region.input D.inPtr 1)
    (c.getD D.inPtr 0) (D.inPtr + 1)
  have hdata := readLiteralLength_data c (logRead D.mem Region.input D.inPtr 1)
    (c.getD D.inPtr 0) (D.inPtr + 1)
  simp only [logRead_cap, logRead_data] at hcap hdata
  unfold decompressLiterals
  simp only
  rw [r1, r2, hcap]
  by_cases h1 : D.inPtr + 1 + extLen L + L + 15 ≤ c.length ∧ D.outPtr + L + 15 ≤ D.mem.cap
  · rw [if_pos h1]
    refine ⟨_, rfl, ?_, ?_, ?_⟩
    · rw [wildCopy16_cap, hcap]
    · intro i hi
      rw [wildCopy16_frame _ _ _ _ _ _ _ hi, hdata]
    · intro j hj
      rw [wildCopy16_input _ _ _ _ _ _ (by omega) (by omega) (by rw [hcap]; omega)]
      rw [← hlit j hj]
      congr 1
      omega
  · rw [if_neg h1, if_pos ⟨hmore, hroom⟩]
    refine ⟨_, rfl, ?_, ?_, ?_⟩
    · rw [wildCopy_cap, hcap]
    · intro i hi
      rw [wildCopy_frame _ _ _ _ _ _ _ hi, hdata]
    · intro j hj
      rw [wildCopy_input _ _ _ _ _ _ (by omega) (by omega) (by rw [hcap]; omega)]
      rw [← hlit j hj]
      congr 1
      omega

/-- The literal part of any sequence: without room in the output the result is
`LLZ4_ERROR_NOT_ENOUGH_OF_SPACE`. -/
theorem decompressLiterals_full (c : List Nat) (D : DState) (L : Nat)
    (htok : c.getD D.inPtr 0 / 16 = min L 15)
    (hext : 15 ≤ L → ExtAt (fun i => c.getD i 0) (D.inPtr + 1) (L - 15))
    (hfit : D.inPtr + 1 + extLen L + L ≤ c.length)
    (hroom : ¬ D.outPtr + L ≤ D.mem.cap) :
    ∃ st, decompressLiterals c D = LStep.done LLZ4_ERROR_NOT_ENOUGH_OF_SPACE st := by
  obtain ⟨r1, r2⟩ := readLiteralLength_seq c (logRead D.mem Region.input D.inPtr 1)
    (c.getD D.inPtr 0) (D.inPtr + 1) L htok hext (by omega)
  have hcap := readLiteralLength_cap c (logRead D.mem Region.input D.inPtr 1)
    (c.getD D.inPtr 0) (D.inPtr + 1)
  simp only [logRead_cap] at hcap
  unfold decompressLiterals
  simp only
  rw [r1, r2, hcap]
  rw [if_neg (by omega), if_neg (by omega), if_neg (by omega), if_pos (by omega)]
  exact ⟨_, rfl⟩

/-- The literal part of the last sequence: with room in the output the
literals are copied and the block ends with `LLZ4_ERROR_OK`. -/
theorem decompressLiterals_last (c : List Nat) (D : DState) (src : List Nat)
    (srcPos L : Nat)
    (htok : c.getD D.inPtr 0 / 16 = min L 15)
    (hext : 15 ≤ L → ExtAt (fun i => c.getD i 0) (D.inPtr + 1) (L - 15))
    (hlit : ∀ j, j < L → c.getD (D.inPtr + 1 + extLen L + j) 0 = src.getD (srcPos + j) 0)
    (hend : D.inPtr + 1 + extLen L + L = c.length)
    (hroom : D.outPtr + L ≤ D.mem.cap) :
    ∃ m, decompressLiterals c D
        = LStep.done LLZ4_ERROR_OK ⟨c.length, D.outPtr + L, m⟩ ∧
      m.cap = D.mem.cap ∧ (∀ i, i < D.outPtr → m.data i = D.mem.data i) ∧
      (∀ j, j < L → m.data (D.outPtr + j) = src.getD (srcPos + j) 0) := by
  obtain ⟨r1, r2⟩ := readLiteralLength_seq c (logRead D.mem Region.input D.inPtr 1)
    (c.getD D.inPtr 0) (D.inPtr + 1) L htok hext (by omega)
  have hcap := readLiteralLength_cap c (logRead D.mem Region.input D.inPtr 1)
    (c.getD D.inPtr 0) (D.inPtr + 1)
  have hdata := readLiteralLength_data c (logRead D.mem Region.input D.inPtr 1)
    (c.getD D.inPtr 0) (D.inPtr + 1)
  simp only [logRead_cap, logRead_data] at hcap hdata
  unfold decompressLiterals
  simp only
  rw [r1, r2, hcap]
  rw [if_neg (by omega), if_neg (by omega), if_pos ⟨by omega, hroom⟩]
  refine ⟨_, rfl, ?_, ?_, ?_⟩
  · rw [wildCopy_cap, hcap]
  · intro i hi
    rw [wildCopy_frame _ _ _ _ _ _ _ hi, hdata]
  · intro j hj
    rw [wildCopy_input _ _ _ _ _ _ (by omega) (by omega) (by rw [hcap]; omega)]
    rw [← hlit j hj]
    congr 1
    omega

end LLZ4

namespace LLZ4

theorem offset_bytes (x y off : Nat) (hx : x = off % 256) (hy : y = off / 256 % 256)
    (h : off < 65536) : x ||| (y <<< 8) = off := by
  rw [or_shiftLeft8 _ _ (by omega)]
  omega

/-- The match part of a sequence: with room in the output the match is copied,
each byte being the one `off` bytes before it. -/
theorem decompressMatch_copied (c : List Nat) (token p q : Nat) (m : Mem) (off ml : Nat)
    (htok : token % 16 = min ml 15)
    (h0 : c.getD p 0 = off % 256) (h1 : c.getD (p + 1) 0 = off / 256 % 256)
    (hoff1 : 1 ≤ off) (hoff2 : off < 65536) (hoffq : off ≤ q)
    (hext : 15 ≤ ml → ExtAt (fun i => c.getD i 0) (p + 2) (ml - 15))
    (hfit : p + 2 + extLen ml ≤ c.length)
    (hroom : q + (ml + 4) ≤ m.cap) :
    ∃ st, decompressMatch c token p q m = DStep.next st ∧
      st.inPtr = p + 2 + extLen ml ∧ st.outPtr = q + (ml + 4) ∧ st.mem.cap = m.cap ∧
      (∀ i, i < q → st.mem.data i = m.data i) ∧
      (∀ j, j < ml + 4 → st.mem.data (q + j) = st.mem.data (q + j - off)) := by
  obtain ⟨r1, r2⟩ := readMatchLength_seq c (logRead m Region.input p 2) token (p + 2) ml
    htok hext hfit
  have hcap := readMatchLength_cap c (logRead m Region.input p 2) token (p + 2)
  have hdata := readMatchLength_data c (logRead m Region.input p 2) token (p + 2)
  simp only [logRead_cap, logRead_data] at hcap hdata
  have hoff := offset_bytes _ _ off h0 h1 hoff2
  unfold decompressMatch
  simp only [blockReadOffset]
  rw [hoff, r1, r2, hcap]
  rw [if_neg (by omega)]
  by_cases c1 : ml + 4 ≤ off ∧ q + (ml + 4) + 15 ≤ m.cap
  · rw [if_pos c1]
    refine ⟨_, rfl, rfl, rfl, ?_, ?_, ?_⟩
    · rw [wildCopy16_cap, hcap]
    · intro i hi
      rw [wildCopy16_frame _ _ _ _ _ _ _ hi, hdata]
    · intro j hj
      simp only
      rw [wildCopy16_output _ _ _ _ _ _ hoffq c1.1 (by omega) (by omega) (by rw [hcap]; omega),
        wildCopy16_frame _ _ _ _ _ _ _ (by omega)]
  · rw [if_neg c1]
    by_cases c2 : ml + 4 ≤ off ∧ q + (ml + 4) ≤ m.cap
    · rw [if_pos c2]
      refine ⟨_, rfl, rfl, rfl, ?_, ?_, ?_⟩
      · rw [wildCopy_cap, hcap]
      · intro i hi
        rw [wildCopy_frame _ _ _ _ _ _ _ hi, hdata]
      · intro j hj
        simp only
        rw [wildCopy_output _ _ _ _ _ _ hoffq (by omega) (by omega) (by rw [hcap]; omega),
          wildCopy_frame _ _ _ _ _ _ _ (by omega)]
    · rw [if_neg c2, if_neg (by omega)]
      have hlt : off < ml + 4 := by omega
      refine ⟨_, rfl, rfl, ?_, ?_, ?_, ?_⟩
      · simp only
        rw [overlapLoop_ptr _ _ _ _ _ _ (by omega) (by omega)]
      · simp only [overlapLoop_cap, wildCopy_cap, hcap]
      · intro i hi
        simp only
        rw [overlapLoop_frame _ _ _ _ _ _ _ (by omega), wildCopy_frame _ _ _ _ _ _ _ hi, hdata]
      · intro j hj
        simp only
        by_cases hj2 : j < off
        · rw [overlapLoop_frame _ _ _ _ _ _ _ (by omega),
            overlapLoop_frame _ _ _ _ _ _ _ (by omega),
            wildCopy_output _ _ _ _ _ _ hoffq (by omega) (by omega) (by rw [hcap]; omega),
            wildCopy_frame _ _ _ _ _ _ _ (by omega)]
        · have := overlapLoop_data c (q + (ml + 4)) (ml + 4)
            (wildCopy c (readMatchLength c (logRead m Region.input p 2) token (p + 2)).2.2 q
              Region.output ((q : Int) - (off : Int)) off) (q + off) q (q + j)
            (by omega) (by omega) (by omega) (by omega)
            (by rw [wildCopy_cap, hcap]; omega)
          rw [show q + off - q = off by omega] at this
          exact this

/-- The match part of a sequence: without room in the output the result is
`LLZ4_ERROR_NOT_ENOUGH_OF_SPACE`. -/
theorem decompressMatch_full (c : List Nat) (token p q : Nat) (m : Mem) (off ml : Nat)
    (htok : token % 16 = min ml 15)
    (h0 : c.getD p 0 = off % 256) (h1 : c.getD (p + 1) 0 = off / 256 % 256)
    (hoff1 : 1 ≤ off) (hoff2 : off < 65536)
    (hext : 15 ≤ ml → ExtAt (fun i => c.getD i 0) (p + 2) (ml - 15))
    (hfit : p + 2 + extLen ml ≤ c.length)
    (hroom : ¬ q + (ml + 4) ≤ m.cap) :
    ∃ st, decompressMatch c token p q m = DStep.done LLZ4_ERROR_NOT_ENOUGH_OF_SPACE st := by
  obtain ⟨r1, r2⟩ := readMatchLength_seq c (logRead m Region.input p 2) token (p + 2) ml
    htok hext hfit
  have hcap := readMatchLength_cap c (logRead m Region.input p 2) token (p + 2)
  simp only [logRead_cap] at hcap
  have hoff := offset_bytes _ _ off h0 h1 hoff2
  unfold decompressMatch
  simp only [blockReadOffset]
  rw [hoff, r1, r2, hcap]
  rw [if_neg (by omega), if_neg (by omega), if_neg (by omega), if_pos (by omega)]
  exact ⟨_, rfl⟩

/-- One pass of the decoder over a sequence with a match part.  The input `c`
holds at the cursor a sequence of `L` literals `src[srcPos ..]` and a match of
`ml + 4` bytes at distance `off`, and at least one byte behind it.  With room
for the `L + ml + 4` bytes the pass writes them and goes on behind the
sequence; without, it ends with `LLZ4_ERROR_NOT_ENOUGH_OF_SPACE`. -/
theorem decompressSeq_seq (c : List Nat) (D : DState) (src : List Nat)
    (srcPos L off ml : Nat)
    (hseq : SeqAt (fun i => c.getD i 0) D.inPtr src srcPos L off ml)
    (hmore : D.inPtr + seqLen L ml < c.length)
    (hoff1 : 1 ≤ off) (hoff2 : off < 65536) (hoffq : off ≤ D.outPtr + L) :
    (D.outPtr + L + (ml + 4) ≤ D.mem.cap →
      ∃ st, decompressSeq c D = DStep.next st ∧
        st.inPtr = D.inPtr + seqLen L ml ∧ st.outPtr = D.outPtr + L + (ml + 4) ∧
        st.mem.cap = D.mem.cap ∧
        (∀ i, i < D.outPtr → st.mem.data i = D.mem.data i) ∧
        (∀ j, j < L → st.mem.data (D.outPtr + j) = src.getD (srcPos + j) 0) ∧
        (∀ j, j < ml + 4 →
          st.mem.data (D.outPtr + L + j) = st.mem.data (D.outPtr + L + j - off))) ∧
    (¬ D.outPtr + L + (ml + 4) ≤ D.mem.cap →
      ∃ st, decompressSeq c D = DStep.done LLZ4_ERROR_NOT_ENOUGH_OF_SPACE st) := by
  obtain ⟨s1, s2, s3, s4, s5, s6⟩ := hseq
  simp only at s1 s2 s3 s4 s5 s6
  unfold seqLen at hmore
  have htokL : c.getD D.inPtr 0 / 16 = min L 15 := by rw [s1]; omega
  have htokM : c.getD D.inPtr 0 % 16 = min ml 15 := by rw [s1]; omega
  by_cases hroomL : D.outPtr + L ≤ D.mem.cap
  · obtain ⟨m, e, ecap, eframe, elit⟩ :=
      decompressLiterals_copied c D src srcPos L htokL s2 s3 (by omega) hroomL
    constructor
    · intro hroom
      obtain ⟨st, f, f1, f2, f3, f4, f5⟩ :=
        decompressMatch_copied c (c.getD D.inPtr 0) (D.inPtr + 1 + extLen L + L)
          (D.outPtr + L) m off ml htokM s4 s5 hoff1 hoff2 hoffq s6 (by omega)
          (by rw [ecap]; omega)
      refine ⟨st, ?_, ?_, f2, by rw [f3, ecap], ?_, ?_, f5⟩
      · unfold decompressSeq
        rw [e]
        exact f
      · rw [f1]
        unfold seqLen
        omega
      · intro i hi
        rw [f4 i (by omega), eframe i hi]
      · intro j hj
        rw [f4 _ (by omega), elit j hj]
    · intro hroom
      obtain ⟨st, f⟩ :=
        decompressMatch_full c (c.getD D.inPtr 0) (D.inPtr + 1 + extLen L + L)
          (D.outPtr + L) m off ml htokM s4 s5 hoff1 hoff2 s6 (by omega)
          (by rw [ecap]; omega)
      refine ⟨st, ?_⟩
      unfold decompressSeq
      rw [e]
      exact f
  · obtain ⟨st, e⟩ := decompressLiterals_full c D L htokL s2 (by omega) hroomL
    constructor
    · intro hroom
      omega
    · intro _
      refine ⟨st, ?_⟩
      unfold decompressSeq
      rw [e]

/-- One pass of the decoder over the last sequence of a block. -/
theorem decompressSeq_last (c : List Nat) (D : DState) (src : List Nat) (srcPos L : Nat)
    (hseq : LastAt (fun i => c.getD i 0) D.inPtr src srcPos L)
    (hend : D.inPtr + 1 + extLen L + L = c.length) :
    (D.outPtr + L ≤ D.mem.cap →
      ∃ m, decompressSeq c D = DStep.done LLZ4_ERROR_OK ⟨c.length, D.outPtr + L, m⟩ ∧
        m.cap = D.mem.cap ∧
        (∀ i, i < D.outPtr → m.data i = D.mem.data i) ∧
        (∀ j, j < L → m.data (D.outPtr + j) = src.getD (srcPos + j) 0)) ∧
    (¬ D.outPtr + L ≤ D.mem.cap →
      ∃ st, decompressSeq c D = DStep.done LLZ4_ERROR_NOT_ENOUGH_OF_SPACE st) := by
  obtain ⟨s1, s2, s3⟩ := hseq
  simp only at s1 s2 s3
  have htokL : c.getD D.inPtr 0 / 16 = min L 15 := by rw [s1]; omega
  constructor
  · intro hroom
    obtain ⟨m, e, e1, e2, e3⟩ := decompressLiterals_last c D src srcPos L htokL s2 s3 hend hroom
    refine ⟨m, ?_, e1, e2, e3⟩
    unfold decompressSeq
    rw [e]
  · intro hroom
    obtain ⟨st, e⟩ := decompressLiterals_full c D L htokL s2 (by omega) hroom
    refine ⟨st, ?_⟩
    unfold decompressSeq
    rw [e]

end LLZ4

namespace LLZ4

/-! ## `matchCount` -/

theorem ctzLoop_le (fuel d : Nat) : ctzLoop fuel d ≤ fuel := by
  induction fuel generalizing d with
  | zero => simp [ctzLoop]
  | succ f ih =>
    unfold ctzLoop
    split
    · omega
    · have := ih (d / 2)
      omega

/-- The low `ctzLoop fuel d` bits of `d` are zero. -/
theorem ctzLoop_mod (fuel d k : Nat) (hk : k ≤ ctzLoop fuel d) : d % 2 ^ k = 0 := by
  induction fuel generalizing d k with
  | zero =>
    simp only [ctzLoop] at hk
    have : k = 0 := by omega
    subst this
    rw [pow_zero, Nat.mod_one]
  | succ f ih =>
    unfold ctzLoop at hk
    split at hk
    · have : k = 0 := by omega
      subst this
      rw [pow_zero, Nat.mod_one]
    · rename_i hodd
      cases k with
      | zero => rw [pow_zero, Nat.mod_one]
      | succ k1 =>
        have h1 := ih (d / 2) k1 (by omega)
        have h2 : d = 2 * (d / 2) := by omega
        rw [h2, pow_succ, Nat.mul_comm (2 ^ k1) 2, Nat.mul_mod_mul_left, h1]

theorem xor_mod_two_pow (a b k : Nat) : (a ^^^ b) % 2 ^ k = (a % 2 ^ k) ^^^ (b % 2 ^ k) := by
  apply Nat.eq_of_testBit_eq
  intro i
  simp only [Nat.testBit_mod_two_pow, Nat.testBit_xor]
  by_cases h : i < k <;> simp [h]

theorem eq_mod_of_xor_mod (a b k : Nat) (h : (a ^^^ b) % 2 ^ k = 0) : a % 2 ^ k = b % 2 ^ k := by
  rw [xor_mod_two_pow] at h
  exact Nat.xor_eq_zero.mp h

theorem getD_lt_of_isBytes (inp : List Nat) (h : IsBytes inp) (i : Nat) : inp.getD i 0 < 256 := by
  rw [List.getD_eq_getElem?_getD]
  by_cases hi : i < inp.length
  · rw [List.getElem?_eq_getElem hi]
    exact h _ (List.getElem_mem hi)
  · rw [List.getElem?_eq_none (by omega)]
    simp

/-- Two little-endian 32-bit values that agree in their low `8 * c` bits agree
in their first `c` bytes. -/
theorem low_bytes_eq (a0 a1 a2 a3 b0 b1 b2 b3 c : Nat)
    (ha0 : a0 < 256) (ha1 : a1 < 256) (ha2 : a2 < 256) (ha3 : a3 < 256)
    (hb0 : b0 < 256) (hb1 : b1 < 256) (hb2 : b2 < 256) (hb3 : b3 < 256) (hc : c ≤ 4)
    (h : (a0 + a1 * 256 + a2 * 65536 + a3 * 16777216) % 4294967296 % 2 ^ (8 * c)
      = (b0 + b1 * 256 + b2 * 65536 + b3 * 16777216) % 4294967296 % 2 ^ (8 * c)) :
    (1 ≤ c → a0 = b0) ∧ (2 ≤ c → a1 = b1) ∧ (3 ≤ c → a2 = b2) ∧ (4 ≤ c → a3 = b3) := by
  have hc' : c = 0 ∨ c = 1 ∨ c = 2 ∨ c = 3 ∨ c = 4 := by omega
  rcases hc' with rfl | rfl | rfl | rfl | rfl
  · omega
  · norm_num at h
    omega
  · norm_num at h
    omega
  · norm_num at h
    omega
  · norm_num at h
    omega

/-- Two 32-bit loads that agree in their low `8 * c` bits agree in their first
`c` bytes. -/
theorem load32_low_bytes (inp : List Nat) (hb : IsBytes inp) (p q c : Nat) (hc : c ≤ 4)
    (h : (load32 inp p ^^^ load32 inp q) % 2 ^ (8 * c) = 0) (j : Nat) (hj : j < c) :
    inp.getD (p + j) 0 = inp.getD (q + j) 0 := by
  have h := eq_mod_of_xor_mod _ _ _ h
  unfold load32 at h
  obtain ⟨e0, e1, e2, e3⟩ := low_bytes_eq _ _ _ _ _ _ _ _ c
    (getD_lt_of_isBytes inp hb p) (getD_lt_of_isBytes inp hb (p + 1))
    (getD_lt_of_isBytes inp hb (p + 2)) (getD_lt_of_isBytes inp hb (p + 3))
    (getD_lt_of_isBytes inp hb q) (getD_lt_of_isBytes inp hb (q + 1))
    (getD_lt_of_isBytes inp hb (q + 2)) (getD_lt_of_isBytes inp hb (q + 3)) hc h
  have hj' : j = 0 ∨ j = 1 ∨ j = 2 ∨ j = 3 := by omega
  rcases hj' with rfl | rfl | rfl | rfl
  · exact e0 (by omega)
  · exact e1 (by omega)
  · exact e2 (by omega)
  · exact e3 (by omega)

theorem matchCountLoop_mem (inp : List Nat) (matchEnd fuel : Nat) (m : Mem) (ptr optr : Nat) :
    (matchCountLoop inp matchEnd fuel m ptr optr).2.2.cap = m.cap ∧
      (matchCountLoop inp matchEnd fuel m ptr optr).2.2.data = m.data := by
  induction fuel generalizing m ptr optr with
  | zero => exact ⟨rfl, rfl⟩
  | succ f ih =>
    unfold matchCountLoop
    split
    · simp only
      split
      · exact ⟨rfl, rfl⟩
      · have := ih (logRead (logRead m Region.input ptr 4) Region.input optr 4) (ptr + 4)
          (optr + 4)
        simpa using this
    · exact ⟨rfl, rfl⟩

theorem matchCountLoop_bound (inp : List Nat) (matchEnd fuel : Nat) (m : Mem) (ptr optr : Nat) :
    ptr ≤ (matchCountLoop inp matchEnd fuel m ptr optr).2.1 ∧
    (matchCountLoop inp matchEnd fuel m ptr optr).2.1
        + (matchCountLoop inp matchEnd fuel m ptr optr).1 ≤ max ptr (matchEnd + 3) := by
  induction fuel generalizing m ptr optr with
  | zero => simp [matchCountLoop]
  | succ f ih =>
    unfold matchCountLoop
    split
    · rename_i hlt
      simp only
      split
      · have := ctzLoop_le 32 (load32 inp ptr ^^^ load32 inp optr)
        simp only [ctz32, Nat.shiftRight_eq_div_pow]
        constructor
        · exact le_refl _
        · have : ctzLoop 32 (load32 inp ptr ^^^ load32 inp optr) / 2 ^ 3 ≤ 4 := by omega
          omega
      · have := ih (logRead (logRead m Region.input ptr 4) Region.input optr 4) (ptr + 4)
          (optr + 4)
        omega
    · simp

theorem matchCountLoop_equal (inp : List Nat) (hb : IsBytes inp) (matchEnd fuel : Nat) (m : Mem)
    (ptr optr j : Nat)
    (hj : j < (matchCountLoop inp matchEnd fuel m ptr optr).2.1 - ptr
      + (matchCountLoop inp matchEnd fuel m ptr optr).1) :
    inp.getD (ptr + j) 0 = inp.getD (optr + j) 0 := by
  induction fuel generalizing m ptr optr j with
  | zero => simp [matchCountLoop] at hj
  | succ f ih =>
    unfold matchCountLoop at hj
    split at hj
    · rename_i hlt
      simp only at hj
      split at hj
      · rename_i hne
        simp only [ctz32, Nat.shiftRight_eq_div_pow, Nat.sub_self, Nat.zero_add] at hj
        have hle := ctzLoop_le 32 (load32 inp ptr ^^^ load32 inp optr)
        have h8 : 8 * (ctzLoop 32 (load32 inp ptr ^^^ load32 inp optr) / 2 ^ 3)
            ≤ ctzLoop 32 (load32 inp ptr ^^^ load32 inp optr) := by omega
        exact load32_low_bytes inp hb ptr optr _ (by omega) (ctzLoop_mod _ _ _ h8) j hj
      · rename_i heq
        have heq : load32 inp ptr ^^^ load32 inp optr = 0 := by simpa using heq
        by_cases hj4 : j < 4
        · exact load32_low_bytes inp hb ptr optr 4 (le_refl _) (by rw [heq]; simp) j hj4
        · have hge := (matchCountLoop_bound inp matchEnd f
            (logRead (logRead m Region.input ptr 4) Region.input optr 4) (ptr + 4) (optr + 4)).1
          have := ih (logRead (logRead m Region.input ptr 4) Region.input optr 4) (ptr + 4)
            (optr + 4) (j - 4) (by omega)
          rw [show ptr + 4 + (j - 4) = ptr + j by omega,
            show optr + 4 + (j - 4) = optr + j by omega] at this
          exact this
    · simp at hj

/-- `matchCount` leaves the buffer alone, does not run past `matchEnd + 3`, and
counts bytes that are equal at the two positions. -/
theorem matchCount_spec (inp : List Nat) (m : Mem) (matchPtr matchEnd optr : Nat) :
    (matchCount inp m matchPtr matchEnd optr).2.cap = m.cap ∧
    (matchCount inp m matchPtr matchEnd optr).2.data = m.data ∧
    matchPtr + (matchCount inp m matchPtr matchEnd optr).1 ≤ max matchPtr (matchEnd + 3) ∧
    (IsBytes inp → ∀ j, j < (matchCount inp m matchPtr matchEnd optr).1 →
      inp.getD (matchPtr + j) 0 = inp.getD (optr + j) 0) := by
  unfold matchCount
  simp only
  have h1 := matchCountLoop_mem inp matchEnd ((matchEnd - matchPtr) / 4 + 1) m matchPtr optr
  have h2 := matchCountLoop_bound inp matchEnd ((matchEnd - matchPtr) / 4 + 1) m matchPtr optr
  refine ⟨h1.1, h1.2, by omega, ?_⟩
  intro hb j hj
  exact matchCountLoop_equal inp hb matchEnd ((matchEnd - matchPtr) / 4 + 1) m matchPtr optr j
    (by omega)

end LLZ4

namespace LLZ4

/-! ## The hash table -/

/-- For a candidate that is not behind `inPtr` the offset written is the
distance. -/
theorem offsetOf_of_le (inPtr matchPtr : Nat) (h : matchPtr ≤ inPtr) :
    offsetOf inPtr matchPtr = inPtr - matchPtr := by
  unfold offsetOf
  rw [if_pos h]

theorem shiftRightTrigger (x : Nat) : x >>> LLZ4_ACCELERATION_TRIGGER = x / 64 := by
  rw [Nat.shiftRight_eq_div_pow]
  rfl

theorem TableBelow.mono {inp : List Nat} {H : HashBuffer} {k k1 : Nat}
    (h : TableBelow inp H k) (hk : k ≤ k1) : TableBelow inp H k1 := by
  intro x q hq
  have := h x q hq
  omega

theorem updateHash_mem (inp : List Nat) (p : Nat) (H : HashBuffer) (m : Mem) :
    (updateHash inp p H m).2.2.cap = m.cap ∧ (updateHash inp p H m).2.2.data = m.data :=
  ⟨rfl, rfl⟩

theorem updateHash_table (inp : List Nat) (p : Nat) (H : HashBuffer) (m : Mem) (k : Nat)
    (h : TableBelow inp H k) (hp : p < k) : TableBelow inp (updateHash inp p H m).2.1 k := by
  intro x q hq
  simp only [updateHash] at hq
  split at hq
  · cases hq
    exact hp
  · exact h x q hq

theorem updateHash_result (inp : List Nat) (p : Nat) (H : HashBuffer) (m : Mem) (k q : Nat)
    (h : TableBelow inp H k) (hq : (updateHash inp p H m).1 = some q) : q < k :=
  h _ q hq

/-- The re-index loop ends, leaves the buffer alone and stores only positions
below `nextPtr`. -/
theorem reindexLoop_spec (inp : List Nat) (nextPtr fuel p ss s : Nat) (H : HashBuffer) (m : Mem)
    (hs : 1 ≤ s) (hss : 64 ≤ ss) (hf : nextPtr - p < fuel) (hT : TableBelow inp H nextPtr) :
    ∃ H1 m1, reindexLoop inp nextPtr fuel p ss s H m = some (H1, m1) ∧
      m1.cap = m.cap ∧ m1.data = m.data ∧ TableBelow inp H1 nextPtr := by
  induction fuel generalizing p ss s H m with
  | zero => omega
  | succ f ih =>
    unfold reindexLoop
    split
    · rename_i hlt
      simp only
      obtain ⟨H1, m1, e, e1, e2, e3⟩ := ih (p + s) (ss + 1) (ss >>> LLZ4_ACCELERATION_TRIGGER)
        (updateHash inp p H m).2.1 (updateHash inp p H m).2.2
        (by rw [shiftRightTrigger]; omega) (by omega) (by omega)
        (updateHash_table inp p H m nextPtr hT hlt)
      exact ⟨H1, m1, e, e1, e2, e3⟩
    · exact ⟨H, m, rfl, rfl, rfl, hT⟩

theorem reindex_spec (inp : List Nat) (init : Nat) (thorough : Bool) (inPtr nextPtr : Nat)
    (H : HashBuffer) (m : Mem) (hinit : 64 ≤ init) (hT : TableBelow inp H nextPtr) :
    ∃ H1 m1, reindex inp init thorough inPtr nextPtr H m = some (H1, m1) ∧
      m1.cap = m.cap ∧ m1.data = m.data ∧ TableBelow inp H1 nextPtr := by
  unfold reindex
  split
  · exact reindexLoop_spec inp nextPtr (nextPtr + 1) _ init 1 H m (le_refl _) hinit (by omega) hT
  · exact ⟨H, m, rfl, rfl, rfl, hT⟩

/-! ## Emission of a sequence -/

theorem token_value (ml L : Nat) (hL : L ≤ 15) :
    ((if ml < 15 then ml % 256 else 15) ||| (L <<< 4)) % 256 = min ml 15 + 16 * L := by
  have h : (if ml < 15 then ml % 256 else 15) = min ml 15 := by
    split <;> omega
  rw [h, or_shiftLeft4 _ _ (by omega)]
  omega

/-- The token and the literals as `emitLiterals` leaves them in the buffer. -/
theorem emitLiterals_spec (inp : List Nat) (m : Mem) (o inLast L ml : Nat)
    (hcap : o + 1 + extLen L + L + 7 ≤ m.cap) :
    (emitLiterals inp m o inLast L ml).2 = o + 1 + extLen L + L ∧
    (emitLiterals inp m o inLast L ml).1.cap = m.cap ∧
    (∀ i, i < o → (emitLiterals inp m o inLast L ml).1.data i = m.data i) ∧
    (emitLiterals inp m o inLast L ml).1.data o = min ml 15 + 16 * min L 15 ∧
    (15 ≤ L → ExtAt (emitLiterals inp m o inLast L ml).1.data (o + 1) (L - 15)) ∧
    (∀ j, j < L → (emitLiterals inp m o inLast L ml).1.data (o + 1 + extLen L + j)
      = inp.getD (inLast + j) 0) := by
  have htok0 : (if ml < 15 then ml % 256 else 15) = min ml 15 := by
    split <;> omega
  unfold emitLiterals
  simp only
  by_cases h0 : L = 0
  · subst h0
    have hz := extLen_small 0 (by omega)
    rw [if_pos rfl, hz]
    refine ⟨rfl, rfl, ?_, ?_, ?_, ?_⟩
    · intro i hi
      rw [storeByte_data, if_neg (by omega)]
    · rw [storeByte_data, if_pos ⟨rfl, by omega⟩, htok0]
      omega
    · intro h; omega
    · intro j hj; omega
  · rw [if_neg h0]
    by_cases h15 : L < 15
    · have hz := extLen_small L h15
      have hmod : L % 256 = L := by omega
      rw [if_pos h15, hz, hmod, token_value ml L (by omega)]
      refine ⟨rfl, ?_, ?_, ?_, ?_, ?_⟩
      · rw [wildCopy8_cap, storeByte_cap]
      · intro i hi
        rw [wildCopy8_frame _ _ _ _ _ _ _ (by omega), storeByte_data, if_neg (by omega)]
      · rw [wildCopy8_frame _ _ _ _ _ _ _ (by omega), storeByte_data, if_pos ⟨rfl, by omega⟩]
        omega
      · intro h; omega
      · intro j hj
        rw [wildCopy8_input _ _ _ _ _ _ (by omega) (by omega) (by rw [storeByte_cap]; omega)]
        congr 1
        omega
    · have hz := extLen_large L (by omega)
      have h240 : (15 : Nat) <<< 4 = 16 * 15 := shiftLeft4 15
      have htok := token_value ml 15 (le_refl _)
      rw [if_neg h15]
      simp only [blockWriteLength_ptr]
      rw [htok]
      refine ⟨by omega, ?_, ?_, ?_, ?_, ?_⟩
      · rw [wildCopy8_cap, blockWriteLength_cap, storeByte_cap]
      · intro i hi
        rw [wildCopy8_frame _ _ _ _ _ _ _ (by omega), blockWriteLength_data, if_neg (by omega),
          storeByte_data, if_neg (by omega)]
      · rw [wildCopy8_frame _ _ _ _ _ _ _ (by omega), blockWriteLength_data, if_neg (by omega),
          storeByte_data, if_pos ⟨rfl, by omega⟩]
        omega
      · intro _
        constructor
        · intro j hj
          rw [wildCopy8_frame _ _ _ _ _ _ _ (by omega), blockWriteLength_data,
            if_pos ⟨by omega, by omega, by rw [storeByte_cap]; omega⟩, if_pos (by omega)]
        · rw [wildCopy8_frame _ _ _ _ _ _ _ (by omega), blockWriteLength_data,
            if_pos ⟨by omega, by omega, by rw [storeByte_cap]; omega⟩, if_neg (by omega)]
      · intro j hj
        rw [wildCopy8_input _ _ _ _ _ _ (by omega) (by omega)
          (by rw [blockWriteLength_cap, storeByte_cap]; omega)]
        congr 1
        omega

/-- The offset and the match length as `emitMatch` leaves them in the buffer. -/
theorem emitMatch_spec (m : Mem) (p off ml : Nat) (hcap : p + 2 + extLen ml ≤ m.cap) :
    (emitMatch m p off ml).2 = p + 2 + extLen ml ∧
    (emitMatch m p off ml).1.cap = m.cap ∧
    (∀ i, i < p → (emitMatch m p off ml).1.data i = m.data i) ∧
    (emitMatch m p off ml).1.data p = off % 256 ∧
    (emitMatch m p off ml).1.data (p + 1) = off / 256 % 256 ∧
    (15 ≤ ml → ExtAt (emitMatch m p off ml).1.data (p + 2) (ml - 15)) := by
  unfold emitMatch ExtAt
  simp only [blockWriteOffset]
  by_cases hm : 15 ≤ ml
  · have hz := extLen_large ml hm
    rw [if_pos hm]
    simp only [blockWriteLength_ptr, blockWriteLength_cap, storeByte_cap, blockWriteLength_data,
      storeByte_data, shiftRight8]
    refine ⟨by omega, trivial, ?_, ?_, ?_, ?_⟩
    · intro i hi
      rw [if_neg (by omega), if_neg (by omega), if_neg (by omega)]
    · rw [if_neg (by omega), if_neg (by omega), if_pos ⟨trivial, by omega⟩]
    · rw [if_neg (by omega), if_pos ⟨trivial, by omega⟩]
    · intro _
      constructor
      · intro j hj
        rw [if_pos ⟨by omega, by omega, by omega⟩, if_pos (by omega)]
      · rw [if_pos ⟨by omega, by omega, by omega⟩, if_neg (by omega)]
  · have hz := extLen_small ml (by omega)
    rw [if_neg hm]
    simp only [storeByte_cap, storeByte_data, shiftRight8]
    refine ⟨by omega, trivial, ?_, ?_, ?_, ?_⟩
    · intro i hi
      rw [if_neg (by omega), if_neg (by omega)]
    · rw [if_neg (by omega), if_pos ⟨trivial, by omega⟩]
    · rw [if_pos ⟨trivial, by omega⟩]
    · intro h; omega

/-- The sequence as `emitSequence` leaves it in the buffer. -/
theorem emitSequence_spec (inp : List Nat) (m : Mem) (o inLast inPtr matchPtr ml : Nat)
    (hcap : o + (1 + (inPtr - inLast + 240) / 255 + (inPtr - inLast) + 2
      + (ml + 240) / 255 + 5) ≤ m.cap) :
    (emitSequence inp m o inLast inPtr matchPtr ml).2 = o + seqLen (inPtr - inLast) ml ∧
    (emitSequence inp m o inLast inPtr matchPtr ml).1.cap = m.cap ∧
    (∀ i, i < o → (emitSequence inp m o inLast inPtr matchPtr ml).1.data i = m.data i) ∧
    SeqAt (emitSequence inp m o inLast inPtr matchPtr ml).1.data o inp inLast
      (inPtr - inLast) (offsetOf inPtr matchPtr) ml := by
  unfold emitSequence SeqAt seqLen
  simp only
  generalize inPtr - inLast = L at hcap ⊢
  generalize offsetOf inPtr matchPtr = off
  have hcap' : o + (1 + extLen L + L + 2 + extLen ml + 5) ≤ m.cap := hcap
  obtain ⟨l1, l2, l3, l4, l5, l6⟩ := emitLiterals_spec inp m o inLast L ml (by omega)
  rw [l1]
  obtain ⟨t1, t2, t3, t4, t5, t6⟩ := emitMatch_spec (emitLiterals inp m o inLast L ml).1
    (o + 1 + extLen L + L) off ml (by rw [l2]; omega)
  refine ⟨by omega, by rw [t2, l2], ?_, ?_, ?_, ?_, t4, t5, t6⟩
  · intro i hi
    rw [t3 i (by omega), l3 i hi]
  · rw [t3 o (by omega), l4]
  · intro h
    obtain ⟨a, b⟩ := l5 h
    have hz := extLen_large L h
    constructor
    · intro j hj
      rw [t3 _ (by omega), a j hj]
    · rw [t3 _ (by omega), b]
  · intro j hj
    rw [t3 _ (by omega), l6 j hj]

end LLZ4

namespace LLZ4

/-! ## One pass of the encoder loop -/

theorem memcmp4_eq (inp : List Nat) (q p : Nat) (h : memcmp4 inp q p = true) (j : Nat)
    (hj : j < 4) : inp.getD (q + j) 0 = inp.getD (p + j) 0 := by
  unfold memcmp4 at h
  rw [List.all_eq_true] at h
  have := h j (List.mem_range.mpr hj)
  simpa using this

theorem seq_growth (o i L ml : Nat) (h1 : 255 * o ≤ 256 * i) :
    255 * (o + seqLen L ml) ≤ 256 * (i + L + ml + 4) := by
  unfold seqLen extLen
  have h : 255 * ((ml + 240) / 255) ≤ 19 + 256 * ml := by
    by_cases h : ml < 15
    · have : (ml + 240) / 255 = 0 := by omega
      omega
    · omega
  omega

theorem missStep_inv (b : List Nat) (cap init : Nat) (st : CState) (m : Mem)
    (hinv : CInv b cap init st) (hm : m.cap = cap) :
    CInv b cap init (missStep st (updateHash b st.inPtr st.buffer st.mem).2.1 m) := by
  obtain ⟨i1, i2, i3, i4, i5, i6, i7, i8⟩ := hinv
  unfold missStep
  refine ⟨?_, i2, ?_, i4, ?_, ?_, hm, i8⟩
  · simp only; omega
  · exact updateHash_table b st.inPtr st.buffer st.mem (st.inPtr + st.step)
      (i3.mono (by omega)) (by omega)
  · simp only; omega
  · simp only [shiftRightTrigger]; omega

/-- A pass that found a match either emits the sequence or stops for lack of
room. -/
theorem matchStep_spec (b : List Nat) (init : Nat) (thorough : Bool) (cap : Nat) (st : CState)
    (H : HashBuffer) (m : Mem) (q : Nat)
    (hn : 14 ≤ b.length) (hinv : CInv b cap init st) (hlt : st.inPtr < b.length - 13)
    (hH : TableBelow b H (st.inPtr + 1)) (hm : m.cap = cap) (hmd : m.data = st.mem.data)
    (hq : q < st.inPtr) (hwin : q + LLZ4_MAX_OFFSET + 1 > st.inPtr)
    (hcmp : memcmp4 b q st.inPtr = true) :
    (∃ st1, matchStep b init thorough (b.length - 5) st H m q = some (CStep.next st1) ∧
      CInv b cap init st1 ∧ st.inPtr < st1.inPtr ∧ Emitted b st st1) ∨
    (∃ st1, matchStep b init thorough (b.length - 5) st H m q = some (CStep.stop st1) ∧
      cap < 1 + b.length + (b.length + 240) / 255) := by
  obtain ⟨i1, i2, i3, i4, i5, i6, i7, i8⟩ := hinv
  obtain ⟨c1, c2, c3, c4⟩ := matchCount_spec b m (st.inPtr + 4) (b.length - 5) (q + 4)
  have hml : st.inPtr + (matchCount b m (st.inPtr + 4) (b.length - 5) (q + 4)).1 + 4 + 2
      ≤ b.length := by omega
  unfold matchStep
  simp only
  generalize (matchCount b m (st.inPtr + 4) (b.length - 5) (q + 4)).1 = ml at c3 c4 hml ⊢
  generalize hmc : (matchCount b m (st.inPtr + 4) (b.length - 5) (q + 4)).2 = m2 at c1 c2 ⊢
  by_cases hfull : st.outPtr + (1 + (st.inPtr - st.inLast + 240) / 255 + (st.inPtr - st.inLast) + 2
        + (ml + 240) / 255 + 5) > m2.cap
  · right
    rw [if_pos hfull]
    rw [c1, hm] at hfull
    exact ⟨_, rfl, by omega⟩
  · left
    rw [if_neg hfull]
    obtain ⟨e1, e2, e3, e4⟩ := emitSequence_spec b m2 st.outPtr st.inLast st.inPtr q ml
      (by omega)
    rw [offsetOf_of_le st.inPtr q (by omega)] at e4
    obtain ⟨H1, m1, r, r1, r2, r3⟩ := reindex_spec b init thorough st.inPtr (st.inPtr + ml + 4)
      H (emitSequence b m2 st.outPtr st.inLast st.inPtr q ml).1 i4 (hH.mono (by omega))
    rw [r]
    simp only
    refine ⟨_, rfl, ?_, ?_, ?_⟩
    · refine ⟨le_refl _, ?_, r3, i4, le_refl _, le_refl _, ?_, ?_⟩
      · simp only; omega
      · simp only; rw [r1, e2, c1, hm]
      · simp only
        rw [e1]
        have := seq_growth st.outPtr st.inLast (st.inPtr - st.inLast) ml i8
        rw [show st.inLast + (st.inPtr - st.inLast) + ml + 4 = st.inPtr + ml + 4 by omega] at this
        exact this
    · simp only; omega
    · refine ⟨st.inPtr - q, ml, ?_, ?_, i1, rfl, e1, by omega, ?_, by omega, ?_, ?_⟩
      · simp only
        rw [r2]
        exact e4
      · intro i hi
        simp only
        rw [r2, e3 i hi, c2, hmd]
      · unfold LLZ4_MAX_OFFSET at hwin
        omega
      · simp only; omega
      · intro hb j hj
        rw [show st.inPtr + j - (st.inPtr - q) = q + j by omega]
        by_cases hj4 : j < 4
        · exact (memcmp4_eq b q st.inPtr hcmp j hj4).symm
        · have := c4 hb (j - 4) (by omega)
          rw [show st.inPtr + 4 + (j - 4) = st.inPtr + j by omega,
            show q + 4 + (j - 4) = q + j by omega] at this
          exact this

/-- One pass of the encoder loop: it goes on, having skipped ahead or emitted a
sequence, or it stops because the worst-case size of the sequence found exceeds
the room left. -/
theorem compressStep_spec (b : List Nat) (init : Nat) (thorough : Bool) (cap : Nat)
    (st : CState) (hn : 14 ≤ b.length) (hinv : CInv b cap init st)
    (hlt : st.inPtr < b.length - 13) :
    (∃ st1, compressStep b init thorough (b.length - 5) st = some (CStep.next st1) ∧
      CInv b cap init st1 ∧ st.inPtr < st1.inPtr ∧
      (Skipped st st1 ∨ Emitted b st st1)) ∨
    (∃ st1, compressStep b init thorough (b.length - 5) st = some (CStep.stop st1) ∧
      cap < 1 + b.length + (b.length + 240) / 255) := by
  have hinv' := hinv
  obtain ⟨i1, i2, i3, i4, i5, i6, i7, i8⟩ := hinv
  have hskip : ∀ m : Mem, m.cap = cap → m.data = st.mem.data →
      ∃ st1, some (CStep.next (missStep st (updateHash b st.inPtr st.buffer st.mem).2.1 m))
          = some (CStep.next st1) ∧
        CInv b cap init st1 ∧ st.inPtr < st1.inPtr ∧
        (Skipped st st1 ∨ Emitted b st st1) := by
    intro m hm hmd
    refine ⟨_, rfl, missStep_inv b cap init st m hinv' hm, ?_, Or.inl ⟨rfl, rfl, hmd⟩⟩
    simp only [missStep]
    omega
  unfold compressStep
  simp only
  split
  · left
    exact hskip _ i7 rfl
  · rename_i q hq
    have hqlt : q < st.inPtr := updateHash_result b st.inPtr st.buffer st.mem st.inPtr q i3 hq
    by_cases hwin : q + LLZ4_MAX_OFFSET + 1 > st.inPtr
    · rw [if_pos hwin]
      by_cases hcmp : memcmp4 b q st.inPtr = true
      · rw [if_pos hcmp]
        rcases matchStep_spec b init thorough cap st (updateHash b st.inPtr st.buffer st.mem).2.1
          (logRead (logRead (updateHash b st.inPtr st.buffer st.mem).2.2 Region.input q 4)
            Region.input st.inPtr 4) q hn hinv' hlt
          (updateHash_table b st.inPtr st.buffer st.mem _ (i3.mono (by omega)) (by omega))
          i7 rfl hqlt hwin hcmp with ⟨st1, e, e1, e2, e3⟩ | ⟨st1, e, e1⟩
        · left
          exact ⟨st1, e, e1, e2, Or.inr e3⟩
        · right
          exact ⟨st1, e, e1⟩
      · rw [if_neg hcmp]
        left
        exact hskip _ i7 rfl
    · rw [if_neg hwin]
      left
      exact hskip _ i7 rfl

end LLZ4

namespace LLZ4

/-! ## The encoder loop and the whole block -/

/-- The encoder loop ends.  Either it ran to its end through passes that
skipped or emitted, keeping the invariant, or it stopped for lack of room, and
then the buffer is smaller than the bound. -/
theorem compressLoop_spec (b : List Nat) (init : Nat) (thorough : Bool) (cap : Nat)
    (hn : 14 ≤ b.length) (fuel : Nat) (st : CState) (hinv : CInv b cap init st)
    (hf : b.length - 13 - st.inPtr < fuel) :
    ∃ code stF, compressLoop b init thorough (b.length - 13) (b.length - 5) fuel st
        = some (code, stF) ∧
      ((code = LLZ4_ERROR_OK ∧ CInv b cap init stF ∧ Steps b st stF) ∨
        (code = LLZ4_ERROR_NOT_ENOUGH_OF_SPACE ∧
          cap < 1 + b.length + (b.length + 240) / 255)) := by
  induction fuel generalizing st with
  | zero => omega
  | succ f ih =>
    unfold compressLoop
    split
    · rename_i hlt
      rcases compressStep_spec b init thorough cap st hn hinv hlt with
        ⟨st1, e, e1, e2, e3⟩ | ⟨st1, e, e1⟩
      · rw [e]
        simp only
        obtain ⟨code, stF, r, r1⟩ := ih st1 e1 (by omega)
        refine ⟨code, stF, r, ?_⟩
        rcases r1 with ⟨a, a1, a2⟩ | ⟨a, a1⟩
        · left
          refine ⟨a, a1, ?_⟩
          rcases e3 with e3 | e3
          · exact Steps.skip st st1 stF e3 a2
          · exact Steps.emit st st1 stF e3 a2
        · right
          exact ⟨a, a1⟩
      · rw [e]
        exact ⟨_, st1, rfl, Or.inr ⟨rfl, e1⟩⟩
    · exact ⟨_, _, rfl, Or.inl ⟨rfl, hinv, Steps.refl st⟩⟩

theorem tail_spec (b : List Nat) (cap : Nat) (st0 stF : CState) (h1 : st0.inLast = 0)
    (h2 : st0.outPtr = 0) (hs : Steps b st0 stF) (h3 : stF.inLast ≤ b.length)
    (h4 : 255 * stF.outPtr ≤ 256 * stF.inLast) (h5 : stF.mem.cap = cap) :
    ((compressTail b stF.inLast stF.outPtr stF.buffer stF.mem).errorCode = LLZ4_ERROR_OK ∧
      Encoded b cap (compressTail b stF.inLast stF.outPtr stF.buffer stF.mem)) ∨
    ((compressTail b stF.inLast stF.outPtr stF.buffer stF.mem).errorCode
        = LLZ4_ERROR_NOT_ENOUGH_OF_SPACE ∧
      cap < 1 + b.length + (b.length + 240) / 255) := by
  by_cases hroom : stF.outPtr
      + (1 + (b.length - stF.inLast + 240) / 255 + (b.length - stF.inLast)) ≤ stF.mem.cap
  · left
    exact ⟨(compressTail_ok b stF.inLast stF.outPtr stF.buffer stF.mem hroom).1,
      st0, stF, h1, h2, hs, h3, h4, h5, rfl, by omega⟩
  · right
    rw [compressTail_full b stF.inLast stF.outPtr stF.buffer stF.mem hroom]
    exact ⟨rfl, by omega⟩

/-- After `memset` no slot that a window of `b` selects holds an entry, when
the slots behind the table that the windows select held none. -/
theorem clearTable_below (b : List Nat) (H : HashBuffer)
    (hstale : ∀ p, 2 ^ LLZ4_HASH_SIZE ≤ hashIndexWide (load32 b p) →
      H (hashIndexWide (load32 b p)) = none) (k : Nat) :
    TableBelow b (clearTable H) k := by
  intro p q hq
  unfold clearTable at hq
  by_cases hin : hashIndexWide (load32 b p) < 2 ^ LLZ4_HASH_SIZE
  · rw [if_pos hin] at hq
    cases hq
  · rw [if_neg hin, hstale p (by omega)] at hq
    cases hq

/-- `compressBlock` on a table in which no slot behind the table that a window
of `b` selects holds an entry.  Either it succeeds, by a run of passes and the
final literals, or it reports lack of room, and then the buffer is smaller
than the bound. -/
theorem compressBlock_spec (b : List Nat) (out : Mem) (H : HashBuffer) (acc : Nat)
    (thorough : Bool)
    (hstale : ∀ p, 2 ^ LLZ4_HASH_SIZE ≤ hashIndexWide (load32 b p) →
      H (hashIndexWide (load32 b p)) = none) :
    ∃ r, compressBlock b out H acc thorough = some r ∧
      ((r.errorCode = LLZ4_ERROR_OK ∧ Encoded b out.cap r) ∨
        (r.errorCode = LLZ4_ERROR_NOT_ENOUGH_OF_SPACE ∧
          out.cap < 1 + b.length + (b.length + 240) / 255)) := by
  unfold compressBlock
  split
  · rename_i hc
    simp only
    have hinit : 64 ≤ acc <<< LLZ4_ACCELERATION_TRIGGER := by
      rw [Nat.shiftLeft_eq]
      unfold LLZ4_ACCELERATION_TRIGGER
      omega
    have hinv : CInv b out.cap (acc <<< LLZ4_ACCELERATION_TRIGGER)
        ⟨1, 0, 0, acc <<< LLZ4_ACCELERATION_TRIGGER, 1,
          (updateHash b 0 (clearTable H) out).2.1, (updateHash b 0 (clearTable H) out).2.2⟩ := by
      refine ⟨by simp, by simp, ?_, hinit, le_refl _, le_refl _, rfl, by simp⟩
      exact updateHash_table b 0 (clearTable H) out 1 (clearTable_below b H hstale 1) (by omega)
    obtain ⟨code, stF, e, e1⟩ := compressLoop_spec b (acc <<< LLZ4_ACCELERATION_TRIGGER) thorough
      out.cap (by omega) (b.length + 1) _ hinv (by simp only; omega)
    rw [e]
    simp only
    rcases e1 with ⟨a, a1, a2⟩ | ⟨a, a1⟩
    · rw [if_pos a]
      obtain ⟨_, i2, _, _, _, _, i7, i8⟩ := a1
      exact ⟨_, rfl, tail_spec b out.cap _ stF rfl rfl a2 i2 i8 i7⟩
    · rw [if_neg (by rw [a]; decide)]
      exact ⟨_, rfl, Or.inr ⟨a, a1⟩⟩
  · exact ⟨_, rfl, tail_spec b out.cap ⟨0, 0, 0, 0, 0, H, out⟩ ⟨0, 0, 0, 0, 0, H, out⟩ rfl rfl
      (Steps.refl _) (Nat.zero_le _) (by simp) rfl⟩

/-- The passes of the encoder loop only append to the output. -/
theorem steps_frame (b : List Nat) (st stF : CState) (hs : Steps b st stF) :
    st.outPtr ≤ stF.outPtr ∧ st.inLast ≤ stF.inLast ∧
      ∀ i, i < st.outPtr → stF.mem.data i = st.mem.data i := by
  induction hs with
  | refl st => exact ⟨le_refl _, le_refl _, fun _ _ => rfl⟩
  | skip st st1 stF h _ ih =>
    obtain ⟨h1, h2, h3⟩ := h
    obtain ⟨a1, a2, a3⟩ := ih
    refine ⟨by omega, by omega, ?_⟩
    intro i hi
    rw [a3 i (by omega), h3]
  | emit st st1 stF h _ ih =>
    obtain ⟨off, ml, _, e2, e3, e4, e5, _⟩ := h
    obtain ⟨a1, a2, a3⟩ := ih
    refine ⟨by omega, by omega, ?_⟩
    intro i hi
    rw [a3 i (by omega), e2 i hi]

end LLZ4
namespace LLZ4

/-! ## The encoder loop for any contents of the hash table -/

/-- The re-index loop ends and leaves the buffer alone, whatever the table
holds. -/
theorem reindexLoop_base (inp : List Nat) (nextPtr fuel p ss s : Nat) (H : HashBuffer) (m : Mem)
    (hs : 1 ≤ s) (hss : 64 ≤ ss) (hf : nextPtr - p < fuel) :
    ∃ H1 m1, reindexLoop inp nextPtr fuel p ss s H m = some (H1, m1) ∧
      m1.cap = m.cap ∧ m1.data = m.data := by
  induction fuel generalizing p ss s H m with
  | zero => omega
  | succ f ih =>
    unfold reindexLoop
    by_cases hlt : p < nextPtr
    · rw [if_pos hlt]
      simp only
      exact ih (p + s) (ss + 1) (ss >>> LLZ4_ACCELERATION_TRIGGER)
        (updateHash inp p H m).2.1 (updateHash inp p H m).2.2
        (by rw [shiftRightTrigger]; omega) (by omega) (by omega)
    · rw [if_neg hlt]
      exact ⟨H, m, rfl, rfl, rfl⟩

theorem reindex_base (inp : List Nat) (init : Nat) (thorough : Bool) (inPtr nextPtr : Nat)
    (H : HashBuffer) (m : Mem) (hinit : 64 ≤ init) :
    ∃ H1 m1, reindex inp init thorough inPtr nextPtr H m = some (H1, m1) ∧
      m1.cap = m.cap ∧ m1.data = m.data := by
  unfold reindex
  cases thorough with
  | true =>
    simp only [if_true]
    exact reindexLoop_base inp nextPtr (nextPtr + 1) _ init 1 H m (le_refl _) hinit (by omega)
  | false =>
    simp only [Bool.false_eq_true, if_false]
    exact ⟨H, m, rfl, rfl, rfl⟩

theorem missStep_base (n cap init : Nat) (st : CState) (H : HashBuffer) (m : Mem)
    (hinv : CBase n cap init st) (hm : m.cap = cap) :
    CBase n cap init (missStep st H m) := by
  obtain ⟨i1, i2, i4, i5, i6, i7, i8⟩ := hinv
  unfold missStep
  refine ⟨?_, i2, i4, ?_, ?_, hm, i8⟩
  · simp only; omega
  · simp only; omega
  · simp only [shiftRightTrigger]; omega

/-- A pass that found a candidate, wherever the candidate lies, either emits a
sequence and moves on behind the match, or stops for lack of room; the match
ends at most two bytes before the end of the input, and the output grows by at
most 256/255 of the input consumed. -/
theorem matchStep_base (b : List Nat) (init : Nat) (thorough : Bool) (cap : Nat) (st : CState)
    (H : HashBuffer) (m : Mem) (q : Nat)
    (hn : 14 ≤ b.length) (hinv : CBase b.length cap init st) (hlt : st.inPtr < b.length - 13)
    (hm : m.cap = cap) :
    (∃ st1, matchStep b init thorough (b.length - 5) st H m q = some (CStep.next st1) ∧
      CBase b.length cap init st1 ∧ st.inPtr < st1.inPtr) ∨
    (∃ st1, matchStep b init thorough (b.length - 5) st H m q = some (CStep.stop st1) ∧
      cap < 1 + b.length + (b.length + 240) / 255) := by
  obtain ⟨i1, i2, i4, i5, i6, i7, i8⟩ := hinv
  obtain ⟨c1, _, c3, _⟩ := matchCount_spec b m (st.inPtr + 4) (b.length - 5) (q + 4)
  have hml : st.inPtr + (matchCount b m (st.inPtr + 4) (b.length - 5) (q + 4)).1 + 4 + 2
      ≤ b.length := by omega
  unfold matchStep
  simp only
  generalize (matchCount b m (st.inPtr + 4) (b.length - 5) (q + 4)).1 = ml at c3 hml ⊢
  generalize hmc : (matchCount b m (st.inPtr + 4) (b.length - 5) (q + 4)).2 = m2 at c1 ⊢
  by_cases hfull : st.outPtr + (1 + (st.inPtr - st.inLast + 240) / 255 + (st.inPtr - st.inLast) + 2
        + (ml + 240) / 255 + 5) > m2.cap
  · right
    rw [if_pos hfull]
    rw [c1, hm] at hfull
    exact ⟨_, rfl, by omega⟩
  · left
    rw [if_neg hfull]
    obtain ⟨e1, e2, _, _⟩ := emitSequence_spec b m2 st.outPtr st.inLast st.inPtr q ml
      (by omega)
    obtain ⟨H1, m1, r, r1, _⟩ := reindex_base b init thorough st.inPtr (st.inPtr + ml + 4)
      H (emitSequence b m2 st.outPtr st.inLast st.inPtr q ml).1 i4
    rw [r]
    simp only
    refine ⟨_, rfl, ?_, ?_⟩
    · refine ⟨le_refl _, ?_, i4, le_refl _, le_refl _, ?_, ?_⟩
      · simp only; omega
      · simp only; rw [r1, e2, c1, hm]
      · simp only
        rw [e1]
        have := seq_growth st.outPtr st.inLast (st.inPtr - st.inLast) ml i8
        rw [show st.inLast + (st.inPtr - st.inLast) + ml + 4 = st.inPtr + ml + 4 by omega] at this
        exact this
    · simp only; omega

/-- One pass of the encoder loop, whatever the table holds: it goes on with
`inPtr` advanced, or it stops because the worst-case size of the sequence found
exceeds the room left. -/
theorem compressStep_base (b : List Nat) (init : Nat) (thorough : Bool) (cap : Nat)
    (st : CState) (hn : 14 ≤ b.length) (hinv : CBase b.length cap init st)
    (hlt : st.inPtr < b.length - 13) :
    (∃ st1, compressStep b init thorough (b.length - 5) st = some (CStep.next st1) ∧
      CBase b.length cap init st1 ∧ st.inPtr < st1.inPtr) ∨
    (∃ st1, compressStep b init thorough (b.length - 5) st = some (CStep.stop st1) ∧
      cap < 1 + b.length + (b.length + 240) / 255) := by
  have hcap : st.mem.cap = cap := hinv.2.2.2.2.2.1
  have hstep : 1 ≤ st.step := hinv.2.2.2.2.1
  have hskip : ∀ m : Mem, m.cap = cap →
      ∃ st1, some (CStep.next (missStep st (updateHash b st.inPtr st.buffer st.mem).2.1 m))
          = some (CStep.next st1) ∧
        CBase b.length cap init st1 ∧ st.inPtr < st1.inPtr := by
    intro m hm
    refine ⟨_, rfl, missStep_base b.length cap init st _ m hinv hm, ?_⟩
    simp only [missStep]
    omega
  unfold compressStep
  simp only
  cases hq : (updateHash b st.inPtr st.buffer st.mem).1 with
  | none =>
    simp only
    left
    exact hskip _ hcap
  | some q =>
    simp only
    by_cases hwin : q + LLZ4_MAX_OFFSET + 1 > st.inPtr
    · rw [if_pos hwin]
      by_cases hcmp : memcmp4 b q st.inPtr = true
      · rw [if_pos hcmp]
        exact matchStep_base b init thorough cap st (updateHash b st.inPtr st.buffer st.mem).2.1
          (logRead (logRead (updateHash b st.inPtr st.buffer st.mem).2.2 Region.input q 4)
            Region.input st.inPtr 4) q hn hinv hlt hcap
      · rw [if_neg hcmp]
        left
        exact hskip _ hcap
    · rw [if_neg hwin]
      left
      exact hskip _ hcap

/-- The encoder loop ends, whatever the table holds: with the invariant kept,
or for lack of room in a buffer smaller than the bound. -/
theorem compressLoop_base (b : List Nat) (init : Nat) (thorough : Bool) (cap : Nat)
    (hn : 14 ≤ b.length) (fuel : Nat) (st : CState) (hinv : CBase b.length cap init st)
    (hf : b.length - 13 - st.inPtr < fuel) :
    ∃ code stF, compressLoop b init thorough (b.length - 13) (b.length - 5) fuel st
        = some (code, stF) ∧
      ((code = LLZ4_ERROR_OK ∧ CBase b.length cap init stF) ∨
        (code = LLZ4_ERROR_NOT_ENOUGH_OF_SPACE ∧
          cap < 1 + b.length + (b.length + 240) / 255)) := by
  induction fuel generalizing st with
  | zero => omega
  | succ f ih =>
    unfold compressLoop
    by_cases hlt : st.inPtr < b.length - 13
    · rw [if_pos hlt]
      rcases compressStep_base b init thorough cap st hn hinv hlt with
        ⟨st1, e, e1, e2⟩ | ⟨st1, e, e1⟩
      · rw [e]
        simp only
        exact ih st1 e1 (by omega)
      · rw [e]
        exact ⟨_, st1, rfl, Or.inr ⟨rfl, e1⟩⟩
    · rw [if_neg hlt]
      exact ⟨_, _, rfl, Or.inl ⟨rfl, hinv⟩⟩

/-- The final literals behind a loop state that satisfies the invariant. -/
theorem tail_base (b : List Nat) (cap : Nat) (inLast outPtr : Nat) (H : HashBuffer) (m : Mem)
    (h3 : inLast ≤ b.length) (h4 : 255 * outPtr ≤ 256 * inLast) (h5 : m.cap = cap) :
    ((compressTail b inLast outPtr H m).errorCode = LLZ4_ERROR_OK ∧
      (compressTail b inLast outPtr H m).outNext ≤ 1 + b.length + (b.length + 240) / 255) ∨
    ((compressTail b inLast outPtr H m).errorCode = LLZ4_ERROR_NOT_ENOUGH_OF_SPACE ∧
      cap < 1 + b.length + (b.length + 240) / 255) := by
  by_cases hroom : outPtr + (1 + (b.length - inLast + 240) / 255 + (b.length - inLast)) ≤ m.cap
  · left
    obtain ⟨t1, _, t3, _⟩ := compressTail_ok b inLast outPtr H m hroom
    exact ⟨t1, by omega⟩
  · right
    rw [compressTail_full b inLast outPtr H m hroom]
    exact ⟨rfl, by omega⟩

/-- `compressBlock` always returns, whatever the table holds.  Either it
succeeds with at most `1 + n + (n + 240) / 255` bytes written, or it reports
lack of room, and then the buffer is smaller than that bound. -/
theorem compressBlock_base (b : List Nat) (out : Mem) (H : HashBuffer) (acc : Nat)
    (thorough : Bool) :
    ∃ r, compressBlock b out H acc thorough = some r ∧
      ((r.errorCode = LLZ4_ERROR_OK ∧
          r.outNext ≤ 1 + b.length + (b.length + 240) / 255) ∨
        (r.errorCode = LLZ4_ERROR_NOT_ENOUGH_OF_SPACE ∧
          out.cap < 1 + b.length + (b.length + 240) / 255)) := by
  unfold compressBlock
  by_cases hc : acc > 0 ∧ 0 + 13 < b.length
  · rw [if_pos hc]
    simp only
    have hinit : 64 ≤ acc <<< LLZ4_ACCELERATION_TRIGGER := by
      rw [Nat.shiftLeft_eq]
      unfold LLZ4_ACCELERATION_TRIGGER
      omega
    have hinv : CBase b.length out.cap (acc <<< LLZ4_ACCELERATION_TRIGGER)
        ⟨1, 0, 0, acc <<< LLZ4_ACCELERATION_TRIGGER, 1,
          (updateHash b 0 (clearTable H) out).2.1, (updateHash b 0 (clearTable H) out).2.2⟩ :=
      ⟨by simp, by simp, hinit, le_refl _, le_refl _, rfl, by simp⟩
    obtain ⟨code, stF, e, e1⟩ := compressLoop_base b (acc <<< LLZ4_ACCELERATION_TRIGGER) thorough
      out.cap (by omega) (b.length + 1) _ hinv (by simp only; omega)
    rw [e]
    simp only
    rcases e1 with ⟨a, a1⟩ | ⟨a, a1⟩
    · rw [if_pos a]
      obtain ⟨_, i2, _, _, _, i7, i8⟩ := a1
      exact ⟨_, rfl, tail_base b out.cap stF.inLast stF.outPtr stF.buffer stF.mem i2 i8 i7⟩
    · rw [if_neg (by rw [a]; decide)]
      exact ⟨_, rfl, Or.inr ⟨a, a1⟩⟩
  · rw [if_neg hc]
    exact ⟨_, rfl, tail_base b out.cap 0 0 H out (Nat.zero_le _) (by simp) rfl⟩

/-- The result of `LLZ4_compressBlock` in terms of `compressBlock`, for an
input within `LLZ4_MAX_BLOCK_SIZE` and any table. -/
theorem compressBlock_api_base (b : List Nat) (H : HashBuffer) (out : Mem) (level : Int)
    (hlen : b.length ≤ LLZ4_MAX_BLOCK_SIZE) :
    ∃ r, compressBlock b out H (levelParams level).1 (levelParams level).2 = some r ∧
      ((r.errorCode = LLZ4_ERROR_OK ∧ r.outNext ≤ 1 + b.length + (b.length + 240) / 255 ∧
          LLZ4_compressBlock H b out level = some ((r.outNext : Int), r.buffer, r.mem)) ∨
        (r.errorCode = LLZ4_ERROR_NOT_ENOUGH_OF_SPACE ∧
          out.cap < 1 + b.length + (b.length + 240) / 255 ∧
          LLZ4_compressBlock H b out level
            = some (LLZ4_ERROR_NOT_ENOUGH_OF_SPACE, r.buffer, r.mem))) := by
  obtain ⟨r, e, e1⟩ := compressBlock_base b out H (levelParams level).1 (levelParams level).2
  refine ⟨r, e, ?_⟩
  unfold LLZ4_compressBlock
  rw [if_neg (by omega)]
  simp only [e]
  rcases e1 with ⟨a, a1⟩ | ⟨a, a1⟩
  · left
    refine ⟨a, a1, ?_⟩
    rw [if_neg (by simp [a])]
    have hlt := bound_lt b.length hlen
    rw [toInt32_of_lt _ (by omega)]
  · right
    refine ⟨a, a1, ?_⟩
    rw [if_pos (by rw [a]; decide), a]

end LLZ4

namespace LLZ4

/-! ## The decoder on the output of the encoder -/

/-- A match copy reproduces the input when the input repeats at the same
distance. -/
theorem match_data (data : Nat → Nat) (b : List Nat) (q off M : Nat) (h1 : 1 ≤ off)
    (h2 : off ≤ q) (hlow : ∀ i, i < q → data i = b.getD i 0)
    (hper : ∀ j, j < M → data (q + j) = data (q + j - off))
    (hb : ∀ j, j < M → b.getD (q + j) 0 = b.getD (q + j - off) 0) (j : Nat) (hj : j < M) :
    data (q + j) = b.getD (q + j) 0 := by
  induction j using Nat.strong_induction_on with
  | _ j ih =>
    rw [hper j hj, hb j hj]
    by_cases hlt : j < off
    · exact hlow _ (by omega)
    · have := ih (j - off) (by omega) (by omega)
      rw [show q + (j - off) = q + j - off by omega] at this
      exact this

theorem seqAt_congr (d1 d2 : Nat → Nat) (o : Nat) (b : List Nat) (inLast L off ml : Nat)
    (h : ∀ i, o ≤ i → i < o + seqLen L ml → d1 i = d2 i)
    (hs : SeqAt d2 o b inLast L off ml) : SeqAt d1 o b inLast L off ml := by
  obtain ⟨s1, s2, s3, s4, s5, s6⟩ := hs
  unfold seqLen at h
  refine ⟨?_, ?_, ?_, ?_, ?_, ?_⟩
  · rw [h o (le_refl _) (by omega), s1]
  · intro hL
    have hz := extLen_large L hL
    obtain ⟨a, a1⟩ := s2 hL
    constructor
    · intro j hj
      rw [h _ (by omega) (by omega), a j hj]
    · rw [h _ (by omega) (by omega), a1]
  · intro j hj
    rw [h _ (by omega) (by omega), s3 j hj]
  · rw [h _ (by omega) (by omega), s4]
  · rw [h _ (by omega) (by omega), s5]
  · intro hm
    have hz := extLen_large ml hm
    obtain ⟨a, a1⟩ := s6 hm
    constructor
    · intro j hj
      rw [h _ (by omega) (by omega), a j hj]
    · rw [h _ (by omega) (by omega), a1]

/-- The decoder follows the encoder.  Started where the encoder state `st`
stands (input cursor at the encoder's output cursor, output cursor at the
start of the pending literals, the output equal to the input so far), on the
block `c` that the run from `st` leaves, the decoder loop ends with
`LLZ4_ERROR_OK` and the whole input when its buffer has room for it, and with
`LLZ4_ERROR_NOT_ENOUGH_OF_SPACE` when it has not. -/
theorem steps_decode (b c : List Nat) (hb : IsBytes b) (st stF : CState) (hs : Steps b st stF)
    (hF : stF.inLast ≤ b.length)
    (hc : ∀ i, i < stF.outPtr → c.getD i 0 = stF.mem.data i)
    (hlast : LastAt (fun i => c.getD i 0) stF.outPtr b stF.inLast (b.length - stF.inLast))
    (hlen : c.length
      = stF.outPtr + 1 + extLen (b.length - stF.inLast) + (b.length - stF.inLast)) :
    ∀ (D : DState) (fuel : Nat), D.inPtr = st.outPtr → D.outPtr = st.inLast →
      (∀ i, i < st.inLast → D.mem.data i = b.getD i 0) → c.length + 1 ≤ fuel + D.inPtr →
      ∃ DF, decompressLoop c fuel D
          = some (if b.length ≤ D.mem.cap then LLZ4_ERROR_OK
                  else LLZ4_ERROR_NOT_ENOUGH_OF_SPACE, DF) ∧
        (b.length ≤ D.mem.cap →
          DF.outPtr = b.length ∧ ∀ i, i < b.length → DF.mem.data i = b.getD i 0) := by
  induction hs with
  | refl st =>
    intro D fuel hD1 hD2 hD3 hfuel
    cases fuel with
    | zero => omega
    | succ f =>
      unfold decompressLoop
      rw [if_pos (by omega)]
      rw [← hD1] at hlast hlen
      have hend : D.inPtr + 1 + extLen (b.length - st.inLast) + (b.length - st.inLast)
          = c.length := by omega
      by_cases hroom : b.length ≤ D.mem.cap
      · have hroom2 : D.outPtr + (b.length - st.inLast) ≤ D.mem.cap := by omega
        obtain ⟨m, e, e1, e2, e3⟩ :=
          (decompressSeq_last c D b st.inLast (b.length - st.inLast) hlast hend).1 hroom2
        rw [e, if_pos hroom]
        refine ⟨⟨c.length, D.outPtr + (b.length - st.inLast), m⟩, rfl, ?_⟩
        intro _
        constructor
        · show D.outPtr + (b.length - st.inLast) = b.length
          omega
        intro i hi
        show m.data i = b.getD i 0
        by_cases hlow : i < st.inLast
        · rw [e2 i (by omega), hD3 i hlow]
        · have := e3 (i - st.inLast) (by omega)
          rw [hD2, show st.inLast + (i - st.inLast) = i by omega] at this
          exact this
      · have hroom2 : ¬ D.outPtr + (b.length - st.inLast) ≤ D.mem.cap := by omega
        obtain ⟨stE, e⟩ :=
          (decompressSeq_last c D b st.inLast (b.length - st.inLast) hlast hend).2 hroom2
        rw [e, if_neg hroom]
        exact ⟨stE, rfl, fun h => absurd h hroom⟩
  | skip st st1 stF h _ ih =>
    intro D fuel hD1 hD2 hD3 hfuel
    obtain ⟨h1, h2, h3⟩ := h
    exact ih hF hc hlast hlen D fuel (by omega) (by omega) (by rw [h1]; exact hD3) hfuel
  | emit st st1 stF h hs1 ih =>
    intro D fuel hD1 hD2 hD3 hfuel
    obtain ⟨off, ml, e1, e2, e3, e4, e5, e6, e7, e8, e9, e10⟩ := h
    obtain ⟨f1, f2, f3⟩ := steps_frame b st1 stF hs1
    have hseq : SeqAt (fun i => c.getD i 0) D.inPtr b st.inLast (st.inPtr - st.inLast) off ml := by
      rw [hD1]
      apply seqAt_congr _ _ _ _ _ _ _ _ _ e1
      intro i _ hi
      show c.getD i 0 = st1.mem.data i
      rw [hc i (by omega), f3 i (by omega)]
    have hmore : D.inPtr + seqLen (st.inPtr - st.inLast) ml < c.length := by omega
    have hoffq : off ≤ D.outPtr + (st.inPtr - st.inLast) := by omega
    have hq : D.outPtr + (st.inPtr - st.inLast) = st.inPtr := by omega
    cases fuel with
    | zero => omega
    | succ f =>
      unfold decompressLoop
      rw [if_pos (by omega)]
      by_cases hroom : D.outPtr + (st.inPtr - st.inLast) + (ml + 4) ≤ D.mem.cap
      · obtain ⟨D1, g, g1, g2, g3, g4, g5, g6⟩ :=
          (decompressSeq_seq c D b st.inLast (st.inPtr - st.inLast) off ml hseq hmore e6 e7
            hoffq).1 hroom
        rw [g]
        simp only
        have hlow : ∀ i, i < st.inPtr → D1.mem.data i = b.getD i 0 := by
          intro i hi
          by_cases hlt : i < st.inLast
          · rw [g4 i (by omega), hD3 i hlt]
          · have := g5 (i - st.inLast) (by omega)
            rw [hD2, show st.inLast + (i - st.inLast) = i by omega] at this
            exact this
        rw [hq] at g6
        have hmatch := match_data D1.mem.data b st.inPtr off (ml + 4) e6 e8 hlow g6 (e10 hb)
        have hall : ∀ i, i < st1.inLast → D1.mem.data i = b.getD i 0 := by
          intro i hi
          by_cases hlt : i < st.inPtr
          · exact hlow i hlt
          · have := hmatch (i - st.inPtr) (by omega)
            rw [show st.inPtr + (i - st.inPtr) = i by omega] at this
            exact this
        have hfuel1 : c.length + 1 ≤ f + D1.inPtr := by
          unfold seqLen at g1
          omega
        obtain ⟨DF, r, r1⟩ := ih hF hc hlast hlen D1 f (by omega) (by omega) hall hfuel1
        rw [g3] at r r1
        exact ⟨DF, r, r1⟩
      · obtain ⟨stE, g⟩ :=
          (decompressSeq_seq c D b st.inLast (st.inPtr - st.inLast) off ml hseq hmore e6 e7
            hoffq).2 hroom
        have hno : ¬ b.length ≤ D.mem.cap := by omega
        rw [g, if_neg hno]
        exact ⟨stE, rfl, fun h => absurd h hno⟩

/-- The last sequence, as `compressTail` leaves it. -/
theorem tail_lastAt (b : List Nat) (inPtr outPtr : Nat) (H : HashBuffer) (m : Mem)
    (hcap : outPtr + (1 + (b.length - inPtr + 240) / 255 + (b.length - inPtr)) ≤ m.cap) :
    LastAt (compressTail b inPtr outPtr H m).mem.data outPtr b inPtr (b.length - inPtr) := by
  obtain ⟨_, _, _, _, _, h6, h7, h8⟩ := compressTail_ok b inPtr outPtr H m hcap
  refine ⟨?_, ?_, h8⟩
  · rw [h6]
    split <;> omega
  · intro h
    exact h7 h

/-- Decompressing what `compressBlock` produced.  For a successful result `r`,
`decompressBlock` on the first `r.outNext` bytes of the output gives
`LLZ4_ERROR_OK` and the input back when the output buffer has room for the
input, and `LLZ4_ERROR_NOT_ENOUGH_OF_SPACE` when it has not. -/
theorem encoded_decode (b : List Nat) (hb : IsBytes b) (cap : Nat) (r : CResult)
    (henc : Encoded b cap r) (dout : Mem) :
    ∃ DF, decompressBlock (r.mem.bytes r.outNext) dout
        = some (if b.length ≤ dout.cap then LLZ4_ERROR_OK
                else LLZ4_ERROR_NOT_ENOUGH_OF_SPACE, DF) ∧
      (b.length ≤ dout.cap →
        DF.outPtr = b.length ∧ ∀ i, i < b.length → DF.mem.data i = b.getD i 0) := by
  obtain ⟨st0, stF, h1, h2, hs, h3, h4, h5, h6, h7⟩ := henc
  rw [← h5] at h7
  obtain ⟨t1, t2, t3, t4, t5, t6, t7, t8⟩ :=
    compressTail_ok b stF.inLast stF.outPtr stF.buffer stF.mem h7
  have hlast := tail_lastAt b stF.inLast stF.outPtr stF.buffer stF.mem h7
  rw [← h6] at t3 t5 hlast
  have hlen : (r.mem.bytes r.outNext).length = r.outNext := bytes_length _ _
  have hget : ∀ i, i < r.outNext → (r.mem.bytes r.outNext).getD i 0 = r.mem.data i :=
    fun i hi => bytes_getD _ _ i hi
  unfold decompressBlock
  apply steps_decode b (r.mem.bytes r.outNext) hb st0 stF hs h3
  · intro i hi
    rw [hget i (by omega), t5 i hi]
  · obtain ⟨l1, l2, l3⟩ := hlast
    unfold extLen at l3
    refine ⟨?_, ?_, ?_⟩
    · simp only
      rw [hget _ (by omega), l1]
    · intro hL
      obtain ⟨a, a1⟩ := l2 hL
      constructor
      · intro j hj
        simp only
        rw [hget _ (by omega), a j hj]
      · simp only
        rw [hget _ (by omega), a1]
    · intro j hj
      simp only
      unfold extLen
      rw [hget _ (by omega), l3 j hj]
  · rw [hlen, t3]
    unfold extLen
    omega
  · simp only; omega
  · simp only; omega
  · intro i hi
    omega
  · simp only [hlen]
    omega

end LLZ4

namespace LLZ4

theorem error_codes_differ : LLZ4_ERROR_NOT_ENOUGH_OF_SPACE ≠ LLZ4_ERROR_OK := by
  decide

end LLZ4
namespace LLZ4

/-! ## The writes of the encoder -/

theorem WritesFrom.refl (n cap : Nat) (m : Mem) : WritesFrom n cap m m :=
  ⟨[], rfl, fun a h => absurd h (List.not_mem_nil a)⟩

theorem WritesFrom.trans {n cap : Nat} {m m1 m2 : Mem} (h1 : WritesFrom n cap m m1)
    (h2 : WritesFrom n cap m1 m2) : WritesFrom n cap m m2 := by
  obtain ⟨a1, e1, p1⟩ := h1
  obtain ⟨a2, e2, p2⟩ := h2
  refine ⟨a2 ++ a1, by rw [e2, e1, List.append_assoc], ?_⟩
  intro a ha hw
  rcases List.mem_append.1 ha with h | h
  · exact p2 a h hw
  · exact p1 a h hw

theorem writesFrom_logRead (n cap : Nat) (m : Mem) (r : Region) (s : Int) (l : Nat) :
    WritesFrom n cap m (logRead m r s l) := by
  refine ⟨[⟨r, false, s, l⟩], rfl, ?_⟩
  intro a ha hw
  rw [List.mem_singleton] at ha
  rw [ha] at hw
  exact absurd hw Bool.false_ne_true

theorem writesFrom_storeByte (n cap : Nat) (m : Mem) (p v : Nat) (hp : p < cap) :
    WritesFrom n cap m (storeByte m p v) := by
  refine ⟨[⟨Region.output, true, p, 1⟩], rfl, ?_⟩
  intro a ha _
  rw [List.mem_singleton] at ha
  rw [ha]
  show (1 : Nat) = 0 ∨ (0 ≤ (p : Int) ∧ (p : Int) + ((1 : Nat) : Int) ≤ ((cap : Nat) : Int))
  omega

theorem writesFrom_memcpy (n cap : Nat) (inp : List Nat) (m : Mem) (dst : Nat) (r : Region)
    (src : Int) (k : Nat) (h : k = 0 ∨ dst + k ≤ cap) :
    WritesFrom n cap m (memcpy inp m dst r src k) := by
  refine ⟨[⟨Region.output, true, dst, k⟩, ⟨r, false, src, k⟩], rfl, ?_⟩
  intro a ha hw
  rcases List.mem_cons.1 ha with ha | ha
  · rw [ha]
    show k = 0 ∨ (0 ≤ (dst : Int) ∧ (dst : Int) + (k : Int) ≤ ((cap : Nat) : Int))
    omega
  · rw [List.mem_singleton] at ha
    rw [ha] at hw
    exact absurd hw Bool.false_ne_true

theorem writesFrom_wildCopy8Loop (n cap : Nat) (inp : List Nat) (r : Region) (e : Int)
    (fuel : Nat) : ∀ (m : Mem) (dst : Nat) (src : Int), dst + 8 ≤ cap →
      (dst : Int) + (e - src) + 7 ≤ (cap : Int) →
      WritesFrom n cap m (wildCopy8Loop inp r e fuel m dst src) := by
  induction fuel with
  | zero =>
    intro m dst src _ _
    exact WritesFrom.refl n cap m
  | succ f ih =>
    intro m dst src h1 h2
    unfold wildCopy8Loop
    simp only
    have hm := writesFrom_memcpy n cap inp m dst r src 8 (Or.inr h1)
    by_cases hlt : src + 8 < e
    · rw [if_pos hlt]
      exact hm.trans (ih _ (dst + 8) (src + 8) (by omega) (by push_cast; omega))
    · rw [if_neg hlt]
      exact hm

theorem writesFrom_wildCopy8 (n cap : Nat) (inp : List Nat) (m : Mem) (dst : Nat) (r : Region)
    (src : Int) (L : Nat) (hL : 1 ≤ L) (h : dst + L + 7 ≤ cap) :
    WritesFrom n cap m (wildCopy8 inp m dst r src L) :=
  writesFrom_wildCopy8Loop n cap inp r _ _ m dst src (by omega) (by omega)

theorem writesFrom_blockWriteLengthLoop (n cap : Nat) (fuel : Nat) :
    ∀ (m : Mem) (ptr len : Nat), ptr + len / 255 + 1 ≤ cap →
      WritesFrom n cap m (blockWriteLengthLoop fuel m ptr len).1 := by
  induction fuel with
  | zero =>
    intro m ptr len _
    exact WritesFrom.refl n cap m
  | succ f ih =>
    intro m ptr len h
    unfold blockWriteLengthLoop
    by_cases hge : len ≥ 255
    · rw [if_pos hge]
      exact (writesFrom_storeByte n cap m ptr 255 (by omega)).trans
        (ih _ (ptr + 1) (len - 255) (by omega))
    · rw [if_neg hge]
      exact writesFrom_storeByte n cap m ptr _ (by omega)

theorem writesFrom_blockWriteLength (n cap : Nat) (m : Mem) (ptr len : Nat)
    (h : ptr + len / 255 + 1 ≤ cap) : WritesFrom n cap m (blockWriteLength m ptr len).1 :=
  writesFrom_blockWriteLengthLoop n cap _ m ptr len h

theorem writesFrom_blockWriteOffset (n cap : Nat) (m : Mem) (ptr off : Nat)
    (h : ptr + 2 ≤ cap) : WritesFrom n cap m (blockWriteOffset m ptr off).1 :=
  (writesFrom_storeByte n cap m ptr _ (by omega)).trans
    (writesFrom_storeByte n cap _ (ptr + 1) _ (by omega))

theorem writesFrom_emitLiterals (n cap : Nat) (inp : List Nat) (m : Mem) (o inLast L ml : Nat)
    (h : o + 1 + extLen L + L + 7 ≤ cap) :
    WritesFrom n cap m (emitLiterals inp m o inLast L ml).1 := by
  unfold extLen at h
  unfold emitLiterals
  simp only
  by_cases h0 : L = 0
  · rw [if_pos h0]
    exact writesFrom_storeByte n cap m o _ (by omega)
  · rw [if_neg h0]
    by_cases h15 : L < 15
    · rw [if_pos h15]
      exact (writesFrom_storeByte n cap m o _ (by omega)).trans
        (writesFrom_wildCopy8 n cap inp _ (o + 1) _ _ L (by omega) (by omega))
    · rw [if_neg h15]
      refine (writesFrom_storeByte n cap m o _ (by omega)).trans
        ((writesFrom_blockWriteLength n cap _ (o + 1) (L - 15) (by omega)).trans
          (writesFrom_wildCopy8 n cap inp _ _ _ _ L (by omega) ?_))
      rw [blockWriteLength_ptr]
      omega

theorem writesFrom_emitMatch (n cap : Nat) (m : Mem) (p off ml : Nat)
    (h : p + 2 + extLen ml ≤ cap) : WritesFrom n cap m (emitMatch m p off ml).1 := by
  unfold extLen at h
  unfold emitMatch
  simp only
  by_cases h15 : ml ≥ 15
  · rw [if_pos h15]
    exact (writesFrom_blockWriteOffset n cap m p off (by omega)).trans
      (writesFrom_blockWriteLength n cap _ (p + 2) (ml - 15) (by omega))
  · rw [if_neg h15]
    exact writesFrom_blockWriteOffset n cap m p off (by omega)

theorem writesFrom_emitSequence (n : Nat) (inp : List Nat) (m : Mem)
    (o inLast inPtr matchPtr ml : Nat)
    (hcap : o + (1 + (inPtr - inLast + 240) / 255 + (inPtr - inLast) + 2
      + (ml + 240) / 255 + 5) ≤ m.cap) :
    WritesFrom n m.cap m (emitSequence inp m o inLast inPtr matchPtr ml).1 := by
  unfold emitSequence
  simp only
  have hl := (emitLiterals_spec inp m o inLast (inPtr - inLast) ml
    (by unfold extLen; omega)).1
  refine (writesFrom_emitLiterals n m.cap inp m o inLast (inPtr - inLast) ml
    (by unfold extLen; omega)).trans (writesFrom_emitMatch n m.cap _ _ _ ml ?_)
  rw [hl]
  unfold extLen
  omega

end LLZ4
namespace LLZ4

theorem writesFrom_matchCountLoop (n cap : Nat) (inp : List Nat) (matchEnd fuel : Nat) :
    ∀ (m : Mem) (ptr optr : Nat),
      WritesFrom n cap m (matchCountLoop inp matchEnd fuel m ptr optr).2.2 := by
  induction fuel with
  | zero =>
    intro m ptr optr
    exact WritesFrom.refl n cap m
  | succ f ih =>
    intro m ptr optr
    unfold matchCountLoop
    simp only
    have hr := (writesFrom_logRead n cap m Region.input ptr 4).trans
      (writesFrom_logRead n cap _ Region.input optr 4)
    by_cases hlt : ptr < matchEnd
    · rw [if_pos hlt]
      by_cases hd : load32 inp ptr ^^^ load32 inp optr ≠ 0
      · rw [if_pos hd]
        exact hr
      · rw [if_neg hd]
        exact hr.trans (ih _ _ _)
    · rw [if_neg hlt]
      exact WritesFrom.refl n cap m

theorem writesFrom_matchCount (n cap : Nat) (inp : List Nat) (m : Mem)
    (matchPtr matchEnd optr : Nat) :
    WritesFrom n cap m (matchCount inp m matchPtr matchEnd optr).2 :=
  writesFrom_matchCountLoop n cap inp matchEnd _ m matchPtr optr

theorem writesFrom_updateHash (n cap : Nat) (inp : List Nat) (p : Nat) (H : HashBuffer)
    (m : Mem) : WritesFrom n cap m (updateHash inp p H m).2.2 :=
  writesFrom_logRead n cap m Region.input p 4

theorem writesFrom_reindexLoop (n cap : Nat) (inp : List Nat) (nextPtr fuel : Nat) :
    ∀ (p ss s : Nat) (H : HashBuffer) (m : Mem) (H1 : HashBuffer) (m1 : Mem),
      reindexLoop inp nextPtr fuel p ss s H m = some (H1, m1) →
      WritesFrom n cap m m1 ∧ m1.cap = m.cap := by
  induction fuel with
  | zero =>
    intro p ss s H m H1 m1 h
    unfold reindexLoop at h
    cases h
  | succ f ih =>
    intro p ss s H m H1 m1 h
    unfold reindexLoop at h
    by_cases hlt : p < nextPtr
    · rw [if_pos hlt] at h
      obtain ⟨w, c⟩ := ih _ _ _ _ _ H1 m1 h
      exact ⟨(writesFrom_updateHash n cap inp p H m).trans w, by rw [c]; rfl⟩
    · rw [if_neg hlt] at h
      cases h
      exact ⟨WritesFrom.refl n cap m, rfl⟩

theorem writesFrom_reindex (n cap : Nat) (inp : List Nat) (init : Nat) (thorough : Bool)
    (inPtr nextPtr : Nat) (H : HashBuffer) (m : Mem) (H1 : HashBuffer) (m1 : Mem)
    (h : reindex inp init thorough inPtr nextPtr H m = some (H1, m1)) :
    WritesFrom n cap m m1 ∧ m1.cap = m.cap := by
  unfold reindex at h
  cases thorough with
  | true =>
    simp only [if_true] at h
    exact writesFrom_reindexLoop n cap inp nextPtr _ _ _ _ H m H1 m1 h
  | false =>
    simp only [Bool.false_eq_true, if_false] at h
    cases h
    exact ⟨WritesFrom.refl n cap m, rfl⟩

/-- The writes of the `if` branch of the loop body stay inside the buffer:
the sequence is only emitted when its worst-case width fits. -/
theorem writesFrom_matchStep (n : Nat) (inp : List Nat) (init : Nat) (thorough : Bool)
    (endMatch : Nat) (st : CState) (H : HashBuffer) (m : Mem) (q : Nat) (st1 : CState)
    (h : matchStep inp init thorough endMatch st H m q = some (CStep.next st1) ∨
      matchStep inp init thorough endMatch st H m q = some (CStep.stop st1)) :
    WritesFrom n m.cap m st1.mem ∧ st1.mem.cap = m.cap := by
  have hc := (matchCount_spec inp m (st.inPtr + 4) endMatch (q + 4)).1
  have hw := writesFrom_matchCount n m.cap inp m (st.inPtr + 4) endMatch (q + 4)
  unfold matchStep at h
  simp only at h
  by_cases hfull : st.outPtr + (1 + (st.inPtr - st.inLast + 240) / 255 + (st.inPtr - st.inLast)
      + 2 + ((matchCount inp m (st.inPtr + 4) endMatch (q + 4)).1 + 240) / 255 + 5)
      > (matchCount inp m (st.inPtr + 4) endMatch (q + 4)).2.cap
  · rw [if_pos hfull] at h
    rcases h with h | h
    · cases h
    · cases h
      exact ⟨hw, hc⟩
  · rw [if_neg hfull] at h
    have hroom : st.outPtr + (1 + (st.inPtr - st.inLast + 240) / 255 + (st.inPtr - st.inLast)
        + 2 + ((matchCount inp m (st.inPtr + 4) endMatch (q + 4)).1 + 240) / 255 + 5)
        ≤ (matchCount inp m (st.inPtr + 4) endMatch (q + 4)).2.cap := by omega
    have he := writesFrom_emitSequence n inp (matchCount inp m (st.inPtr + 4) endMatch (q + 4)).2
      st.outPtr st.inLast st.inPtr q (matchCount inp m (st.inPtr + 4) endMatch (q + 4)).1 hroom
    have hec := (emitSequence_spec inp (matchCount inp m (st.inPtr + 4) endMatch (q + 4)).2
      st.outPtr st.inLast st.inPtr q (matchCount inp m (st.inPtr + 4) endMatch (q + 4)).1
      hroom).2.1
    rw [hc] at he
    cases hre : reindex inp init thorough st.inPtr
        (st.inPtr + (matchCount inp m (st.inPtr + 4) endMatch (q + 4)).1 + 4) H
        (emitSequence inp (matchCount inp m (st.inPtr + 4) endMatch (q + 4)).2
          st.outPtr st.inLast st.inPtr q
          (matchCount inp m (st.inPtr + 4) endMatch (q + 4)).1).1 with
    | none =>
      rw [hre] at h
      rcases h with h | h
      · cases h
      · cases h
    | some t =>
      rw [hre] at h
      obtain ⟨rw1, rc⟩ := writesFrom_reindex n m.cap inp init thorough _ _ H _ t.1 t.2 hre
      rcases h with h | h
      · simp only [Option.some.injEq, CStep.next.injEq] at h
        rw [← h]
        exact ⟨hw.trans (he.trans rw1), by show t.2.cap = m.cap; rw [rc, hec, hc]⟩
      · cases h

end LLZ4
namespace LLZ4

theorem writesFrom_missStep (n cap : Nat) (st : CState) (H : HashBuffer) (m : Mem)
    (h : WritesFrom n cap st.mem m) : WritesFrom n cap st.mem (missStep st H m).mem := h

/-- One pass of the encoder loop writes inside the buffer only, whether it
goes on or leaves the loop. -/
theorem writesFrom_compressStep (n : Nat) (inp : List Nat) (init : Nat) (thorough : Bool)
    (endMatch : Nat) (st st1 : CState)
    (h : compressStep inp init thorough endMatch st = some (CStep.next st1) ∨
      compressStep inp init thorough endMatch st = some (CStep.stop st1)) :
    WritesFrom n st.mem.cap st.mem st1.mem ∧ st1.mem.cap = st.mem.cap := by
  have hu := writesFrom_updateHash n st.mem.cap inp st.inPtr st.buffer st.mem
  have hmiss : ∀ (m : Mem), WritesFrom n st.mem.cap st.mem m → m.cap = st.mem.cap →
      (some (CStep.next (missStep st (updateHash inp st.inPtr st.buffer st.mem).2.1 m))
          = some (CStep.next st1) ∨
        some (CStep.next (missStep st (updateHash inp st.inPtr st.buffer st.mem).2.1 m))
          = some (CStep.stop st1)) →
      WritesFrom n st.mem.cap st.mem st1.mem ∧ st1.mem.cap = st.mem.cap := by
    intro m hm hcap hh
    rcases hh with hh | hh
    · simp only [Option.some.injEq, CStep.next.injEq] at hh
      rw [← hh]
      exact ⟨hm, hcap⟩
    · cases hh
  unfold compressStep at h
  simp only at h
  cases hq : (updateHash inp st.inPtr st.buffer st.mem).1 with
  | none =>
    rw [hq] at h
    exact hmiss _ hu rfl h
  | some q =>
    rw [hq] at h
    simp only at h
    by_cases hwin : q + LLZ4_MAX_OFFSET + 1 > st.inPtr
    · rw [if_pos hwin] at h
      have hr := hu.trans ((writesFrom_logRead n st.mem.cap _ Region.input q 4).trans
        (writesFrom_logRead n st.mem.cap _ Region.input st.inPtr 4))
      by_cases hcmp : memcmp4 inp q st.inPtr = true
      · rw [if_pos hcmp] at h
        obtain ⟨w, c⟩ := writesFrom_matchStep n inp init thorough endMatch st _ _ q st1 h
        exact ⟨hr.trans w, c⟩
      · rw [if_neg hcmp] at h
        exact hmiss _ hr rfl h
    · rw [if_neg hwin] at h
      exact hmiss _ hu rfl h

theorem writesFrom_compressLoop (n : Nat) (inp : List Nat) (init : Nat) (thorough : Bool)
    (endLimit endMatch fuel : Nat) :
    ∀ (st : CState) (code : Int) (stF : CState),
      compressLoop inp init thorough endLimit endMatch fuel st = some (code, stF) →
      WritesFrom n st.mem.cap st.mem stF.mem ∧ stF.mem.cap = st.mem.cap := by
  induction fuel with
  | zero =>
    intro st code stF h
    unfold compressLoop at h
    cases h
  | succ f ih =>
    intro st code stF h
    unfold compressLoop at h
    by_cases hlt : st.inPtr < endLimit
    · rw [if_pos hlt] at h
      cases hs : compressStep inp init thorough endMatch st with
      | none =>
        rw [hs] at h
        cases h
      | some cs =>
        rw [hs] at h
        cases cs with
        | next st1 =>
          simp only at h
          obtain ⟨w, c⟩ := writesFrom_compressStep n inp init thorough endMatch st st1
            (Or.inl hs)
          obtain ⟨w1, c1⟩ := ih st1 code stF h
          rw [c] at w1
          exact ⟨w.trans w1, by rw [c1, c]⟩
        | stop st1 =>
          simp only [Option.some.injEq, Prod.mk.injEq] at h
          obtain ⟨w, c⟩ := writesFrom_compressStep n inp init thorough endMatch st st1
            (Or.inr hs)
          rw [← h.2]
          exact ⟨w, c⟩
    · rw [if_neg hlt] at h
      simp only [Option.some.injEq, Prod.mk.injEq] at h
      rw [← h.2]
      exact ⟨WritesFrom.refl n _ _, rfl⟩

/-- The final literals are written inside the buffer, or not at all. -/
theorem writesFrom_compressTail (n : Nat) (inp : List Nat) (inPtr outPtr : Nat)
    (H : HashBuffer) (m : Mem) :
    WritesFrom n m.cap m (compressTail inp inPtr outPtr H m).mem := by
  unfold compressTail
  simp only
  by_cases hfit : outPtr + (1 + (inp.length - inPtr + 240) / 255 + (inp.length - inPtr)) ≤ m.cap
  · rw [if_pos hfit]
    simp only
    by_cases h15 : inp.length - inPtr < 15
    · rw [if_pos h15]
      exact (writesFrom_storeByte n m.cap m outPtr _ (by omega)).trans
        (writesFrom_memcpy n m.cap inp _ (outPtr + 1) _ _ _ (Or.inr (by omega)))
    · rw [if_neg h15]
      refine (writesFrom_storeByte n m.cap m outPtr _ (by omega)).trans
        ((writesFrom_blockWriteLength n m.cap _ (outPtr + 1) (inp.length - inPtr - 15)
          (by omega)).trans
          (writesFrom_memcpy n m.cap inp _ _ _ _ _ (Or.inr ?_)))
      rw [blockWriteLength_ptr]
      omega
  · rw [if_neg hfit]
    exact WritesFrom.refl n _ _

/-- All writes of `compressBlock` stay inside the output buffer. -/
theorem writesFrom_compressBlock (inp : List Nat) (out : Mem) (H : HashBuffer) (acc : Nat)
    (thorough : Bool) (r : CResult) (h : compressBlock inp out H acc thorough = some r) :
    WritesFrom inp.length out.cap out r.mem := by
  unfold compressBlock at h
  simp only at h
  by_cases hmain : acc > 0 ∧ 0 + 13 < inp.length
  · rw [if_pos hmain] at h
    have hu := writesFrom_updateHash inp.length out.cap inp 0 (clearTable H) out
    cases hl : compressLoop inp (acc <<< LLZ4_ACCELERATION_TRIGGER) thorough (inp.length - 13)
        (inp.length - 5) (inp.length + 1)
        ⟨1, 0, 0, acc <<< LLZ4_ACCELERATION_TRIGGER, 1,
          (updateHash inp 0 (clearTable H) out).2.1,
          (updateHash inp 0 (clearTable H) out).2.2⟩ with
    | none =>
      rw [hl] at h
      cases h
    | some p =>
      obtain ⟨code, stF⟩ := p
      rw [hl] at h
      simp only at h
      obtain ⟨w, c⟩ := writesFrom_compressLoop inp.length inp _ thorough _ _ _ _ code stF hl
      have c1 : stF.mem.cap = out.cap := c
      have w1 : WritesFrom inp.length out.cap
          (updateHash inp 0 (clearTable H) out).2.2 stF.mem := w
      by_cases hok : code = LLZ4_ERROR_OK
      · rw [if_pos hok] at h
        cases h
        have t := writesFrom_compressTail inp.length inp stF.inLast stF.outPtr stF.buffer stF.mem
        rw [c1] at t
        exact hu.trans (w1.trans t)
      · rw [if_neg hok] at h
        cases h
        exact hu.trans w1
  · rw [if_neg hmain] at h
    cases h
    exact writesFrom_compressTail inp.length inp 0 0 H out

end LLZ4
namespace LLZ4

/-! ## The match copy and the length encoding on their own -/

theorem readMatchLength_ge (inp : List Nat) (m : Mem) (token inPtr : Nat) :
    4 ≤ (readMatchLength inp m token inPtr).1 := by
  unfold readMatchLength
  simp only
  split
  · simp only
    omega
  · simp only
    omega

/-- The match copy of `decompressBlock` for any offset within the bytes written
so far and any match length that fits the buffer: the bytes before the cursor
stay, the cursor advances by the match length, and each byte of the match is
the byte `offset` positions before it. -/
theorem decompressMatch_run (c : List Nat) (token p q : Nat) (m : Mem)
    (hoff1 : 1 ≤ (blockReadOffset c m p).1) (hoffq : (blockReadOffset c m p).1 ≤ q)
    (hroom : q + (readMatchLength c (blockReadOffset c m p).2.2 token
      (blockReadOffset c m p).2.1).1 ≤ m.cap) :
    ∃ st, decompressMatch c token p q m = DStep.next st ∧
      st.outPtr = q + (readMatchLength c (blockReadOffset c m p).2.2 token
        (blockReadOffset c m p).2.1).1 ∧
      st.mem.cap = m.cap ∧
      (∀ i, i < q → st.mem.data i = m.data i) ∧
      (∀ j, j < (readMatchLength c (blockReadOffset c m p).2.2 token
          (blockReadOffset c m p).2.1).1 →
        st.mem.data (q + j) = st.mem.data (q + j - (blockReadOffset c m p).1)) := by
  have hcap := readMatchLength_cap c (logRead m Region.input p 2) token (p + 2)
  have hdata := readMatchLength_data c (logRead m Region.input p 2) token (p + 2)
  have hge := readMatchLength_ge c (logRead m Region.input p 2) token (p + 2)
  simp only [logRead_cap, logRead_data] at hcap hdata
  unfold decompressMatch
  simp only [blockReadOffset] at hoff1 hoffq hroom ⊢
  generalize c.getD p 0 ||| (c.getD (p + 1) 0 <<< 8) = off at hoff1 hoffq ⊢
  generalize hM : (readMatchLength c (logRead m Region.input p 2) token (p + 2)).1 = M
    at hroom hge ⊢
  rw [hcap]
  rw [if_neg (by omega)]
  by_cases c1 : M ≤ off ∧ q + M + 15 ≤ m.cap
  · rw [if_pos c1]
    refine ⟨_, rfl, rfl, ?_, ?_, ?_⟩
    · rw [wildCopy16_cap, hcap]
    · intro i hi
      rw [wildCopy16_frame _ _ _ _ _ _ _ hi, hdata]
    · intro j hj
      simp only
      rw [wildCopy16_output _ _ _ _ _ _ hoffq c1.1 (by omega) (by omega) (by rw [hcap]; omega),
        wildCopy16_frame _ _ _ _ _ _ _ (by omega)]
  · rw [if_neg c1]
    by_cases c2 : M ≤ off ∧ q + M ≤ m.cap
    · rw [if_pos c2]
      refine ⟨_, rfl, rfl, ?_, ?_, ?_⟩
      · rw [wildCopy_cap, hcap]
      · intro i hi
        rw [wildCopy_frame _ _ _ _ _ _ _ hi, hdata]
      · intro j hj
        simp only
        rw [wildCopy_output _ _ _ _ _ _ hoffq (by omega) (by omega) (by rw [hcap]; omega),
          wildCopy_frame _ _ _ _ _ _ _ (by omega)]
    · rw [if_neg c2, if_neg (by omega)]
      have hlt : off < M := by omega
      refine ⟨_, rfl, ?_, ?_, ?_, ?_⟩
      · simp only
        rw [overlapLoop_ptr _ _ _ _ _ _ (by omega) (by omega)]
      · simp only [overlapLoop_cap, wildCopy_cap, hcap]
      · intro i hi
        simp only
        rw [overlapLoop_frame _ _ _ _ _ _ _ (by omega), wildCopy_frame _ _ _ _ _ _ _ hi, hdata]
      · intro j hj
        simp only
        by_cases hj2 : j < off
        · rw [overlapLoop_frame _ _ _ _ _ _ _ (by omega),
            overlapLoop_frame _ _ _ _ _ _ _ (by omega),
            wildCopy_output _ _ _ _ _ _ hoffq (by omega) (by omega) (by rw [hcap]; omega),
            wildCopy_frame _ _ _ _ _ _ _ (by omega)]
        · have := overlapLoop_data c (q + M) M
            (wildCopy c (readMatchLength c (logRead m Region.input p 2) token (p + 2)).2.2 q
              Region.output ((q : Int) - (off : Int)) off) (q + off) q (q + j)
            (by omega) (by omega) (by omega) (by omega)
            (by rw [wildCopy_cap, hcap]; omega)
          rw [show q + off - q = off by omega] at this
          exact this

/-- A run of bytes each equal to the byte one position before it repeats the
byte before the run. -/
theorem run_of_previous (data : Nat → Nat) (q M : Nat) (hq : 1 ≤ q)
    (h : ∀ j, j < M → data (q + j) = data (q + j - 1)) (j : Nat) (hj : j < M) :
    data (q + j) = data (q - 1) := by
  induction j with
  | zero => exact h 0 hj
  | succ k ih =>
    rw [h (k + 1) hj, show q + (k + 1) - 1 = q + k by omega]
    exact ih (by omega)

/-- What `blockWriteLength` writes, `blockReadLength` reads back. -/
theorem blockReadLength_written (m : Mem) (ptr L k : Nat) (e : Int) (dm : Mem)
    (hcap : ptr + L / 255 + 1 ≤ m.cap) (hk : ptr + L / 255 + 1 ≤ k)
    (he : ((ptr + L / 255 + 1 : Nat) : Int) ≤ e) :
    (blockReadLength ((blockWriteLength m ptr L).1.bytes k) dm ptr e).1 = L ∧
    (blockReadLength ((blockWriteLength m ptr L).1.bytes k) dm ptr e).2.1
      = ptr + L / 255 + 1 := by
  have h := blockReadLength_run ((blockWriteLength m ptr L).1.bytes k) dm ptr e (L / 255)
    (L % 255) (by push_cast at he ⊢; omega)
    (by
      intro j hj
      rw [bytes_getD _ _ _ (by omega), blockWriteLength_data,
        if_pos ⟨by omega, by omega, by omega⟩, if_pos (by omega)])
    (by
      rw [bytes_getD _ _ _ (by omega), blockWriteLength_data,
        if_pos ⟨by omega, by omega, by omega⟩, if_neg (by omega)])
    (by omega)
  refine ⟨?_, h.2⟩
  rw [h.1]
  omega

end LLZ4
namespace LLZ4

/-! ## Hand-written blocks -/

theorem decompressLoop_next (c : List Nat) (fuel : Nat) (D st : DState)
    (hlt : D.inPtr < c.length) (h : decompressSeq c D = DStep.next st) :
    decompressLoop c (fuel + 1) D = decompressLoop c fuel st := by
  rw [decompressLoop, if_pos hlt, h]

theorem decompressLoop_done (c : List Nat) (fuel : Nat) (D st : DState) (code : Int)
    (hlt : D.inPtr < c.length) (h : decompressSeq c D = DStep.done code st) :
    decompressLoop c (fuel + 1) D = some (code, st) := by
  rw [decompressLoop, if_pos hlt, h]

/-- The block `fb 00 (00 x 15) 01 00 00`: fifteen literals `00`, a match of
fifteen bytes at offset 1, and the closing token.  In a buffer of 30 bytes or
more it decodes to thirty bytes `00`. -/
theorem overlap_block_decodes (dout : Mem) (hcap : 30 ≤ dout.cap) :
    ∃ DF, decompressBlock [0xfb, 0, 0, 0, 0, 0, 0, 0, 0, 0, 0, 0, 0, 0, 0, 0, 0, 1, 0, 0] dout
        = some (LLZ4_ERROR_OK, DF) ∧
      DF.outPtr = 30 ∧ ∀ i, i < 30 → DF.mem.data i = 0 := by
  have hseq : SeqAt (fun i =>
      [0xfb, 0, 0, 0, 0, 0, 0, 0, 0, 0, 0, 0, 0, 0, 0, 0, 0, 1, 0, 0].getD i 0) 0 [] 0 15 1 11 := by
    unfold SeqAt ExtAt extLen
    decide
  obtain ⟨st, e, e1, e2, e3, _, e5, e6⟩ :=
    (decompressSeq_seq [0xfb, 0, 0, 0, 0, 0, 0, 0, 0, 0, 0, 0, 0, 0, 0, 0, 0, 1, 0, 0]
      ⟨0, 0, dout⟩ [] 0 15 1 11 hseq (show 0 + seqLen 15 11 < 20 by decide) (by decide)
      (by decide) (show 1 ≤ 0 + 15 by decide)).1
      (by simp only; omega)
  simp only at e1 e2 e3 e5 e6
  have e1' : st.inPtr = 19 := by rw [e1]; decide
  have hlast : LastAt (fun i =>
      [0xfb, 0, 0, 0, 0, 0, 0, 0, 0, 0, 0, 0, 0, 0, 0, 0, 0, 1, 0, 0].getD i 0)
      st.inPtr [] 0 0 := by
    rw [e1']
    unfold LastAt ExtAt extLen
    decide
  obtain ⟨m, f, _, f2, _⟩ :=
    (decompressSeq_last [0xfb, 0, 0, 0, 0, 0, 0, 0, 0, 0, 0, 0, 0, 0, 0, 0, 0, 1, 0, 0]
      st [] 0 0 hlast (by rw [e1']; decide)).1 (by rw [e2, e3]; omega)
  refine ⟨⟨20, st.outPtr + 0, m⟩, ?_, ?_, ?_⟩
  · unfold decompressBlock
    show decompressLoop _ (19 + 1 + 1) _ = _
    rw [decompressLoop_next _ _ _ st (show 0 < 20 by decide) e,
      decompressLoop_done _ _ _ _ _ (by rw [e1']; decide) f]
    rfl
  · simp only
    rw [e2]
  · intro i hi
    simp only
    rw [f2 i (by omega)]
    by_cases h15 : i < 15
    · have := e5 i h15
      rw [Nat.zero_add] at this
      rw [this]
      rfl
    · have hrun := run_of_previous st.mem.data 15 15 (by decide)
        (fun j hj => by
          have := e6 j hj
          rw [Nat.zero_add] at this
          exact this) (i - 15) (by omega)
      rw [show 15 + (i - 15) = i by omega] at hrun
      rw [hrun]
      have := e5 14 (by decide)
      rw [Nat.zero_add] at this
      rw [show 15 - 1 = 14 from rfl, this]
      rfl

/-- The 19 bytes `f0 (00 x 15) 01 00 0b`: the token announces 15 literals and
an extension, the extension byte `00` leaves 15, and with 17 bytes left behind
it the literals neither leave room for a match part nor end the block.  In a
buffer of 15 bytes or more the result is `LLZ4_ERROR_INVALID_DATA`. -/
theorem scenario_bytes_rejected (dout : Mem) (hcap : 15 ≤ dout.cap) :
    ∃ st, decompressBlock [0xf0, 0, 0, 0, 0, 0, 0, 0, 0, 0, 0, 0, 0, 0, 0, 0, 1, 0, 0x0b] dout
      = some (LLZ4_ERROR_INVALID_DATA, st) := by
  have hr : ∀ m : Mem,
      readLiteralLength [0xf0, 0, 0, 0, 0, 0, 0, 0, 0, 0, 0, 0, 0, 0, 0, 0, 1, 0, 0x0b] m 240 1
        = (15, 2, logRead m Region.input 1 1) := fun _ => rfl
  have hl : ∃ st, decompressLiterals
      [0xf0, 0, 0, 0, 0, 0, 0, 0, 0, 0, 0, 0, 0, 0, 0, 0, 1, 0, 0x0b] ⟨0, 0, dout⟩
      = LStep.done LLZ4_ERROR_INVALID_DATA st := by
    unfold decompressLiterals
    simp only
    rw [show [0xf0, 0, 0, 0, 0, 0, 0, 0, 0, 0, 0, 0, 0, 0, 0, 0, 1, 0, 0x0b].getD 0 0 = 240
      from rfl, show (0 : Nat) + 1 = 1 from rfl, hr]
    simp only
    rw [if_neg (fun h => absurd h.1 (by decide)), if_neg (fun h => absurd h.1 (by decide)),
      if_neg (fun h => absurd h.1 (by decide)), if_neg (by
      show ¬ (0 + 15 > dout.cap)
      omega)]
    exact ⟨_, rfl⟩
  obtain ⟨st, hst⟩ := hl
  refine ⟨st, ?_⟩
  unfold decompressBlock
  apply decompressLoop_done _ _ _ _ _ (show 0 < 19 by decide)
  unfold decompressSeq
  rw [hst]

end LLZ4
namespace LLZ4

/-! ## Levels and the hash index -/

theorem levelParams_neg (level : Int) (h : level < 0) : levelParams level = levelParams 1 := by
  have h1 : levelParams 1 = (8, false) := by decide
  rw [h1]
  unfold levelParams
  simp only
  rw [if_pos h]
  rfl

theorem levelParams_high (level : Int) (h : 9 < level) : levelParams level = levelParams 9 := by
  have h9 : levelParams 9 = (1, true) := by decide
  rw [h9]
  unfold levelParams
  simp only
  iterate 9 rw [if_neg (by omega)]

/-- The final literals do not consult the hash table. -/
theorem compressTail_table (b : List Nat) (inPtr outPtr : Nat) (H1 H2 : HashBuffer) (m : Mem) :
    (compressTail b inPtr outPtr H1 m).errorCode = (compressTail b inPtr outPtr H2 m).errorCode ∧
    (compressTail b inPtr outPtr H1 m).inNext = (compressTail b inPtr outPtr H2 m).inNext ∧
    (compressTail b inPtr outPtr H1 m).outNext = (compressTail b inPtr outPtr H2 m).outNext ∧
    (compressTail b inPtr outPtr H1 m).mem = (compressTail b inPtr outPtr H2 m).mem := by
  unfold compressTail
  simp only
  split
  · exact ⟨rfl, rfl, rfl, rfl⟩
  · exact ⟨rfl, rfl, rfl, rfl⟩

/-- Two tables that agree in every slot behind the table are the same after
`memset`. -/
theorem clearTable_congr (H1 H2 : HashBuffer)
    (h : ∀ s, 2 ^ LLZ4_HASH_SIZE ≤ s → H1 s = H2 s) : clearTable H1 = clearTable H2 := by
  funext s
  unfold clearTable
  by_cases hs : s < 2 ^ LLZ4_HASH_SIZE
  · rw [if_pos hs, if_pos hs]
  · rw [if_neg hs, if_neg hs]
    exact h s (by omega)

/-- What the 16384 slots of the table hold when `compressBlock` is called has
no effect on its result: two tables that agree in every slot behind the table
give the same error code, cursors and output buffer. -/
theorem compressBlock_table (b : List Nat) (out : Mem) (H1 H2 : HashBuffer) (acc : Nat)
    (thorough : Bool) (h : ∀ s, 2 ^ LLZ4_HASH_SIZE ≤ s → H1 s = H2 s) :
    (compressBlock b out H1 acc thorough).map
        (fun r => (r.errorCode, r.inNext, r.outNext, r.mem))
      = (compressBlock b out H2 acc thorough).map
        (fun r => (r.errorCode, r.inNext, r.outNext, r.mem)) := by
  by_cases hc : acc > 0 ∧ 0 + 13 < b.length
  · unfold compressBlock
    rw [if_pos hc, if_pos hc, clearTable_congr H1 H2 h]
  · unfold compressBlock
    rw [if_neg hc, if_neg hc]
    obtain ⟨t1, t2, t3, t4⟩ := compressTail_table b 0 0 H1 H2 out
    simp only [Option.map_some']
    rw [t1, t2, t3, t4]

/-- With the product reduced modulo 2^32 the table index has 14 bits. -/
theorem hashIndex_lt (value : Nat) : hashIndex value < 2 ^ LLZ4_HASH_SIZE := by
  unfold hashIndex LLZ4_HASH_SIZE
  rw [Nat.shiftRight_eq_div_pow]
  have : value * 2654435761 % 4294967296 < 4294967296 := Nat.mod_lt _ (by decide)
  omega

theorem getD_replicate_zero (n i : Nat) : (List.replicate n 0).getD i 0 = 0 := by
  induction n generalizing i with
  | zero => rfl
  | succ k ih =>
    cases i with
    | zero => rfl
    | succ j => exact ih j

end LLZ4
namespace LLZ4

/-! ## The first mismatch found by `matchCount` -/

/-- The bit of a nonzero `d < 2 ^ fuel` at index `ctzLoop fuel d` is set. -/
theorem ctzLoop_bit (fuel d : Nat) (h0 : d ≠ 0) (hlt : d < 2 ^ fuel) :
    d % 2 ^ (ctzLoop fuel d + 1) ≠ 0 := by
  induction fuel generalizing d with
  | zero =>
    rw [pow_zero] at hlt
    omega
  | succ f ih =>
    unfold ctzLoop
    by_cases hodd : d % 2 = 1
    · rw [if_pos hodd, Nat.zero_add, pow_one]
      omega
    · rw [if_neg hodd]
      rw [pow_succ] at hlt
      have hrec := ih (d / 2) (by omega) (by omega)
      rw [show 1 + ctzLoop f (d / 2) + 1 = (ctzLoop f (d / 2) + 1) + 1 by omega, pow_succ,
        Nat.mul_comm, Nat.mod_mul]
      omega

theorem mod_two_pow_of_le (d a c : Nat) (h : d % 2 ^ c = 0) (hac : a ≤ c) : d % 2 ^ a = 0 :=
  Nat.mod_eq_zero_of_dvd
    (Nat.dvd_trans (Nat.pow_dvd_pow 2 hac) (Nat.dvd_of_mod_eq_zero h))

/-- Two little-endian 32-bit values with the same first `c` bytes agree in their
low `8 * c` bits. -/
theorem low_bytes_mod (a0 a1 a2 a3 b0 b1 b2 b3 c : Nat) (hc : c ≤ 4)
    (e0 : 1 ≤ c → a0 = b0) (e1 : 2 ≤ c → a1 = b1) (e2 : 3 ≤ c → a2 = b2)
    (e3 : 4 ≤ c → a3 = b3) :
    (a0 + a1 * 256 + a2 * 65536 + a3 * 16777216) % 4294967296 % 2 ^ (8 * c)
      = (b0 + b1 * 256 + b2 * 65536 + b3 * 16777216) % 4294967296 % 2 ^ (8 * c) := by
  have hc' : c = 0 ∨ c = 1 ∨ c = 2 ∨ c = 3 ∨ c = 4 := by omega
  rcases hc' with rfl | rfl | rfl | rfl | rfl
  · rw [Nat.mul_zero, pow_zero, Nat.mod_one, Nat.mod_one]
  · have := e0 (by omega)
    norm_num
    omega
  · have := e0 (by omega)
    have := e1 (by omega)
    norm_num
    omega
  · have := e0 (by omega)
    have := e1 (by omega)
    have := e2 (by omega)
    norm_num
    omega
  · have := e0 (by omega)
    have := e1 (by omega)
    have := e2 (by omega)
    have := e3 (by omega)
    norm_num
    omega

/-- Two 32-bit loads of equal first `c` bytes have an exclusive-or with `8 * c`
low zero bits. -/
theorem load32_xor_mod (inp : List Nat) (p q c : Nat) (hc : c ≤ 4)
    (h : ∀ j, j < c → inp.getD (p + j) 0 = inp.getD (q + j) 0) :
    (load32 inp p ^^^ load32 inp q) % 2 ^ (8 * c) = 0 := by
  have e : load32 inp p % 2 ^ (8 * c) = load32 inp q % 2 ^ (8 * c) := by
    unfold load32
    refine low_bytes_mod _ _ _ _ _ _ _ _ c hc ?_ (fun hh => h 1 (by omega))
      (fun hh => h 2 (by omega)) (fun hh => h 3 (by omega))
    intro hh
    have := h 0 (by omega)
    rw [Nat.add_zero, Nat.add_zero] at this
    exact this
  rw [xor_mod_two_pow, e, Nat.xor_self]

theorem load32_lt (inp : List Nat) (p : Nat) : load32 inp p < 2 ^ 32 := by
  unfold load32
  exact Nat.mod_lt _ (by decide)

/-- When two 32-bit loads differ, the byte index `ctz32 (a ^ b) >> 3` is below
4 and the bytes at that index differ. -/
theorem load32_mismatch (inp : List Nat) (hb : IsBytes inp) (p q : Nat)
    (hne : load32 inp p ^^^ load32 inp q ≠ 0) :
    ctz32 (load32 inp p ^^^ load32 inp q) >>> 3 < 4 ∧
    inp.getD (p + (ctz32 (load32 inp p ^^^ load32 inp q) >>> 3)) 0
      ≠ inp.getD (q + (ctz32 (load32 inp p ^^^ load32 inp q) >>> 3)) 0 := by
  have hlt : load32 inp p ^^^ load32 inp q < 2 ^ 32 :=
    Nat.xor_lt_two_pow (load32_lt inp p) (load32_lt inp q)
  have hbit := ctzLoop_bit 32 _ hne hlt
  have hle := ctzLoop_le 32 (load32 inp p ^^^ load32 inp q)
  have hzero := ctzLoop_mod 32 (load32 inp p ^^^ load32 inp q)
  unfold ctz32
  rw [Nat.shiftRight_eq_div_pow]
  generalize ctzLoop 32 (load32 inp p ^^^ load32 inp q) = t at hbit hle hzero
  have ht : t < 32 := by
    by_contra hcon
    have h32 : t = 32 := by omega
    have := hzero 32 (by omega)
    rw [Nat.mod_eq_of_lt hlt] at this
    exact hne this
  have hk : t / 2 ^ 3 < 4 := by omega
  refine ⟨hk, ?_⟩
  intro heq
  have hpre : ∀ j, j < t / 2 ^ 3 + 1 → inp.getD (p + j) 0 = inp.getD (q + j) 0 := by
    intro j hj
    by_cases hjk : j < t / 2 ^ 3
    · exact load32_low_bytes inp hb p q (t / 2 ^ 3) (by omega)
        (hzero (8 * (t / 2 ^ 3)) (by omega)) j hjk
    · have : j = t / 2 ^ 3 := by omega
      rw [this]
      exact heq
  have hmod := load32_xor_mod inp p q (t / 2 ^ 3 + 1) (by omega) hpre
  exact hbit (mod_two_pow_of_le _ (t + 1) (8 * (t / 2 ^ 3 + 1)) hmod (by omega))

/-- The loop of `matchCount`, given enough passes, ends at or behind `matchEnd`
with `count` unset, or at a word whose byte `count` differs at the two
positions. -/
theorem matchCountLoop_stop (inp : List Nat) (hb : IsBytes inp) (matchEnd fuel : Nat) :
    ∀ (m : Mem) (ptr optr : Nat), (matchEnd - ptr + 3) / 4 ≤ fuel →
      ((matchCountLoop inp matchEnd fuel m ptr optr).1 = 0 ∧
        matchEnd ≤ (matchCountLoop inp matchEnd fuel m ptr optr).2.1) ∨
      inp.getD ((matchCountLoop inp matchEnd fuel m ptr optr).2.1
          + (matchCountLoop inp matchEnd fuel m ptr optr).1) 0
        ≠ inp.getD (optr + ((matchCountLoop inp matchEnd fuel m ptr optr).2.1 - ptr)
          + (matchCountLoop inp matchEnd fuel m ptr optr).1) 0 := by
  induction fuel with
  | zero =>
    intro m ptr optr hf
    left
    unfold matchCountLoop
    exact ⟨rfl, by simp only; omega⟩
  | succ f ih =>
    intro m ptr optr hf
    unfold matchCountLoop
    by_cases hlt : ptr < matchEnd
    · rw [if_pos hlt]
      simp only
      by_cases hd : load32 inp ptr ^^^ load32 inp optr ≠ 0
      · rw [if_pos hd]
        right
        simp only
        rw [Nat.sub_self, Nat.add_zero]
        exact (load32_mismatch inp hb ptr optr hd).2
      · rw [if_neg hd]
        have hge := (matchCountLoop_bound inp matchEnd f
          (logRead (logRead m Region.input ptr 4) Region.input optr 4) (ptr + 4) (optr + 4)).1
        rcases ih (logRead (logRead m Region.input ptr 4) Region.input optr 4) (ptr + 4)
          (optr + 4) (by omega) with h | h
        · exact Or.inl h
        · right
          rw [show optr + ((matchCountLoop inp matchEnd f
              (logRead (logRead m Region.input ptr 4) Region.input optr 4) (ptr + 4)
              (optr + 4)).2.1 - ptr)
            = optr + 4 + ((matchCountLoop inp matchEnd f
              (logRead (logRead m Region.input ptr 4) Region.input optr 4) (ptr + 4)
              (optr + 4)).2.1 - (ptr + 4)) by omega]
          exact h
    · rw [if_neg hlt]
      left
      exact ⟨rfl, by simp only; omega⟩

/-- `matchCount` stops at the first byte that differs, or at or behind
`matchEnd`. -/
theorem matchCount_stop (inp : List Nat) (hb : IsBytes inp) (m : Mem)
    (matchPtr matchEnd optr : Nat) :
    inp.getD (matchPtr + (matchCount inp m matchPtr matchEnd optr).1) 0
        ≠ inp.getD (optr + (matchCount inp m matchPtr matchEnd optr).1) 0 ∨
      matchEnd ≤ matchPtr + (matchCount inp m matchPtr matchEnd optr).1 := by
  have hge := (matchCountLoop_bound inp matchEnd ((matchEnd - matchPtr) / 4 + 1) m matchPtr
    optr).1
  unfold matchCount
  simp only
  rcases matchCountLoop_stop inp hb matchEnd ((matchEnd - matchPtr) / 4 + 1) m matchPtr optr
    (by omega) with h | h
  · right
    omega
  · left
    rw [show matchPtr + ((matchCountLoop inp matchEnd ((matchEnd - matchPtr) / 4 + 1) m matchPtr
          optr).1 + ((matchCountLoop inp matchEnd ((matchEnd - matchPtr) / 4 + 1) m matchPtr
          optr).2.1 - matchPtr))
        = (matchCountLoop inp matchEnd ((matchEnd - matchPtr) / 4 + 1) m matchPtr optr).2.1
          + (matchCountLoop inp matchEnd ((matchEnd - matchPtr) / 4 + 1) m matchPtr optr).1
        by omega,
      show optr + ((matchCountLoop inp matchEnd ((matchEnd - matchPtr) / 4 + 1) m matchPtr
          optr).1 + ((matchCountLoop inp matchEnd ((matchEnd - matchPtr) / 4 + 1) m matchPtr
          optr).2.1 - matchPtr))
        = optr + ((matchCountLoop inp matchEnd ((matchEnd - matchPtr) / 4 + 1) m matchPtr
          optr).2.1 - matchPtr)
          + (matchCountLoop inp matchEnd ((matchEnd - matchPtr) / 4 + 1) m matchPtr optr).1
        by omega]
    exact h

end LLZ4

namespace LLZ4

/-! ## The decoder on arbitrary input -/

/-- C5. `decompressBlock` terminates on every input and every output buffer:
each pass through its loop that does not leave it moves the input cursor
strictly forward and keeps it within the input, the loop ends within
`inp.length + 1` passes, and the result is `LLZ4_ERROR_INVALID_DATA`,
`LLZ4_ERROR_NOT_ENOUGH_OF_SPACE`, or `LLZ4_ERROR_OK` with a written count
`outPtr` of at most the capacity.  For an input of at most
`LLZ4_MAX_BLOCK_SIZE` bytes and a capacity that fits an `int`,
`LLZ4_decompressBlock` returns one of the two error codes or that count. -/
theorem decompressBlock_total (inp : List Nat) (out : Mem) :
    (∀ st st1, decompressSeq inp st = DStep.next st1 →
        st.inPtr < st1.inPtr ∧ st1.inPtr ≤ inp.length) ∧
    (∃ code st, decompressBlock inp out = some (code, st) ∧
      ((code = LLZ4_ERROR_OK ∧ 0 ≤ st.outPtr ∧ st.outPtr ≤ out.cap) ∨
        code = LLZ4_ERROR_NOT_ENOUGH_OF_SPACE ∨ code = LLZ4_ERROR_INVALID_DATA)) ∧
    (inp.length ≤ LLZ4_MAX_BLOCK_SIZE → out.cap < 2147483648 →
      ∃ (n : Int) (m : Mem), LLZ4_decompressBlock inp out = some (n, m) ∧
        ((0 ≤ n ∧ n ≤ (out.cap : Int)) ∨
          n = LLZ4_ERROR_NOT_ENOUGH_OF_SPACE ∨ n = LLZ4_ERROR_INVALID_DATA)) := by
  obtain ⟨code, st1, h, _, h2⟩ :=
    decompressLoop_total inp (inp.length + 1) ⟨0, 0, out⟩ (le_refl _) (Nat.zero_le _)
  refine ⟨?_, ⟨code, st1, h, ?_⟩, ?_⟩
  · intro st st2 e
    rcases decompressSeq_shape inp st with ⟨st3, g, g1, g2, _, _⟩ | ⟨c, st3, g, _, _⟩
    · rw [e] at g
      cases g
      exact ⟨g1, g2⟩
    · rw [e] at g
      cases g
  · rcases h2 with ⟨a, b⟩ | b
    · exact Or.inl ⟨a, Nat.zero_le _, b⟩
    · exact Or.inr b
  · intro hlen hcap
    have h3 : decompressBlock inp out = some (code, st1) := h
    unfold LLZ4_decompressBlock
    rw [if_neg (by omega), h3]
    simp only
    rcases h2 with ⟨a, b⟩ | b
    · have b1 : st1.outPtr ≤ out.cap := b
      rw [if_neg (by rw [a]; simp), toInt32_of_lt _ (by omega)]
      exact ⟨_, _, rfl, Or.inl ⟨by omega, by omega⟩⟩
    · have hne : code ≠ LLZ4_ERROR_OK := by
        rcases b with b | b
        · rw [b]
          decide
        · rw [b]
          decide
      rw [if_pos hne]
      exact ⟨_, _, rfl, Or.inr b⟩

/-- Witness for C5: the block `30 41 42 43` in a buffer of 8 bytes. -/
theorem decompressBlock_total_witness :
    [0x30, 0x41, 0x42, 0x43].length ≤ LLZ4_MAX_BLOCK_SIZE ∧
    (Mem.mk 8 (fun _ => 0) []).cap < 2147483648 ∧
    (LLZ4_decompressBlock [0x30, 0x41, 0x42, 0x43] ⟨8, fun _ => 0, []⟩).map (fun r => r.1)
      = some 3 ∧
    ∃ (n : Int) (m : Mem),
      LLZ4_decompressBlock [0x30, 0x41, 0x42, 0x43] ⟨8, fun _ => 0, []⟩ = some (n, m) ∧
        ((0 ≤ n ∧ n ≤ ((Mem.mk 8 (fun _ => 0) []).cap : Int)) ∨
          n = LLZ4_ERROR_NOT_ENOUGH_OF_SPACE ∨ n = LLZ4_ERROR_INVALID_DATA) :=
  ⟨by decide, by decide, by decide,
    (decompressBlock_total [0x30, 0x41, 0x42, 0x43] ⟨8, fun _ => 0, []⟩).2.2
      (by decide) (by decide)⟩

/-- C7. Whenever the loop of `decompressBlock` has copied the literals of a
sequence and the two offset bytes it reads next give 0, the block is rejected
with `LLZ4_ERROR_INVALID_DATA`. -/
theorem zero_offset_rejected (inp : List Nat) (out : Mem) (st : DState) (p q : Nat) (m : Mem)
    (hreach : Reaches inp out st) (hlt : st.inPtr < inp.length)
    (hlit : decompressLiterals inp st = LStep.copied p q m)
    (hzero : (blockReadOffset inp m p).1 = 0) :
    ∃ st1, decompressBlock inp out = some (LLZ4_ERROR_INVALID_DATA, st1) := by
  obtain ⟨_, _, fuel, hf, hrun⟩ := reaches_run inp out st hreach
  cases fuel with
  | zero => omega
  | succ f =>
    rw [hrun]
    unfold decompressLoop
    rw [if_pos hlt]
    unfold decompressSeq
    rw [hlit]
    simp only
    unfold decompressMatch
    simp only
    rw [if_pos (Or.inl hzero)]
    exact ⟨_, rfl⟩

/-- Witness for C7: one literal `41`, then the offset bytes `00 00`. -/
theorem zero_offset_rejected_witness :
    Reaches [0x10, 0x41, 0x00, 0x00, 0x20] ⟨8, fun _ => 0, []⟩ ⟨0, 0, ⟨8, fun _ => 0, []⟩⟩ ∧
    (0 : Nat) < [0x10, 0x41, 0x00, 0x00, 0x20].length ∧
    (blockReadOffset [0x10, 0x41, 0x00, 0x00, 0x20]
      (wildCopy [0x10, 0x41, 0x00, 0x00, 0x20]
        (logRead ⟨8, fun _ => 0, []⟩ Region.input 0 1) 0 Region.input 1 1) 2).1 = 0 ∧
    ∃ st1, decompressBlock [0x10, 0x41, 0x00, 0x00, 0x20] ⟨8, fun _ => 0, []⟩
      = some (LLZ4_ERROR_INVALID_DATA, st1) :=
  ⟨Reaches.start, by decide, by decide,
    zero_offset_rejected [0x10, 0x41, 0x00, 0x00, 0x20] ⟨8, fun _ => 0, []⟩
      ⟨0, 0, ⟨8, fun _ => 0, []⟩⟩ 2 1
      (wildCopy [0x10, 0x41, 0x00, 0x00, 0x20]
        (logRead ⟨8, fun _ => 0, []⟩ Region.input 0 1) 0 Region.input 1 1)
      Reaches.start (by decide) rfl (by decide)⟩

/-- C4, evaluation at the failing input: on the input of sixteen bytes `00`
with an output buffer of 15 bytes, the token announces no literals, the fast
path is taken with exactly 15 bytes left on both sides, and the 16-byte wild
copy reads the input index 16 and writes the output index 15.  The two
accesses listed are the ones of the run that leave their buffer. -/
theorem decoder_wild_copy_leaves_buffers :
    ((decompressBlock [0, 0, 0, 0, 0, 0, 0, 0, 0, 0, 0, 0, 0, 0, 0, 0]
        ⟨15, fun _ => 0, []⟩).map (fun r => (r.1, r.2.mem.log.filter
          (fun a => ! decide (a.inBounds 16 15)))))
      = some (LLZ4_ERROR_INVALID_DATA,
          [⟨Region.output, true, 8, 8⟩, ⟨Region.input, false, 9, 8⟩]) := by
  decide

/-- C6, evaluation at the failing input: `30 41 42 43 05 00 00` claims offset 5
after three literals, and `decompressBlock` with 7 bytes of output returns
`LLZ4_ERROR_OK` with 7 bytes written, having read the output at index -2. -/
theorem out_of_window_offset_accepted :
    (decompressBlock [0x30, 0x41, 0x42, 0x43, 0x05, 0x00, 0x00] ⟨7, fun _ => 0, []⟩).map
        (fun r => (r.1, r.2.outPtr, r.2.mem.log.filter (fun a => ! decide (a.inBounds 7 7))))
      = some (LLZ4_ERROR_OK, 7, [⟨Region.output, false, -2, 4⟩]) := by
  decide

/-! ## Level 0 -/

/-- C9 as stated fails: for 15 input bytes the block at level 0 has 17 bytes
(token `f0`, one length byte `00`, the literals), not
`1 + ⌈(15 - 15) / 255⌉ + 15 = 16`. -/
theorem level0_length_counterexample :
    (LLZ4_compressBlock (fun _ => none) (List.replicate 15 0) ⟨17, fun _ => 0, []⟩ 0).map
        (fun r => (r.1, r.2.2.bytes 17))
      = some (17, 240 :: 0 :: List.replicate 15 0) ∧
    (17 : Nat) ≠ 1 + (15 - 15 + 254) / 255 + 15 := by
  decide

/-- C9 as amended.  At level 0, with room for `LLZ4_compressBlockBound` bytes,
the block is one sequence of literals: for fewer than 15 input bytes the token
`16 * |b|` and the input, `1 + |b|` bytes; otherwise the token `f0`,
`(|b| - 15) / 255` bytes `ff`, the byte `(|b| - 15) % 255` and the input,
`1 + ((|b| - 15) / 255 + 1) + |b|` bytes. -/
theorem level0_shape (b : List Nat) (H : HashBuffer) (out : Mem)
    (hlen : b.length ≤ LLZ4_MAX_BLOCK_SIZE)
    (hcap : LLZ4_compressBlockBound b.length ≤ out.cap) :
    ∃ (n : Nat) (m : Mem), LLZ4_compressBlock H b out 0 = some ((n : Int), H, m) ∧
      n = (if b.length < 15 then 1 + b.length
           else 1 + ((b.length - 15) / 255 + 1) + b.length) ∧
      m.bytes n =
        (if b.length < 15 then 16 * b.length :: b
         else 240 :: (List.replicate ((b.length - 15) / 255) 255
                ++ (b.length - 15) % 255 :: b)) := by
  have hb : LLZ4_compressBlockBound b.length = 1 + b.length + (b.length + 240) / 255 := by
    unfold LLZ4_compressBlockBound
    rw [if_neg (by omega)]
  obtain ⟨m, h1, h2⟩ := level0_block b H out hlen (by omega)
  refine ⟨_, m, h1, ?_, h2⟩
  split_ifs <;> omega

/-- Witness for C9 as amended: fifteen bytes give a block of 17 bytes. -/
theorem level0_shape_witness :
    (List.replicate 15 7).length ≤ LLZ4_MAX_BLOCK_SIZE ∧
    LLZ4_compressBlockBound (List.replicate 15 7).length ≤ (Mem.mk 17 (fun _ => 0) []).cap ∧
    ∃ (n : Nat) (m : Mem), LLZ4_compressBlock (fun _ => none) (List.replicate 15 7) ⟨17, fun _ => 0, []⟩ 0
        = some ((n : Int), (fun _ => none), m) ∧
      n = 17 ∧ m.bytes n = 240 :: 0 :: List.replicate 15 7 :=
  ⟨by decide, by decide,
    level0_shape (List.replicate 15 7) (fun _ => none) ⟨17, fun _ => 0, []⟩
      (by decide) (by decide)⟩

/-- C10. An input of fewer than 15 bytes, compressed at level 0 into a buffer
of at least `1 + |b|` bytes, gives `1 + |b|` bytes: the token `16 * |b|` and the
input itself (`00` for the empty input).  Decompressing the block `00` gives 0
bytes with `LLZ4_ERROR_OK`, for every output buffer. -/
theorem short_input_stored_verbatim (b : List Nat) (H : HashBuffer) (out : Mem)
    (hlen : b.length < 15) (hcap : 1 + b.length ≤ out.cap) :
    (∃ m, LLZ4_compressBlock H b out 0 = some (((1 + b.length : Nat) : Int), H, m) ∧
      m.bytes (1 + b.length) = 16 * b.length :: b) ∧
    (∀ dout, ∃ m2, LLZ4_decompressBlock [0x00] dout = some (0, m2)) := by
  constructor
  · have hz : (b.length + 240) / 255 = 0 := by omega
    obtain ⟨m, h1, h2⟩ := level0_block b H out (by unfold LLZ4_MAX_BLOCK_SIZE; omega) (by omega)
    rw [hz, if_pos hlen] at h2
    rw [hz] at h1
    exact ⟨m, h1, h2⟩
  · intro dout
    simp [LLZ4_decompressBlock, decompressBlock, decompressLoop, decompressSeq,
      decompressLiterals, readLiteralLength, LLZ4_MAX_BLOCK_SIZE, LLZ4_ERROR_OK, toInt32]

/-- Witness for C10: `"ABC"` is stored as `30 41 42 43`. -/
theorem short_input_stored_verbatim_witness :
    [0x41, 0x42, 0x43].length < 15 ∧ 1 + [0x41, 0x42, 0x43].length ≤ (Mem.mk 4 (fun _ => 0) []).cap ∧
    (∃ m, LLZ4_compressBlock (fun _ => none) [0x41, 0x42, 0x43] ⟨4, fun _ => 0, []⟩ 0
        = some (4, (fun _ => none), m) ∧
      m.bytes 4 = [0x30, 0x41, 0x42, 0x43]) ∧
    (∀ dout, ∃ m2, LLZ4_decompressBlock [0x00] dout = some (0, m2)) :=
  ⟨by decide, by decide,
    short_input_stored_verbatim [0x41, 0x42, 0x43] (fun _ => none) ⟨4, fun _ => 0, []⟩
      (by decide) (by decide)⟩

end LLZ4

namespace LLZ4

/-! ## The encoder and the round trip -/

/-- C2. For an input of at most `LLZ4_MAX_BLOCK_SIZE` bytes and an output buffer
of at least `LLZ4_compressBlockBound` bytes, at every level (0..9 and all
others, which are coerced) and whatever the hash table and the memory behind it
hold, `compressBlock` returns with `LLZ4_ERROR_OK`, neither the check before a
sequence nor the check before the final literals failing, and
`LLZ4_compressBlock` returns a byte count, not
`LLZ4_ERROR_NOT_ENOUGH_OF_SPACE`. -/
theorem bound_is_sufficient (b : List Nat) (H : HashBuffer) (out : Mem) (level : Int)
    (hlen : b.length ≤ LLZ4_MAX_BLOCK_SIZE)
    (hcap : LLZ4_compressBlockBound b.length ≤ out.cap) :
    (∃ r, compressBlock b out H (levelParams level).1 (levelParams level).2 = some r ∧
      r.errorCode = LLZ4_ERROR_OK) ∧
    (∃ (n : Nat) (H1 : HashBuffer) (m : Mem),
      LLZ4_compressBlock H b out level = some ((n : Int), H1, m) ∧
      (n : Int) ≠ LLZ4_ERROR_NOT_ENOUGH_OF_SPACE) ∧
    LLZ4_compressBlockBound b.length = 1 + b.length + (b.length + 240) / 255 := by
  have hb : LLZ4_compressBlockBound b.length = 1 + b.length + (b.length + 240) / 255 := by
    unfold LLZ4_compressBlockBound
    rw [if_neg (by omega)]
  obtain ⟨r, e, e1⟩ := compressBlock_api_base b H out level hlen
  rcases e1 with ⟨a, _, a2⟩ | ⟨_, a1, _⟩
  · refine ⟨⟨r, e, a⟩, ⟨r.outNext, r.buffer, r.mem, a2, ?_⟩, hb⟩
    unfold LLZ4_ERROR_NOT_ENOUGH_OF_SPACE
    omega
  · omega

/-- Witness for C2: thirty bytes `00` at level 1 into a buffer of 32 bytes. -/
theorem bound_is_sufficient_witness :
    (List.replicate 30 0).length ≤ LLZ4_MAX_BLOCK_SIZE ∧
    LLZ4_compressBlockBound (List.replicate 30 0).length ≤ (Mem.mk 32 (fun _ => 0) []).cap ∧
    (LLZ4_compressBlock (fun _ => none) (List.replicate 30 0) ⟨32, fun _ => 0, []⟩ 1).map
        (fun r => (r.1, r.2.2.bytes 11))
      = some (11, [0x1f, 0, 1, 0, 5, 0x50, 0, 0, 0, 0, 0]) ∧
    ((∃ r, compressBlock (List.replicate 30 0) ⟨32, fun _ => 0, []⟩ (fun _ => none)
        (levelParams 1).1 (levelParams 1).2 = some r ∧ r.errorCode = LLZ4_ERROR_OK) ∧
    (∃ (n : Nat) (H1 : HashBuffer) (m : Mem),
      LLZ4_compressBlock (fun _ => none) (List.replicate 30 0) ⟨32, fun _ => 0, []⟩ 1
        = some ((n : Int), H1, m) ∧
      (n : Int) ≠ LLZ4_ERROR_NOT_ENOUGH_OF_SPACE) ∧
    LLZ4_compressBlockBound (List.replicate 30 0).length
      = 1 + (List.replicate 30 0).length + ((List.replicate 30 0).length + 240) / 255) :=
  ⟨by decide, by decide, by decide,
    bound_is_sufficient (List.replicate 30 0) (fun _ => none) ⟨32, fun _ => 0, []⟩ 1
      (by decide) (by decide)⟩

/-- C3. For an input of at most `LLZ4_MAX_BLOCK_SIZE` bytes, every level, every
output buffer and whatever the hash table and the memory behind it hold, the
encoder returns, and when it succeeds (the error code of `compressBlock` is
`LLZ4_ERROR_OK`, the value of `LLZ4_compressBlock` is not negative) the number
of bytes written is at most
`LLZ4_compressBlockBound = 1 + |b| + (|b| + 240) / 255`. -/
theorem output_within_bound (b : List Nat) (H : HashBuffer) (out : Mem) (level : Int)
    (hlen : b.length ≤ LLZ4_MAX_BLOCK_SIZE) :
    (∃ r, compressBlock b out H (levelParams level).1 (levelParams level).2 = some r ∧
      (r.errorCode = LLZ4_ERROR_OK → r.outNext ≤ LLZ4_compressBlockBound b.length)) ∧
    (∃ (n : Int) (H1 : HashBuffer) (m : Mem),
      LLZ4_compressBlock H b out level = some (n, H1, m) ∧
      (0 ≤ n → n ≤ (LLZ4_compressBlockBound b.length : Int)) ∧
      LLZ4_compressBlockBound b.length = 1 + b.length + (b.length + 240) / 255) := by
  have hb : LLZ4_compressBlockBound b.length = 1 + b.length + (b.length + 240) / 255 := by
    unfold LLZ4_compressBlockBound
    rw [if_neg (by omega)]
  obtain ⟨r, e, e1⟩ := compressBlock_api_base b H out level hlen
  rcases e1 with ⟨a, a1, a2⟩ | ⟨a, _, a2⟩
  · refine ⟨⟨r, e, fun _ => by omega⟩, r.outNext, r.buffer, r.mem, a2, ?_, hb⟩
    intro _
    omega
  · refine ⟨⟨r, e, ?_⟩, LLZ4_ERROR_NOT_ENOUGH_OF_SPACE, r.buffer, r.mem, a2, ?_, hb⟩
    · intro h
      rw [a] at h
      exact absurd h error_codes_differ
    · intro h
      unfold LLZ4_ERROR_NOT_ENOUGH_OF_SPACE at h
      omega

/-- Witness for C3: thirty bytes `00` at level 5 into a buffer of 23 bytes. -/
theorem output_within_bound_witness :
    (List.replicate 30 0).length ≤ LLZ4_MAX_BLOCK_SIZE ∧
    (LLZ4_compressBlock (fun _ => none) (List.replicate 30 0) ⟨23, fun _ => 0, []⟩ 5).map
        (fun r => r.1) = some 11 ∧
    ((∃ r, compressBlock (List.replicate 30 0) ⟨23, fun _ => 0, []⟩ (fun _ => none)
        (levelParams 5).1 (levelParams 5).2 = some r ∧
      (r.errorCode = LLZ4_ERROR_OK →
        r.outNext ≤ LLZ4_compressBlockBound (List.replicate 30 0).length)) ∧
    (∃ (n : Int) (H1 : HashBuffer) (m : Mem),
      LLZ4_compressBlock (fun _ => none) (List.replicate 30 0) ⟨23, fun _ => 0, []⟩ 5
        = some (n, H1, m) ∧
      (0 ≤ n → n ≤ (LLZ4_compressBlockBound (List.replicate 30 0).length : Int)) ∧
      LLZ4_compressBlockBound (List.replicate 30 0).length
        = 1 + (List.replicate 30 0).length + ((List.replicate 30 0).length + 240) / 255)) :=
  ⟨by decide, by decide,
    output_within_bound (List.replicate 30 0) (fun _ => none) ⟨23, fun _ => 0, []⟩ 5
      (by decide)⟩

/-- Without entries of an earlier call in the slots that the windows of `b`
select, the block that `compressBlock` produces is rejected with
`LLZ4_ERROR_NOT_ENOUGH_OF_SPACE` by `decompressBlock` in every output buffer of
fewer than `|b|` bytes. -/
theorem encoded_small_output (b : List Nat) (H : HashBuffer) (out : Mem) (level : Int)
    (dout : Mem) (hb : IsBytes b) (hsmall : dout.cap < b.length)
    (hstale : ∀ p, 2 ^ LLZ4_HASH_SIZE ≤ hashIndexWide (load32 b p) →
      H (hashIndexWide (load32 b p)) = none) :
    ∃ r, compressBlock b out H (levelParams level).1 (levelParams level).2 = some r ∧
      (r.errorCode = LLZ4_ERROR_OK →
        ∃ st, decompressBlock (r.mem.bytes r.outNext) dout
          = some (LLZ4_ERROR_NOT_ENOUGH_OF_SPACE, st)) := by
  obtain ⟨r, e, e1⟩ :=
    compressBlock_spec b out H (levelParams level).1 (levelParams level).2 hstale
  refine ⟨r, e, ?_⟩
  intro hok
  rcases e1 with ⟨_, a1⟩ | ⟨a, _⟩
  · obtain ⟨DF, d, _⟩ := encoded_decode b hb out.cap r a1 dout
    rw [if_neg (by omega)] at d
    exact ⟨DF, d⟩
  · rw [a] at hok
    exact absurd hok error_codes_differ

/-- C8, evaluation at the failing input: the 30 bytes `01 .. 0a` three times,
compressed twice at level 1 with the same table.  The second call finds at
position 1 the entry that the first call left in a slot behind the table, and
its block `1f 01 00 00 05 50 06 07 08 09 0a` holds the offset 0;
`decompressBlock` on it with an output buffer of 29 bytes, fewer than the 30 of
the input, returns `LLZ4_ERROR_INVALID_DATA`. -/
theorem stale_entry_block_rejected :
    (((compressBlock [1, 2, 3, 4, 5, 6, 7, 8, 9, 10, 1, 2, 3, 4, 5, 6, 7, 8, 9, 10,
          1, 2, 3, 4, 5, 6, 7, 8, 9, 10] ⟨32, fun _ => 0, []⟩ (fun _ => none)
          (levelParams 1).1 (levelParams 1).2).bind
        (fun r1 => compressBlock [1, 2, 3, 4, 5, 6, 7, 8, 9, 10, 1, 2, 3, 4, 5, 6, 7, 8, 9, 10,
          1, 2, 3, 4, 5, 6, 7, 8, 9, 10] ⟨32, fun _ => 0, []⟩ r1.buffer
          (levelParams 1).1 (levelParams 1).2)).bind
      (fun r => (decompressBlock (r.mem.bytes r.outNext) ⟨29, fun _ => 0, []⟩).map
        (fun d => (r.errorCode, r.mem.bytes r.outNext, d.1))))
      = some (LLZ4_ERROR_OK, [0x1f, 1, 0, 0, 5, 0x50, 6, 7, 8, 9, 10],
          LLZ4_ERROR_INVALID_DATA) := by
  decide

end LLZ4
namespace LLZ4

/-! ## The encoder on its input and output buffers -/

/-- C11, evaluation at the failing input: fifteen bytes `00` at level 1.  The
match found at position 1 is counted in words of four bytes up to position 13,
past `endMatch = 15 - 5 = 10`; the block is `18 00 01 00 20 00 00`, its match
covers the input positions 1 to 12, and the final literals, which start at
`inNext = 13`, are the last two bytes only. -/
theorem match_enters_last_five :
    (compressBlock (List.replicate 15 0) ⟨17, fun _ => 0, []⟩ (fun _ => none)
        (levelParams 1).1 (levelParams 1).2).map
        (fun r => (r.errorCode, r.inNext, r.mem.bytes r.outNext))
      = some (LLZ4_ERROR_OK, 13, [0x18, 0x00, 0x01, 0x00, 0x20, 0x00, 0x00]) ∧
    ¬ (13 ≤ (List.replicate 15 0).length - 5) := by
  decide

/-- C12, evaluation at the failing input: fifteen bytes `00` at level 9.  The
match ends at position 13, the thorough pass re-enters the positions 2 to 12
into the table, and the 4-byte load at position 12 reads the index 15, the
size of the input.  It is the one access of the run that leaves its buffer. -/
theorem reindex_reads_past_input :
    (compressBlock (List.replicate 15 0) ⟨17, fun _ => 0, []⟩ (fun _ => none)
        (levelParams 9).1 (levelParams 9).2).map
        (fun r => (r.errorCode, r.mem.log.filter (fun a => ! decide (a.inBounds 15 17))))
      = some (LLZ4_ERROR_OK, [⟨Region.input, false, 12, 4⟩]) := by
  decide

/-- C13. For every input, every acceleration, both values of `thorough`, every
output buffer and whatever the hash table and the memory behind it hold,
`compressBlock` returns, and every write it made to the output (the accesses it
added to the log, the 8-byte chunks of the literal copy included) lies inside
the output buffer. -/
theorem encoder_writes_within (b : List Nat) (out : Mem) (H : HashBuffer) (acc : Nat)
    (thorough : Bool) :
    ∃ r, compressBlock b out H acc thorough = some r ∧
      ∃ added : List Access, r.mem.log = added ++ out.log ∧
        ∀ a ∈ added, a.write = true → a.inBounds b.length out.cap := by
  obtain ⟨r, e, _⟩ := compressBlock_base b out H acc thorough
  exact ⟨r, e, writesFrom_compressBlock b out H acc thorough r e⟩

/-- Example for C13: fifteen bytes `00` at level 1 into 17 bytes.  The one
literal is copied as a chunk of 8 bytes at index 1, inside the buffer. -/
theorem encoder_writes_within_witness :
    (compressBlock (List.replicate 15 0) ⟨17, fun _ => 0, []⟩ (fun _ => none) 8 false).map
        (fun r => r.mem.log.filter (fun a => a.write))
      = some [⟨Region.output, true, 5, 2⟩, ⟨Region.output, true, 4, 1⟩,
          ⟨Region.output, true, 3, 1⟩, ⟨Region.output, true, 2, 1⟩,
          ⟨Region.output, true, 1, 8⟩, ⟨Region.output, true, 0, 1⟩] ∧
    ∃ r, compressBlock (List.replicate 15 0) ⟨17, fun _ => 0, []⟩ (fun _ => none) 8 false
        = some r ∧
      ∃ added : List Access, r.mem.log = added ++ [] ∧
        ∀ a ∈ added, a.write = true → a.inBounds 15 17 :=
  ⟨by decide,
    encoder_writes_within (List.replicate 15 0) ⟨17, fun _ => 0, []⟩ (fun _ => none) 8 false⟩

/-- C14. For an input within `LLZ4_MAX_BLOCK_SIZE`, `LLZ4_compressBlock` at
`level` returns what `compressBlock` returns with the acceleration and the
thorough mode `levelParams level`: its error code, or the number of bytes
written, with the table and the buffer it left; a longer input is refused at
every level with `LLZ4_ERROR_INVALID_PARAMS`.  A negative level selects
`(8, false)` as level 1 does and a level above 9 selects `(1, true)` as level 9
does, so the results are those of level 1 and of level 9; the levels 0 to 9
select the pairs listed. -/
theorem level_coercion (H : HashBuffer) (b : List Nat) (out : Mem) (level : Int) :
    (b.length ≤ LLZ4_MAX_BLOCK_SIZE →
      ∃ r, compressBlock b out H (levelParams level).1 (levelParams level).2 = some r ∧
        LLZ4_compressBlock H b out level
          = some (if r.errorCode ≠ LLZ4_ERROR_OK then r.errorCode else toInt32 r.outNext,
              r.buffer, r.mem)) ∧
    (LLZ4_MAX_BLOCK_SIZE < b.length →
      LLZ4_compressBlock H b out level = some (LLZ4_ERROR_INVALID_PARAMS, H, out)) ∧
    (level < 0 → levelParams level = (8, false) ∧
      LLZ4_compressBlock H b out level = LLZ4_compressBlock H b out 1) ∧
    (9 < level → levelParams level = (1, true) ∧
      LLZ4_compressBlock H b out level = LLZ4_compressBlock H b out 9) ∧
    levelParams 0 = (0, false) ∧ levelParams 1 = (8, false) ∧ levelParams 2 = (7, false) ∧
    levelParams 3 = (6, false) ∧ levelParams 4 = (5, false) ∧ levelParams 5 = (4, false) ∧
    levelParams 6 = (3, false) ∧ levelParams 7 = (2, false) ∧ levelParams 8 = (1, false) ∧
    levelParams 9 = (1, true) := by
  refine ⟨?_, ?_, ?_, ?_, by decide, by decide, by decide, by decide, by decide, by decide,
    by decide, by decide, by decide, by decide⟩
  · intro hlen
    obtain ⟨r, e, _⟩ := compressBlock_base b out H (levelParams level).1 (levelParams level).2
    refine ⟨r, e, ?_⟩
    unfold LLZ4_compressBlock
    rw [if_neg (by omega)]
    simp only [e]
    by_cases hok : r.errorCode ≠ LLZ4_ERROR_OK
    · rw [if_pos hok, if_pos hok]
    · rw [if_neg hok, if_neg hok]
  · intro hlen
    unfold LLZ4_compressBlock
    rw [if_pos hlen]
  · intro h
    refine ⟨levelParams_neg level h, ?_⟩
    unfold LLZ4_compressBlock
    rw [levelParams_neg level h]
  · intro h
    refine ⟨levelParams_high level h, ?_⟩
    unfold LLZ4_compressBlock
    rw [levelParams_high level h]

/-- Example for C14: thirty bytes `00` at the levels -3 and 12.  The result is
the one of `compressBlock` with acceleration 8 without the thorough mode, and
with acceleration 1 in the thorough mode.  An input of 0x7E000001 bytes is
refused. -/
theorem level_coercion_witness :
    ((-3 : Int) < 0 ∧ (9 : Int) < 12 ∧ (List.replicate 30 0).length ≤ LLZ4_MAX_BLOCK_SIZE ∧
      LLZ4_MAX_BLOCK_SIZE < (List.replicate 0x7E000001 0).length) ∧
    LLZ4_compressBlock (fun _ => none) (List.replicate 0x7E000001 0) ⟨32, fun _ => 0, []⟩ 4
      = some (LLZ4_ERROR_INVALID_PARAMS, fun _ => none, ⟨32, fun _ => 0, []⟩) ∧
    (compressBlock (List.replicate 30 0) ⟨32, fun _ => 0, []⟩ (fun _ => none) 8 false).map
        (fun r => (r.errorCode, r.outNext)) = some (LLZ4_ERROR_OK, 11) ∧
    (LLZ4_compressBlock (fun _ => none) (List.replicate 30 0) ⟨32, fun _ => 0, []⟩ (-3)).map
        (fun r => r.1) = some 11 ∧
    (∃ r, compressBlock (List.replicate 30 0) ⟨32, fun _ => 0, []⟩ (fun _ => none)
        (levelParams (-3)).1 (levelParams (-3)).2 = some r ∧
      LLZ4_compressBlock (fun _ => none) (List.replicate 30 0) ⟨32, fun _ => 0, []⟩ (-3)
        = some (if r.errorCode ≠ LLZ4_ERROR_OK then r.errorCode else toInt32 r.outNext,
            r.buffer, r.mem)) ∧
    (levelParams (-3) = (8, false) ∧
      LLZ4_compressBlock (fun _ => none) (List.replicate 30 0) ⟨32, fun _ => 0, []⟩ (-3)
        = LLZ4_compressBlock (fun _ => none) (List.replicate 30 0) ⟨32, fun _ => 0, []⟩ 1) ∧
    (levelParams 12 = (1, true) ∧
      LLZ4_compressBlock (fun _ => none) (List.replicate 30 0) ⟨32, fun _ => 0, []⟩ 12
        = LLZ4_compressBlock (fun _ => none) (List.replicate 30 0) ⟨32, fun _ => 0, []⟩ 9) :=
  ⟨⟨by decide, by decide, by decide, by rw [List.length_replicate]; decide⟩,
    (level_coercion (fun _ => none) (List.replicate 0x7E000001 0) ⟨32, fun _ => 0, []⟩ 4).2.1
      (by rw [List.length_replicate]; decide),
    by decide, by decide,
    (level_coercion (fun _ => none) (List.replicate 30 0) ⟨32, fun _ => 0, []⟩ (-3)).1
      (by decide),
    (level_coercion (fun _ => none) (List.replicate 30 0) ⟨32, fun _ => 0, []⟩ (-3)).2.2.1
      (by decide),
    (level_coercion (fun _ => none) (List.replicate 30 0) ⟨32, fun _ => 0, []⟩ 12).2.2.2.1
      (by decide)⟩

/-- C15, evaluation at the failing input: the 30 bytes `01 .. 0a` three times,
compressed twice at level 1 with the same table.  In the second call the pass
at position 1 reads from a slot behind the table the entry 1 that the first
call stored there; the candidate is the position itself, not an earlier one,
it passes the window test and the comparison, and the sequence written holds
the offset 0 in its bytes 2 and 3. -/
theorem stale_entry_offset_zero :
    (compressBlock [1, 2, 3, 4, 5, 6, 7, 8, 9, 10, 1, 2, 3, 4, 5, 6, 7, 8, 9, 10,
        1, 2, 3, 4, 5, 6, 7, 8, 9, 10] ⟨32, fun _ => 0, []⟩ (fun _ => none)
        (levelParams 1).1 (levelParams 1).2).map
      (fun r1 =>
        (hashIndexWide (load32 [1, 2, 3, 4, 5, 6, 7, 8, 9, 10, 1, 2, 3, 4, 5, 6, 7, 8, 9, 10,
            1, 2, 3, 4, 5, 6, 7, 8, 9, 10] 1),
          (updateHash [1, 2, 3, 4, 5, 6, 7, 8, 9, 10, 1, 2, 3, 4, 5, 6, 7, 8, 9, 10,
              1, 2, 3, 4, 5, 6, 7, 8, 9, 10] 1
            (updateHash [1, 2, 3, 4, 5, 6, 7, 8, 9, 10, 1, 2, 3, 4, 5, 6, 7, 8, 9, 10,
              1, 2, 3, 4, 5, 6, 7, 8, 9, 10] 0 (clearTable r1.buffer)
              ⟨32, fun _ => 0, []⟩).2.1 ⟨32, fun _ => 0, []⟩).1,
          memcmp4 [1, 2, 3, 4, 5, 6, 7, 8, 9, 10, 1, 2, 3, 4, 5, 6, 7, 8, 9, 10,
            1, 2, 3, 4, 5, 6, 7, 8, 9, 10] 1 1,
          offsetOf 1 1))
      = some (1678151592, some 1, true, 0) ∧
    ((compressBlock [1, 2, 3, 4, 5, 6, 7, 8, 9, 10, 1, 2, 3, 4, 5, 6, 7, 8, 9, 10,
        1, 2, 3, 4, 5, 6, 7, 8, 9, 10] ⟨32, fun _ => 0, []⟩ (fun _ => none)
        (levelParams 1).1 (levelParams 1).2).bind
      (fun r1 => compressBlock [1, 2, 3, 4, 5, 6, 7, 8, 9, 10, 1, 2, 3, 4, 5, 6, 7, 8, 9, 10,
        1, 2, 3, 4, 5, 6, 7, 8, 9, 10] ⟨32, fun _ => 0, []⟩ r1.buffer
        (levelParams 1).1 (levelParams 1).2)).map
      (fun r => (r.errorCode, r.mem.data 0, r.mem.data 1, r.mem.data 2, r.mem.data 3))
      = some (LLZ4_ERROR_OK, 0x1f, 1, 0, 0) := by
  decide

end LLZ4
namespace LLZ4

/-! ## A table used twice, scenario S3, the match copy and the length encoding -/

/-- C16, evaluation at the failing input: the 30 bytes `01 .. 0a` three times,
compressed at level 1 into 32 bytes, once with a table without entries and once
with the table that this call left.  The first call writes the 18 bytes
`ac 01 .. 0a 0a 00 40 07 08 09 0a`; the second, which finds the entries of the
first in slots behind the table that `memset` did not clear, writes the 11
bytes `1f 01 00 00 05 50 06 07 08 09 0a`. -/
theorem stale_entry_changes_block :
    (compressBlock [1, 2, 3, 4, 5, 6, 7, 8, 9, 10, 1, 2, 3, 4, 5, 6, 7, 8, 9, 10,
        1, 2, 3, 4, 5, 6, 7, 8, 9, 10] ⟨32, fun _ => 0, []⟩ (fun _ => none)
        (levelParams 1).1 (levelParams 1).2).map
      (fun r => (r.errorCode, r.outNext, r.mem.bytes r.outNext))
      = some (LLZ4_ERROR_OK, 18,
          [0xac, 1, 2, 3, 4, 5, 6, 7, 8, 9, 10, 10, 0, 0x40, 7, 8, 9, 10]) ∧
    ((compressBlock [1, 2, 3, 4, 5, 6, 7, 8, 9, 10, 1, 2, 3, 4, 5, 6, 7, 8, 9, 10,
        1, 2, 3, 4, 5, 6, 7, 8, 9, 10] ⟨32, fun _ => 0, []⟩ (fun _ => none)
        (levelParams 1).1 (levelParams 1).2).bind
      (fun r1 => compressBlock [1, 2, 3, 4, 5, 6, 7, 8, 9, 10, 1, 2, 3, 4, 5, 6, 7, 8, 9, 10,
        1, 2, 3, 4, 5, 6, 7, 8, 9, 10] ⟨32, fun _ => 0, []⟩ r1.buffer
        (levelParams 1).1 (levelParams 1).2)).map
      (fun r => (r.errorCode, r.outNext, r.mem.bytes r.outNext))
      = some (LLZ4_ERROR_OK, 11, [0x1f, 1, 0, 0, 5, 0x50, 6, 7, 8, 9, 10]) := by
  decide

/-- C17 as stated fails: on the 19 bytes `f0 (00 x 15) 01 00 0b` with an output
buffer of 30 bytes `LLZ4_decompressBlock` returns `LLZ4_ERROR_INVALID_DATA`, not
30. -/
theorem scenario_s3_counterexample :
    (LLZ4_decompressBlock [0xf0, 0, 0, 0, 0, 0, 0, 0, 0, 0, 0, 0, 0, 0, 0, 0, 1, 0, 0x0b]
        ⟨30, fun _ => 0, []⟩).map (fun r => r.1) = some LLZ4_ERROR_INVALID_DATA ∧
    LLZ4_ERROR_INVALID_DATA ≠ 30 := by
  decide

/-- C17 as amended.  With an output buffer of 30 bytes or more, the 19 bytes
`f0 (00 x 15) 01 00 0b` are rejected with `LLZ4_ERROR_INVALID_DATA`, and the
block `fb 00 (00 x 15) 01 00 00` (token: 15 literals and match length 11 + 4,
extension byte `00`, fifteen literals `00`, offset 1, closing token `00`)
decompresses to 30 bytes, all `00`. -/
theorem scenario_s3 (dout : Mem) (hcap : 30 ≤ dout.cap) :
    (∃ m, LLZ4_decompressBlock [0xf0, 0, 0, 0, 0, 0, 0, 0, 0, 0, 0, 0, 0, 0, 0, 0, 1, 0, 0x0b] dout
      = some (LLZ4_ERROR_INVALID_DATA, m)) ∧
    (∃ m, LLZ4_decompressBlock [0xfb, 0, 0, 0, 0, 0, 0, 0, 0, 0, 0, 0, 0, 0, 0, 0, 0, 1, 0, 0] dout
        = some (30, m) ∧ m.bytes 30 = List.replicate 30 0) := by
  constructor
  · obtain ⟨st, h⟩ := scenario_bytes_rejected dout (by omega)
    refine ⟨st.mem, ?_⟩
    unfold LLZ4_decompressBlock
    rw [if_neg (by decide), h]
    rfl
  · obtain ⟨DF, h, h1, h2⟩ := overlap_block_decodes dout hcap
    refine ⟨DF.mem, ?_, ?_⟩
    · unfold LLZ4_decompressBlock
      rw [if_neg (by decide), h]
      simp only
      rw [if_neg (by simp), h1]
      rfl
    · have := bytes_eq_of_forall DF.mem (List.replicate 30 0) (by
        intro i hi
        rw [List.length_replicate] at hi
        rw [h2 i hi, getD_replicate_zero])
      rw [List.length_replicate] at this
      exact this

/-- Witness for C17 as amended: an output buffer of 30 bytes `07`. -/
theorem scenario_s3_witness :
    30 ≤ (Mem.mk 30 (fun _ => 7) []).cap ∧
    (∃ m, LLZ4_decompressBlock [0xf0, 0, 0, 0, 0, 0, 0, 0, 0, 0, 0, 0, 0, 0, 0, 0, 1, 0, 0x0b]
      ⟨30, fun _ => 7, []⟩ = some (LLZ4_ERROR_INVALID_DATA, m)) ∧
    (∃ m, LLZ4_decompressBlock [0xfb, 0, 0, 0, 0, 0, 0, 0, 0, 0, 0, 0, 0, 0, 0, 0, 0, 1, 0, 0]
        ⟨30, fun _ => 7, []⟩ = some (30, m) ∧ m.bytes 30 = List.replicate 30 0) :=
  ⟨by decide, scenario_s3 ⟨30, fun _ => 7, []⟩ (by decide)⟩

/-- C18. In the match part of a sequence of `decompressBlock`, with the output
cursor at `q`, for an offset read `O` with `1 ≤ O ≤ q` and a match length read
`M` with `q + M ≤` capacity: `M ≥ 4`, the pass goes on with the cursor at
`q + M`, the bytes before `q` are unchanged, and byte `q + j` equals byte
`q + j - O` for every `j < M`, whether `M ≤ O` or `M > O`; with `O = 1` all `M`
bytes equal the byte before `q`. -/
theorem match_copy_semantics (c : List Nat) (token p q : Nat) (m : Mem)
    (hoff1 : 1 ≤ (blockReadOffset c m p).1) (hoffq : (blockReadOffset c m p).1 ≤ q)
    (hroom : q + (readMatchLength c (blockReadOffset c m p).2.2 token
      (blockReadOffset c m p).2.1).1 ≤ m.cap) :
    4 ≤ (readMatchLength c (blockReadOffset c m p).2.2 token (blockReadOffset c m p).2.1).1 ∧
    ∃ st, decompressMatch c token p q m = DStep.next st ∧
      st.outPtr = q + (readMatchLength c (blockReadOffset c m p).2.2 token
        (blockReadOffset c m p).2.1).1 ∧
      st.mem.cap = m.cap ∧
      (∀ i, i < q → st.mem.data i = m.data i) ∧
      (∀ j, j < (readMatchLength c (blockReadOffset c m p).2.2 token
          (blockReadOffset c m p).2.1).1 →
        st.mem.data (q + j) = st.mem.data (q + j - (blockReadOffset c m p).1)) ∧
      ((blockReadOffset c m p).1 = 1 →
        ∀ j, j < (readMatchLength c (blockReadOffset c m p).2.2 token
            (blockReadOffset c m p).2.1).1 → st.mem.data (q + j) = m.data (q - 1)) := by
  refine ⟨readMatchLength_ge _ _ _ _, ?_⟩
  obtain ⟨st, e, e1, e2, e3, e4⟩ := decompressMatch_run c token p q m hoff1 hoffq hroom
  refine ⟨st, e, e1, e2, e3, e4, ?_⟩
  intro h1 j hj
  rw [h1] at e4 hoffq
  rw [run_of_previous st.mem.data q _ hoffq e4 j hj]
  exact e3 (q - 1) (by omega)

/-- Witness for C18: after the byte `41`, offset 1 and match length 15 in a
buffer of 16 bytes. -/
theorem match_copy_semantics_witness :
    (blockReadOffset [1, 0] ⟨16, fun i => if i = 0 then 0x41 else 0, []⟩ 0).1 = 1 ∧
    (readMatchLength [1, 0] (blockReadOffset [1, 0]
      ⟨16, fun i => if i = 0 then 0x41 else 0, []⟩ 0).2.2 0x0b 2).1 = 15 ∧
    ∃ st, decompressMatch [1, 0] 0x0b 0 1 ⟨16, fun i => if i = 0 then 0x41 else 0, []⟩
        = DStep.next st ∧ st.outPtr = 1 + 15 ∧ st.mem.cap = 16 ∧
      ∀ j, j < 15 → st.mem.data (1 + j) = 0x41 :=
  ⟨by decide, by decide,
    (fun h => h.2.elim (fun st hs => ⟨st, hs.1, hs.2.1, hs.2.2.1,
      fun j hj => hs.2.2.2.2.2 (by decide) j hj⟩))
      (match_copy_semantics [1, 0] 0x0b 0 1 ⟨16, fun i => if i = 0 then 0x41 else 0, []⟩
        (by decide) (by decide) (by decide))⟩

/-- C19. For every length `L` and room for its bytes, `blockWriteLength` writes
`L / 255` bytes `ff` and the byte `L % 255`, `L / 255 + 1` bytes in all (which
is `(L + 15 + 240) / 255`), and leaves the other bytes alone; `blockReadLength`
at the start of these bytes, with an end bound at or behind their end, returns
`L` and the cursor behind them. -/
theorem length_round_trip (m : Mem) (ptr L : Nat) (hcap : ptr + L / 255 + 1 ≤ m.cap) :
    (blockWriteLength m ptr L).2 = ptr + L / 255 + 1 ∧
    (∀ j, j < L / 255 → (blockWriteLength m ptr L).1.data (ptr + j) = 255) ∧
    (blockWriteLength m ptr L).1.data (ptr + L / 255) = L % 255 ∧
    (∀ i, i < ptr ∨ ptr + L / 255 + 1 ≤ i → (blockWriteLength m ptr L).1.data i = m.data i) ∧
    L / 255 + 1 = (L + 15 + 240) / 255 ∧
    (∀ (k : Nat) (e : Int) (dm : Mem), ptr + L / 255 + 1 ≤ k →
      ((ptr + L / 255 + 1 : Nat) : Int) ≤ e →
      (blockReadLength ((blockWriteLength m ptr L).1.bytes k) dm ptr e).1 = L ∧
      (blockReadLength ((blockWriteLength m ptr L).1.bytes k) dm ptr e).2.1
        = ptr + L / 255 + 1) := by
  refine ⟨blockWriteLength_ptr m ptr L, ?_, ?_, ?_, by omega, ?_⟩
  · intro j hj
    rw [blockWriteLength_data, if_pos ⟨by omega, by omega, by omega⟩, if_pos (by omega)]
  · rw [blockWriteLength_data, if_pos ⟨by omega, by omega, by omega⟩, if_neg (by omega)]
  · intro i hi
    rw [blockWriteLength_data, if_neg (by omega)]
  · intro k e dm hk he
    exact blockReadLength_written m ptr L k e dm hcap hk he

/-- Witness for C19: the length 300 is written as `ff 2d` and read back. -/
theorem length_round_trip_witness :
    1 + 300 / 255 + 1 ≤ (Mem.mk 8 (fun _ => 0) []).cap ∧
    (blockWriteLength ⟨8, fun _ => 0, []⟩ 1 300).1.bytes 4 = [0, 0xff, 0x2d, 0] ∧
    (blockWriteLength ⟨8, fun _ => 0, []⟩ 1 300).2 = 1 + 300 / 255 + 1 ∧
    (blockReadLength ((blockWriteLength ⟨8, fun _ => 0, []⟩ 1 300).1.bytes 4)
      ⟨8, fun _ => 0, []⟩ 1 4).1 = 300 :=
  ⟨by decide, by decide,
    (length_round_trip ⟨8, fun _ => 0, []⟩ 1 300 (by decide)).1,
    ((length_round_trip ⟨8, fun _ => 0, []⟩ 1 300 (by decide)).2.2.2.2.2 4 4
      ⟨8, fun _ => 0, []⟩ (by decide) (by decide)).1⟩

/-- C20, evaluation at the failing input: an input that starts with the bytes
`02 00 00 00`.  The 32-bit load gives 2; with the constant typed as a 64-bit
integer the product 5308871522 is not reduced modulo 2^32, and the index
`5308871522 >> 18 = 20251` lies outside the table of 2^14 = 16384 entries.
(Reduced modulo 2^32 the product gives the index 3867.) -/
theorem hash_index_leaves_table :
    load32 [2, 0, 0, 0, 0, 0, 0, 0, 0, 0, 0, 0, 0, 0] 0 = 2 ∧
    hashIndexWide (load32 [2, 0, 0, 0, 0, 0, 0, 0, 0, 0, 0, 0, 0, 0] 0) = 20251 ∧
    ¬ (hashIndexWide (load32 [2, 0, 0, 0, 0, 0, 0, 0, 0, 0, 0, 0, 0, 0] 0)
      < 2 ^ LLZ4_HASH_SIZE) ∧
    2 * 2654435761 < 2 ^ 63 ∧
    hashIndex (load32 [2, 0, 0, 0, 0, 0, 0, 0, 0, 0, 0, 0, 0, 0] 0) = 3867 := by
  decide

end LLZ4
namespace LLZ4

/-! ## The count of `matchCount` -/

/-- C21. For every input of bytes and all positions, the result `c` of
`matchCount(matchPtr, matchEnd, offsetPtr)` is a common-prefix length: the
bytes at `matchPtr + i` and `offsetPtr + i` are equal for every `i < c`, and
the bytes at `matchPtr + c` and `offsetPtr + c` differ or `matchPtr + c` is at
or behind `matchEnd`.  Inside a word whose two loads differ, the byte index
`ctz32 (a ^ b) >> 3` is below 4, the bytes before it are equal and the bytes at
it differ. -/
theorem matchCount_counts_equal_bytes (inp : List Nat) (m : Mem)
    (matchPtr matchEnd offsetPtr : Nat) (hb : IsBytes inp) :
    (∀ i, i < (matchCount inp m matchPtr matchEnd offsetPtr).1 →
      inp.getD (matchPtr + i) 0 = inp.getD (offsetPtr + i) 0) ∧
    (inp.getD (matchPtr + (matchCount inp m matchPtr matchEnd offsetPtr).1) 0
        ≠ inp.getD (offsetPtr + (matchCount inp m matchPtr matchEnd offsetPtr).1) 0 ∨
      matchPtr + (matchCount inp m matchPtr matchEnd offsetPtr).1 ≥ matchEnd) ∧
    (∀ p q, load32 inp p ^^^ load32 inp q ≠ 0 →
      ctz32 (load32 inp p ^^^ load32 inp q) >>> 3 < 4 ∧
      (∀ j, j < ctz32 (load32 inp p ^^^ load32 inp q) >>> 3 →
        inp.getD (p + j) 0 = inp.getD (q + j) 0) ∧
      inp.getD (p + (ctz32 (load32 inp p ^^^ load32 inp q) >>> 3)) 0
        ≠ inp.getD (q + (ctz32 (load32 inp p ^^^ load32 inp q) >>> 3)) 0) := by
  refine ⟨(matchCount_spec inp m matchPtr matchEnd offsetPtr).2.2.2 hb,
    matchCount_stop inp hb m matchPtr matchEnd offsetPtr, ?_⟩
  intro p q hne
  obtain ⟨h4, hdiff⟩ := load32_mismatch inp hb p q hne
  refine ⟨h4, ?_, hdiff⟩
  intro j hj
  have hle : 8 * (ctz32 (load32 inp p ^^^ load32 inp q) >>> 3)
      ≤ ctzLoop 32 (load32 inp p ^^^ load32 inp q) := by
    unfold ctz32
    rw [Nat.shiftRight_eq_div_pow]
    omega
  exact load32_low_bytes inp hb p q _ (by omega) (ctzLoop_mod 32 _ _ hle) j hj

/-- Witness for C21: the bytes from position 9 on repeat the first seven bytes
and then differ; for the positions 9 and 0, with `matchEnd` 16, the count is
7. -/
theorem matchCount_counts_equal_bytes_witness :
    IsBytes [1, 2, 3, 4, 5, 6, 7, 8, 9, 1, 2, 3, 4, 5, 6, 7, 9, 9, 9, 9, 9] ∧
    (matchCount [1, 2, 3, 4, 5, 6, 7, 8, 9, 1, 2, 3, 4, 5, 6, 7, 9, 9, 9, 9, 9]
      ⟨0, fun _ => 0, []⟩ 9 16 0).1 = 7 ∧
    (∀ i, i < (matchCount [1, 2, 3, 4, 5, 6, 7, 8, 9, 1, 2, 3, 4, 5, 6, 7, 9, 9, 9, 9, 9]
        ⟨0, fun _ => 0, []⟩ 9 16 0).1 →
      [1, 2, 3, 4, 5, 6, 7, 8, 9, 1, 2, 3, 4, 5, 6, 7, 9, 9, 9, 9, 9].getD (9 + i) 0
        = [1, 2, 3, 4, 5, 6, 7, 8, 9, 1, 2, 3, 4, 5, 6, 7, 9, 9, 9, 9, 9].getD (0 + i) 0) ∧
    ([1, 2, 3, 4, 5, 6, 7, 8, 9, 1, 2, 3, 4, 5, 6, 7, 9, 9, 9, 9, 9].getD
        (9 + (matchCount [1, 2, 3, 4, 5, 6, 7, 8, 9, 1, 2, 3, 4, 5, 6, 7, 9, 9, 9, 9, 9]
          ⟨0, fun _ => 0, []⟩ 9 16 0).1) 0
      ≠ [1, 2, 3, 4, 5, 6, 7, 8, 9, 1, 2, 3, 4, 5, 6, 7, 9, 9, 9, 9, 9].getD
        (0 + (matchCount [1, 2, 3, 4, 5, 6, 7, 8, 9, 1, 2, 3, 4, 5, 6, 7, 9, 9, 9, 9, 9]
          ⟨0, fun _ => 0, []⟩ 9 16 0).1) 0 ∨
      9 + (matchCount [1, 2, 3, 4, 5, 6, 7, 8, 9, 1, 2, 3, 4, 5, 6, 7, 9, 9, 9, 9, 9]
        ⟨0, fun _ => 0, []⟩ 9 16 0).1 ≥ 16) :=
  ⟨by decide, by decide,
    (matchCount_counts_equal_bytes [1, 2, 3, 4, 5, 6, 7, 8, 9, 1, 2, 3, 4, 5, 6, 7, 9, 9, 9, 9, 9]
      ⟨0, fun _ => 0, []⟩ 9 16 0 (by decide)).1,
    (matchCount_counts_equal_bytes [1, 2, 3, 4, 5, 6, 7, 8, 9, 1, 2, 3, 4, 5, 6, 7, 9, 9, 9, 9, 9]
      ⟨0, fun _ => 0, []⟩ 9 16 0 (by decide)).2.1⟩

end LLZ4
